import Mathlib

/-!
# Thumbnail resolver (scripts/resolve-thumbnails.js)

A shallow embedding of the resolver script: the regular expressions it runs over
fetched markup, the image-extraction strategy chain, URL resolution, the per-URL
step `processProduct` and the driver `main`, followed by theorems about them.

Conventions of the embedding.
* A JavaScript string is a `List Char` (`Str`).  Every pattern of the script
  delimits its matches with ASCII characters, so matching over characters and over
  UTF-16 code units agree.
* A JavaScript exception is the `.error` case of `Except Str`, carrying the
  message; `try { .. } catch` is `tryCatch`.
* The platform services the script calls but does not define (`new URL`,
  `JSON.parse`) are the fields of `Platform`; the network (`fetchHTML`, with its
  redirects and its timeout) is a function giving the outcome of each request,
  the markup or the message of the failure.
* A JavaScript number is a double.  The numbers the script computes, the
  declared sizes of the inline images and their products, are values of `Num`:
  `parseInt` and `*` round to the nearest double and overflow to `Infinity`,
  and `Infinity * 0` is `NaN`.  `Array.prototype.sort` is the stable sort where
  its comparator is a consistent comparator; elsewhere ECMAScript leaves the
  order to the implementation, and it is a field of `Platform`.
* The address list, the mode and the loaded cache, which the script holds in
  `PRODUCT_URLS`, `REFRESH_ENV` and `cache`, are arguments; what the script
  prints is left out.
-/

namespace ResolveThumbnails

/-- JavaScript strings, as sequences of characters. -/
abbrev Str := List Char

/-- The double quote character. -/
def dq : Char := Char.ofNat 34

/-- The single quote character. -/
def sq : Char := Char.ofNat 39

/-! ## Regular expressions

The script uses a small fragment of JavaScript regular expressions: literal
characters (all patterns carry the `i` flag), character classes, greedy `*` and
`+` and lazy `*?` over a character class, and one capture group. -/

/-- The character classes that occur in the patterns of the script. -/
inductive Cls where
  /-- `[^>]` -/
  | notGt
  /-- `[^"']` -/
  | notQuote
  /-- `["']` -/
  | quote
  /-- `\d` -/
  | digit
  /-- `[\s\S]` -/
  | any
  deriving DecidableEq, Repr

/-- Membership of a character in a class. -/
def Cls.test : Cls → Char → Bool
  | .notGt, c => c != '>'
  | .notQuote, c => c != dq && c != sq
  | .quote, c => c == dq || c == sq
  | .digit, c => c.isDigit
  | .any, _ => true

/-- One element of a pattern. -/
inductive Item where
  /-- a literal character, compared ignoring ASCII case (flag `i`) -/
  | lit (c : Char)
  /-- one character of a class -/
  | one (k : Cls)
  /-- greedy `k*` -/
  | star (k : Cls)
  /-- greedy `k+` -/
  | plus (k : Cls)
  /-- lazy `k*?` -/
  | lazyStar (k : Cls)
  /-- `(` : start of the capture group -/
  | gOpen
  /-- `)` : end of the capture group -/
  | gClose
  deriving DecidableEq, Repr

/-- A pattern is a sequence of items. -/
abbrev Regex := List Item

/-- The items of a literal piece of a pattern. -/
def lits (s : String) : Regex := s.toList.map Item.lit

/-- A successful match: `matched` is `match[0]`, `cap` is `match[1]`, `rest` is
the input after the match. -/
structure MatchRes where
  matched : Str
  cap : Str
  rest : Str
  deriving DecidableEq, Repr

/-- Record that character `c` was consumed in front of the match `r`; it belongs
to the capture when consumed inside the group. -/
def consRes (inG : Bool) (c : Char) (r : MatchRes) : MatchRes :=
  { matched := c :: r.matched, cap := if inG then c :: r.cap else r.cap, rest := r.rest }

/-- Greedy repetition of a class followed by the continuation `cont`: take as
many characters as possible, giving one back at a time while `cont` fails. -/
def greedyStar (k : Cls) (inG : Bool) (cont : Str → Option MatchRes) : Str → Option MatchRes
  | [] => cont []
  | c :: cs =>
    if k.test c then
      match greedyStar k inG cont cs with
      | some r => some (consRes inG c r)
      | none => cont (c :: cs)
    else cont (c :: cs)

/-- Lazy repetition of a class followed by the continuation `cont`: take as few
characters as possible, one more each time `cont` fails. -/
def lazyStarM (k : Cls) (inG : Bool) (cont : Str → Option MatchRes) : Str → Option MatchRes
  | [] => cont []
  | c :: cs =>
    match cont (c :: cs) with
    | some r => some r
    | none => if k.test c then (lazyStarM k inG cont cs).map (consRes inG c) else none

/-- Backtracking match of a pattern at the start of the input. -/
def matchHere : Regex → Bool → Str → Option MatchRes
  | [], _, s => some { matched := [], cap := [], rest := s }
  | .lit a :: r, inG, s =>
    match s with
    | c :: cs => if c.toUpper == a.toUpper then (matchHere r inG cs).map (consRes inG c) else none
    | [] => none
  | .one k :: r, inG, s =>
    match s with
    | c :: cs => if k.test c then (matchHere r inG cs).map (consRes inG c) else none
    | [] => none
  | .star k :: r, inG, s => greedyStar k inG (matchHere r inG) s
  | .plus k :: r, inG, s =>
    match s with
    | c :: cs => if k.test c then (greedyStar k inG (matchHere r inG) cs).map (consRes inG c) else none
    | [] => none
  | .lazyStar k :: r, inG, s => lazyStarM k inG (matchHere r inG) s
  | .gOpen :: r, _, s => matchHere r true s
  | .gClose :: r, _, s => matchHere r false s

/-- The method `String.prototype.match` with a pattern without the `g` flag: the
leftmost match, or `none` (JavaScript `null`). -/
def search (re : Regex) : Str → Option MatchRes
  | [] => matchHere re false []
  | c :: cs =>
    match matchHere re false (c :: cs) with
    | some r => some r
    | none => search re cs

/-- Worker of `matchAll`: `skip` characters of the input still belong to the
previous match. -/
def matchAllAux (re : Regex) : Str → Nat → List MatchRes
  | [], _ => []
  | _ :: cs, skip + 1 => matchAllAux re cs skip
  | c :: cs, 0 =>
    match matchHere re false (c :: cs) with
    | some r => r :: matchAllAux re cs (r.matched.length - 1)
    | none => matchAllAux re cs 0

/-- The method `String.prototype.matchAll` with a `g` pattern: all matches from
left to right, each search starting where the previous match ended. -/
def matchAll (re : Regex) (s : Str) : List MatchRes := matchAllAux re s 0

/-- `/<meta[^>]*property=["']og:image["'][^>]*content=["']([^"']+)["']/i` -/
def ogImageRe1 : Regex :=
  lits "<meta" ++ [.star .notGt] ++ lits "property=" ++ [.one .quote] ++ lits "og:image" ++
    [.one .quote, .star .notGt] ++ lits "content=" ++
    [.one .quote, .gOpen, .plus .notQuote, .gClose, .one .quote]

/-- `/<meta[^>]*content=["']([^"']+)["'][^>]*property=["']og:image["']/i` -/
def ogImageRe2 : Regex :=
  lits "<meta" ++ [.star .notGt] ++ lits "content=" ++
    [.one .quote, .gOpen, .plus .notQuote, .gClose, .one .quote, .star .notGt] ++
    lits "property=" ++ [.one .quote] ++ lits "og:image" ++ [.one .quote]

/-- `/<meta[^>]*name=["']twitter:image["'][^>]*content=["']([^"']+)["']/i` -/
def twitterImageRe1 : Regex :=
  lits "<meta" ++ [.star .notGt] ++ lits "name=" ++ [.one .quote] ++ lits "twitter:image" ++
    [.one .quote, .star .notGt] ++ lits "content=" ++
    [.one .quote, .gOpen, .plus .notQuote, .gClose, .one .quote]

/-- `/<meta[^>]*content=["']([^"']+)["'][^>]*name=["']twitter:image["']/i` -/
def twitterImageRe2 : Regex :=
  lits "<meta" ++ [.star .notGt] ++ lits "content=" ++
    [.one .quote, .gOpen, .plus .notQuote, .gClose, .one .quote, .star .notGt] ++
    lits "name=" ++ [.one .quote] ++ lits "twitter:image" ++ [.one .quote]

/-- `/<script[^>]*type=["']application\/ld\+json["'][^>]*>([\s\S]*?)<\/script>/i` -/
def jsonLdRe : Regex :=
  lits "<script" ++ [.star .notGt] ++ lits "type=" ++ [.one .quote] ++
    lits "application/ld+json" ++ [.one .quote, .star .notGt] ++ lits ">" ++
    [.gOpen, .lazyStar .any, .gClose] ++ lits "</script>"

/-- `/<img[^>]*src=["']([^"']+)["'][^>]*>/gi` -/
def imgRe : Regex :=
  lits "<img" ++ [.star .notGt] ++ lits "src=" ++
    [.one .quote, .gOpen, .plus .notQuote, .gClose, .one .quote, .star .notGt] ++ lits ">"

/-- `/width=["'](\d+)["']/i` -/
def widthRe : Regex :=
  lits "width=" ++ [.one .quote, .gOpen, .plus .digit, .gClose, .one .quote]

/-- `/height=["'](\d+)["']/i` -/
def heightRe : Regex :=
  lits "height=" ++ [.one .quote, .gOpen, .plus .digit, .gClose, .one .quote]

/-! ## Platform services -/

/-- The values `JSON.parse` returns.  Of a number the embedding keeps whether it
is zero, which is all the script can observe of it (its truthiness). -/
inductive JVal where
  | null
  | bool (b : Bool)
  | num (isZero : Bool)
  | str (s : Str)
  | arr (xs : List JVal)
  | obj (props : List (Str × JVal))

/-- The two components of a parsed URL that the script reads: `protocol`
(scheme with its colon, as in `https:`) and `host`. -/
structure URLParts where
  protocol : Str
  host : Str
  deriving DecidableEq, Repr

/-- The JavaScript numbers that strategy 4 computes.  Every number of the script
is a double; those that arise from strings of digits by `parseInt` and `*` are
the doubles whose value is a natural number (`fin n`, with `n` representable),
`Infinity` and `NaN`. -/
inductive Num where
  | fin (n : Nat)
  | inf
  | nan
  deriving DecidableEq, Repr

/-- An element of the array `images` of strategy 4. -/
structure Image where
  src : Str
  area : Num
  deriving DecidableEq, Repr

/-- Services of the JavaScript platform used by the script: `new URL(s)` and
`JSON.parse(s)`, each `none` where the platform throws, and the order in which
`Array.prototype.sort` leaves an array on which the comparator of strategy 4 is
not a consistent comparator, an order that ECMAScript leaves to the
implementation. -/
structure Platform where
  parseURL : Str → Option URLParts
  jsonParse : Str → Option JVal
  sortInconsistent : List Image → List Image

/-- Message of the `TypeError` thrown by `new URL` on an invalid address. -/
def invalidURL : Str := "Invalid URL".toList

/-- Message of the `TypeError` thrown when a property or method is used on a
value that does not have it. -/
def typeError : Str := "TypeError".toList

/-- Message of the `SyntaxError` thrown by `JSON.parse`. -/
def syntaxError : Str := "SyntaxError".toList

/-- The statement `try { body } catch (e) { handler(e) }`. -/
def tryCatch {α : Type} (body : Except Str α) (handler : Str → Except Str α) : Except Str α :=
  match body with
  | .ok a => .ok a
  | .error e => handler e

/-- The method `String.prototype.includes`. -/
def includes (sub : Str) : Str → Bool
  | [] => sub.isEmpty
  | c :: cs => sub.isPrefixOf (c :: cs) || includes sub cs

/-- Truthiness of a string: every string but the empty one. -/
def truthyStr (s : Str) : Bool := !s.isEmpty

/-- Truthiness of a string-or-null value. -/
def truthy : Option Str → Bool
  | none => false
  | some s => truthyStr s

/-- Truthiness of a parsed JSON value. -/
def JVal.truthy : JVal → Bool
  | .null => false
  | .bool b => b
  | .num isZero => !isZero
  | .str s => truthyStr s
  | .arr _ => true
  | .obj _ => true

/-! ## URL resolution -/

/-- Function `resolveURL(url, base)` of the script. -/
def resolveURL (P : Platform) (url base : Str) : Except Str Str :=
  if "http".toList.isPrefixOf url then .ok url
  else if "//".toList.isPrefixOf url then .ok ("https:".toList ++ url)
  else
    match P.parseURL base with
    | none => .error invalidURL
    | some baseURL =>
      if "/".toList.isPrefixOf url then .ok (baseURL.protocol ++ "//".toList ++ baseURL.host ++ url)
      else .ok (baseURL.protocol ++ "//".toList ++ baseURL.host ++ "/".toList ++ url)

/-- The call `resolveURL(v, base)` on a value that need not be a string:
`url.startsWith` exists only on strings (`undefined` is `none`). -/
def resolveURLOfValue (P : Platform) (v : Option JVal) (base : Str) : Except Str Str :=
  match v with
  | some (.str s) => resolveURL P s base
  | _ => .error typeError

/-! ## Image extraction -/

/-- The expression `html.match(re1) || html.match(re2)`. -/
def matchEither (re1 re2 : Regex) (html : Str) : Option MatchRes :=
  match search re1 html with
  | some m => some m
  | none => search re2 html

/-- Strategy 1: the `og:image` meta tag, in either attribute order. -/
def ogImageMatch (html : Str) : Option MatchRes := matchEither ogImageRe1 ogImageRe2 html

/-- Strategy 2: the `twitter:image` meta tag, in either attribute order. -/
def twitterImageMatch (html : Str) : Option MatchRes :=
  matchEither twitterImageRe1 twitterImageRe2 html

/-- The property read `jsonLd.image`: throws on `null`, is `undefined` (`none`)
on a value without that property. -/
def getImage : JVal → Except Str (Option JVal)
  | .null => .error typeError
  | .obj props => .ok (props.lookup "image".toList)
  | _ => .ok none

/-- Body of the `try` block of strategy 3 on the text of the script block:
`some r` when the block returns `r`, `none` when it completes without
returning. -/
def jsonLdBody (P : Platform) (text base : Str) : Except Str (Option Str) :=
  match P.jsonParse text with
  | none => .error syntaxError
  | some jsonLd =>
    match getImage jsonLd with
    | .error e => .error e
    | .ok none => .ok none
    | .ok (some image) =>
      if image.truthy then
        let imageUrl : Option JVal :=
          match image with
          | .arr xs => xs.head?
          | v => some v
        match resolveURLOfValue P imageUrl base with
        | .ok r => .ok (some r)
        | .error e => .error e
      else .ok none

/-- Strategy 3: the first JSON-LD script block, with every exception of its
`try` block swallowed by the empty `catch`. -/
def jsonLdStrategy (P : Platform) (html base : Str) : Except Str (Option Str) :=
  match search jsonLdRe html with
  | none => .ok none
  | some m => tryCatch (jsonLdBody P m.cap base) (fun _ => .ok none)

/-- The natural number that a string of decimal digits denotes. -/
def digitsValue (ds : Str) : Nat := ds.foldl (fun n c => 10 * n + (c.toNat - 48)) 0

/-- The number of low binary digits to drop from `n` to keep at most 53 of
them; `fuel` bounds the recursion and `n` itself is enough. -/
def excessBits : Nat → Nat → Nat
  | 0, _ => 0
  | fuel + 1, n => if n < 2 ^ 53 then 0 else excessBits fuel (n / 2) + 1

/-- The double nearest to the natural number `n`, the even one of two equally
near: `n` itself below `2 ^ 53`, and `Infinity` where the rounded value reaches
`2 ^ 1024`. -/
def toDouble (n : Nat) : Num :=
  let e := excessBits n n
  let q := n / 2 ^ e
  let r := n % 2 ^ e
  let q1 := if 2 ^ e < 2 * r ∨ (2 * r = 2 ^ e ∧ q % 2 = 1) then q + 1 else q
  if e < 971 ∨ (e = 971 ∧ q1 < 2 ^ 53) then .fin (q1 * 2 ^ e) else .inf

/-- The function `parseInt` on a string of decimal digits, which is what the
group `(\d+)` captures: the double nearest to the number the digits denote. -/
def parseInt (ds : Str) : Num := toDouble (digitsValue ds)

/-- The product `a * b` of two numbers: rounded to the nearest double, with
`Infinity * 0` being `NaN`. -/
def Num.mul : Num → Num → Num
  | .fin a, .fin b => toDouble (a * b)
  | .fin 0, .inf => .nan
  | .inf, .fin 0 => .nan
  | .fin _, .inf => .inf
  | .inf, .fin _ => .inf
  | .inf, .inf => .inf
  | .nan, _ => .nan
  | _, .nan => .nan

/-- Whether the difference `b - a` of two numbers is positive.  It is `NaN`,
which is not positive, when one of them is `NaN` and when both are `Infinity`. -/
def Num.subPos : Num → Num → Bool
  | .fin b, .fin a => decide (a < b)
  | .inf, .fin _ => true
  | _, _ => false

/-- The filter of strategy 4 on the `src` of an inline image. -/
def keepSrc (src : Str) : Bool :=
  truthyStr src && !includes "logo".toList src && !includes "icon".toList src &&
    !includes "avatar".toList src

/-- The area computed for one `<img>` match from the text of the tag:
`(widthMatch ? parseInt(widthMatch[1]) : 0) * (heightMatch ? parseInt(heightMatch[1]) : 0)`. -/
def areaOf (tag : Str) : Num :=
  Num.mul
    (match search widthRe tag with
      | some widthMatch => parseInt widthMatch.cap
      | none => .fin 0)
    (match search heightRe tag with
      | some heightMatch => parseInt heightMatch.cap
      | none => .fin 0)

/-- The loop of strategy 4 over the `<img>` matches, building `images`. -/
def collectImages (P : Platform) (base : Str) : List MatchRes → Except Str (List Image)
  | [] => .ok []
  | m :: ms =>
    if keepSrc m.cap then
      match resolveURL P m.cap base with
      | .error e => .error e
      | .ok r =>
        match collectImages P base ms with
        | .error e => .error e
        | .ok images => .ok ({ src := r, area := areaOf m.matched } :: images)
    else collectImages P base ms

/-- Insertion of an image into a sorted list: `x` passes the elements `y` for
which the comparator `(a, b) => b.area - a.area` gives a positive number at
`(x, y)`, and stops before the first other element. -/
def insertImage (x : Image) : List Image → List Image
  | [] => [x]
  | y :: ys => if Num.subPos y.area x.area then y :: insertImage x ys else x :: y :: ys

/-- The stable sort by the comparator `(a, b) => b.area - a.area`. -/
def sortStable : List Image → List Image
  | [] => []
  | x :: xs => insertImage x (sortStable xs)

/-- Whether a number is neither `Infinity` nor `NaN`. -/
def Num.isFinite : Num → Bool
  | .fin _ => true
  | _ => false

/-- Whether the comparator `(a, b) => b.area - a.area` is a consistent
comparator on the array, as ECMAScript defines it: it must order the elements
and never give `NaN`, and it does so exactly when every area is finite
(`Infinity - Infinity` is `NaN`). -/
def consistentAreas (images : List Image) : Bool :=
  images.all (fun x => x.area.isFinite)

/-- The call `images.sort((a, b) => b.area - a.area)`: the stable sort where
the comparator is consistent on the array, and the order of the platform
elsewhere. -/
def sortImages (P : Platform) (images : List Image) : List Image :=
  if consistentAreas images then sortStable images else P.sortInconsistent images

/-- Strategy 4: the largest inline image. -/
def largestImage (P : Platform) (html base : Str) : Except Str (Option Str) :=
  match collectImages P base (matchAll imgRe html) with
  | .error e => .error e
  | .ok images =>
    match sortImages P images with
    | [] => .ok none
    | first :: _ => .ok (some first.src)

/-- Function `extractImageURL(html, baseURL)` of the script; `none` is `null`. -/
def extractImageURL (P : Platform) (html baseURL : Str) : Except Str (Option Str) :=
  match ogImageMatch html with
  | some m => (resolveURL P m.cap baseURL).map some
  | none =>
    match twitterImageMatch html with
    | some m => (resolveURL P m.cap baseURL).map some
    | none =>
      match jsonLdStrategy P html baseURL with
      | .error e => .error e
      | .ok (some r) => .ok (some r)
      | .ok none => largestImage P html baseURL

/-! ## The cache and the run -/

/-- The object `cache`: the mapping from page address to image address, as the
list of its properties in insertion order (each key once).  The keys are page
addresses, which are neither array indices nor names inherited from
`Object.prototype`. -/
abbrev Cache := List (Str × Str)

/-- The property read `cache[url]`; `none` is `undefined`. -/
def cacheGet (cache : Cache) (url : Str) : Option Str := cache.lookup url

/-- The assignment `cache[url] = imageUrl`: an existing property keeps its place
and takes the new value, a new property is added last. -/
def cacheSet (url imageUrl : Str) : Cache → Cache
  | [] => [(url, imageUrl)]
  | (k, v) :: rest =>
    if k == url then (k, imageUrl) :: rest else (k, v) :: cacheSet url imageUrl rest

/-- The object returned by `processProduct`; an absent `error` is `none`. -/
structure Result where
  url : Str
  imageUrl : Option Str
  cached : Bool
  error : Option Str
  deriving DecidableEq, Repr

/-- An element of the array `errors` of `main`. -/
structure ErrorRec where
  url : Str
  error : Str
  deriving DecidableEq, Repr

/-- The effects of a run on the outside world, in the order they happen: a
request for a page, a pause of the given number of milliseconds, the write of
the cache file. -/
inductive Effect where
  | fetch (url : Str)
  | delay (ms : Nat)
  | save (cache : Cache)
  deriving DecidableEq, Repr

/-- The error text of an extraction that found nothing. -/
def noImageFound : Str := "No image found".toList

/-- Function `processProduct(url)` of the script.  `refresh` is `REFRESH_ENV`,
`cache` the global cache, `fetchHTML` the outcome of the request should it be
made (`.error` carries the message of the rejection).  Returns the result object
and the effects performed. -/
def processProduct (P : Platform) (refresh : Bool) (cache : Cache)
    (fetchHTML : Str → Except Str Str) (url : Str) : Except Str (Result × List Effect) :=
  if !refresh && truthy (cacheGet cache url) then
    .ok ({ url := url, imageUrl := cacheGet cache url, cached := true, error := none }, [])
  else
    match
      tryCatch
        (match fetchHTML url with
          | .error e => .error e
          | .ok html =>
            match extractImageURL P html url with
            | .error e => .error e
            | .ok imageUrl =>
              if truthy imageUrl then
                .ok { url := url, imageUrl := imageUrl, cached := false, error := none }
              else
                .ok { url := url, imageUrl := none, cached := false, error := some noImageFound })
        (fun message =>
          .ok { url := url, imageUrl := none, cached := false, error := some message })
    with
    | .error e => .error e
    | .ok result => .ok (result, [Effect.fetch url])

/-- What the `for` loop of `main` accumulates. -/
structure LoopOut where
  results : List Result
  errors : List ErrorRec
  effects : List Effect
  deriving DecidableEq, Repr

/-- The first loop of `main`, from index `i` on, over the remaining addresses;
`n` is `PRODUCT_URLS.length` and `fetch i` the network at the `i`-th address. -/
def mainLoop (P : Platform) (refresh : Bool) (cache : Cache)
    (fetch : Nat → Str → Except Str Str) (n : Nat) : Nat → List Str → Except Str LoopOut
  | _, [] => .ok { results := [], errors := [], effects := [] }
  | i, url :: rest =>
    match processProduct P refresh cache (fetch i) url with
    | .error e => .error e
    | .ok (result, fx) =>
      match mainLoop P refresh cache fetch n (i + 1) rest with
      | .error e => .error e
      | .ok out =>
        .ok { results := result :: out.results
              errors :=
                (match result.error with
                  | some e => if truthyStr e then [{ url := url, error := e }] else []
                  | none => []) ++ out.errors
              effects := fx ++ (if i < n - 1 then [Effect.delay 500] else []) ++ out.effects }

/-- The second loop of `main`: the cache and `updatedCount` after the results
have been merged. -/
def updateCache : List Result → Cache × Nat → Cache × Nat
  | [], st => st
  | result :: rest, (cache, updatedCount) =>
    match result.imageUrl with
    | some imageUrl =>
      if truthyStr imageUrl && !result.cached then
        updateCache rest (cacheSet result.url imageUrl cache, updatedCount + 1)
      else updateCache rest (cache, updatedCount)
    | none => updateCache rest (cache, updatedCount)

/-- The constant `PRODUCT_URLS` of the script. -/
def PRODUCT_URLS : List Str :=
  ["https://www.werkaandemuur.nl/nl/werk/Meisje-met-bloemen/694349".toList,
   "https://www.werkaandemuur.nl/nl/werk/Het-meisje-met-de-fijnste-kleuren/864691".toList,
   "https://www.werkaandemuur.nl/nl/werk/Portret-van-een-man/826273".toList,
   "https://www.werkaandemuur.nl/nl/werk/Meisje-met-de-vlinders/857847".toList,
   "https://www.werkaandemuur.nl/nl/werk/Vrouw-met-rode-bloemen/858102".toList,
   "https://www.werkaandemuur.nl/nl/werk/Het-meisje-met-de-krullen/863445".toList,
   "https://www.werkaandemuur.nl/nl/werk/Meisje-in-het-blauw/865201".toList,
   "https://www.werkaandemuur.nl/nl/werk/De-vrouw-met-de-gouden-oorbel/860788".toList,
   "https://www.werkaandemuur.nl/nl/werk/Botanisch-meisje/862834".toList,
   "https://www.werkaandemuur.nl/nl/werk/Vrouw-met-de-paarse-bloemen/864088".toList,
   "https://www.werkaandemuur.nl/nl/werk/Het-meisje-met-de-rozen/862987".toList,
   "https://www.werkaandemuur.nl/nl/werk/Zelfportret-met-vlinders/858281".toList,
   "https://www.werkaandemuur.nl/nl/werk/Meisje-met-de-wijze-ogen/865525".toList,
   "https://www.werkaandemuur.nl/nl/werk/Vrouw-met-het-roze-bloemen/865526".toList,
   "https://www.werkaandemuur.nl/nl/werk/Portret-van-een-vrouw/865527".toList,
   "https://www.werkaandemuur.nl/nl/werk/De-vrouw-met-de-blauwe-ogen/865528".toList,
   "https://www.werkaandemuur.nl/nl/werk/Meisje-met-de-rode-lippen/865529".toList,
   "https://www.werkaandemuur.nl/nl/werk/Vrouw-met-de-gouden-ketting/865530".toList,
   "https://www.werkaandemuur.nl/nl/werk/Het-meisje-met-de-hoed/865531".toList,
   "https://www.werkaandemuur.nl/nl/werk/Portret-in-geel/865532".toList,
   "https://www.werkaandemuur.nl/nl/werk/De-vrouw-met-de-parel/865533".toList,
   "https://www.werkaandemuur.nl/nl/werk/Meisje-met-de-sluier/865534".toList,
   "https://www.werkaandemuur.nl/nl/werk/Vrouw-met-de-zonnebloemen/865535".toList,
   "https://www.werkaandemuur.nl/nl/werk/Het-meisje-met-de-vlecht/865536".toList,
   "https://www.werkaandemuur.nl/nl/werk/Portret-van-een-dame/865537".toList,
   "https://www.werkaandemuur.nl/nl/werk/De-vrouw-met-de-waaier/865538".toList,
   "https://www.werkaandemuur.nl/nl/werk/Meisje-met-de-mandarijn/865539".toList,
   "https://www.werkaandemuur.nl/nl/werk/Vrouw-met-de-rozenkrans/865540".toList,
   "https://www.werkaandemuur.nl/nl/werk/Het-meisje-met-de-fluit/865541".toList,
   "https://www.werkaandemuur.nl/nl/werk/Portret-in-groen/865542".toList,
   "https://www.werkaandemuur.nl/nl/werk/De-vrouw-met-de-spiegel/865543".toList,
   "https://www.werkaandemuur.nl/nl/werk/Meisje-met-de-veer/865544".toList,
   "https://www.werkaandemuur.nl/nl/werk/Vrouw-met-de-orchidee/865545".toList,
   "https://www.werkaandemuur.nl/nl/werk/Het-meisje-met-de-paraplu/865546".toList,
   "https://www.werkaandemuur.nl/nl/werk/Portret-in-rood/865547".toList,
   "https://www.werkaandemuur.nl/nl/werk/De-vrouw-met-de-harp/865548".toList,
   "https://www.werkaandemuur.nl/nl/werk/Meisje-met-de-duif/865549".toList,
   "https://www.werkaandemuur.nl/nl/werk/Vrouw-met-de-anjers/865550".toList]

/-- The outcome of a run of `main`: the arrays `results` and `errors`, the cache
that was written, `updatedCount`, and the effects in order. -/
structure RunOutput where
  results : List Result
  errors : List ErrorRec
  cache : Cache
  updatedCount : Nat
  effects : List Effect
  deriving DecidableEq, Repr

/-- Function `main()` of the script, on the address list `urls` (in the script
the constant `PRODUCT_URLS`), the loaded `cache` and the mode `refresh`. -/
def main (P : Platform) (refresh : Bool) (urls : List Str) (cache : Cache)
    (fetch : Nat → Str → Except Str Str) : Except Str RunOutput :=
  match mainLoop P refresh cache fetch urls.length 0 urls with
  | .error e => .error e
  | .ok out =>
    let merged := updateCache out.results (cache, 0)
    .ok { results := out.results
          errors := out.errors
          cache := merged.1
          updatedCount := merged.2
          effects := out.effects ++ [Effect.save merged.1] }

/-- The figures of the summary printed by `main`. -/
structure Summary where
  total : Nat
  cached : Nat
  newlyResolved : Nat
  errors : Nat
  deriving DecidableEq, Repr

/-- The summary of a run over `urls`. -/
def summary (urls : List Str) (out : RunOutput) : Summary :=
  { total := urls.length
    cached := out.cache.length
    newlyResolved := out.updatedCount
    errors := out.errors.length }

/-! ## A concrete platform

The theorems below hold for every `Platform`.  To run the embedding on concrete
markup, `demoPlatform` supplies a reader of JSON texts, a reader of plain web
addresses and, for the arrays on which the comparator of strategy 4 is not
consistent, the order of `sortStable`. -/

/-- JSON whitespace. -/
def isWs (c : Char) : Bool := c == ' ' || c == '\t' || c == '\n' || c == '\r'

/-- Drop leading JSON whitespace. -/
def skipWs : Str → Str
  | [] => []
  | c :: cs => if isWs c then skipWs cs else c :: cs

/-- Value of a hexadecimal digit. -/
def hexVal (c : Char) : Option Nat :=
  if c.isDigit then some (c.toNat - 48)
  else if 'a' ≤ c ∧ c ≤ 'f' then some (c.toNat - 87)
  else if 'A' ≤ c ∧ c ≤ 'F' then some (c.toNat - 55)
  else none

/-- Four hexadecimal digits, as a code unit. -/
def hex4 : Str → Option (Nat × Str)
  | a :: b :: c :: d :: rest =>
    match hexVal a, hexVal b, hexVal c, hexVal d with
    | some a, some b, some c, some d => some (((a * 16 + b) * 16 + c) * 16 + d, rest)
    | _, _, _, _ => none
  | _ => none

/-- The character of a single-letter escape. -/
def escapeChar (e : Char) : Option Char :=
  if e == dq then some dq
  else if e == '\\' then some '\\'
  else if e == '/' then some '/'
  else if e == 'b' then some (Char.ofNat 8)
  else if e == 'f' then some (Char.ofNat 12)
  else if e == 'n' then some '\n'
  else if e == 'r' then some '\r'
  else if e == 't' then some '\t'
  else none

/-- The characters of a JSON string literal after its opening quote, and the
input after its closing quote.  A surrogate pair of `\u` escapes is one
character; a lone surrogate escape, which a `Char` cannot hold, is read as
U+FFFD. -/
def jsonString : Nat → Str → Option (Str × Str)
  | 0, _ => none
  | _ + 1, [] => none
  | fuel + 1, c :: cs =>
    if c == dq then some ([], cs)
    else if c.toNat < 32 then none
    else if c == '\\' then
      match cs with
      | [] => none
      | e :: rest =>
        if e == 'u' then
          match hex4 rest with
          | none => none
          | some (hi, rest1) =>
            let pair : Option (Nat × Str) :=
              if 0xD800 ≤ hi ∧ hi < 0xDC00 then
                match rest1 with
                | b :: u :: rest2 =>
                  if b == '\\' && u == 'u' then
                    match hex4 rest2 with
                    | some (lo, rest3) =>
                      if 0xDC00 ≤ lo ∧ lo < 0xE000 then
                        some (0x10000 + (hi - 0xD800) * 0x400 + (lo - 0xDC00), rest3)
                      else none
                    | none => none
                  else none
                | _ => none
              else none
            match pair with
            | some (n, rest3) => (jsonString fuel rest3).map fun (t, r) => (Char.ofNat n :: t, r)
            | none =>
              let ch := if 0xD800 ≤ hi ∧ hi < 0xE000 then Char.ofNat 0xFFFD else Char.ofNat hi
              (jsonString fuel rest1).map fun (t, r) => (ch :: t, r)
        else
          match escapeChar e with
          | some ch => (jsonString fuel rest).map fun (t, r) => (ch :: t, r)
          | none => none
    else (jsonString fuel cs).map fun (t, r) => (c :: t, r)

/-- A JSON number literal at the start of the input.  The number is zero when
all its digits are zero, or when it rounds to zero as a double (it is at most
`2 ^ (-1075)`). -/
def jsonNumber (s : Str) : Option (JVal × Str) :=
  let s1 := match s with
    | '-' :: r => r
    | r => r
  let intDigits := s1.takeWhile Char.isDigit
  let s2 := s1.dropWhile Char.isDigit
  if intDigits.isEmpty || (intDigits.length > 1 && intDigits.head? == some '0') then none
  else
    let frac : Option (Str × Str) :=
      match s2 with
      | '.' :: r =>
        if (r.takeWhile Char.isDigit).isEmpty then none
        else some (r.takeWhile Char.isDigit, r.dropWhile Char.isDigit)
      | r => some ([], r)
    match frac with
    | none => none
    | some (fracDigits, s3) =>
      let exp : Option (Int × Str) :=
        match s3 with
        | e :: r =>
          if e == 'e' || e == 'E' then
            let (neg, r1) : Bool × Str :=
              match r with
              | '-' :: t => (true, t)
              | '+' :: t => (false, t)
              | t => (false, t)
            if (r1.takeWhile Char.isDigit).isEmpty then none
            else
              let v : Int := digitsValue (r1.takeWhile Char.isDigit)
              some (if neg then -v else v, r1.dropWhile Char.isDigit)
          else some (0, e :: r)
        | [] => some (0, [])
      match exp with
      | none => none
      | some (e, s4) =>
        let mant := digitsValue (intDigits ++ fracDigits)
        let e10 : Int := e - fracDigits.length
        let isZero := mant == 0 || (e10 < 0 && mant * 2 ^ 1075 ≤ 10 ^ e10.natAbs)
        some (.num isZero, s4)

/-- Define a property of an object being parsed: a repeated key keeps its place
and takes the later value. -/
def setProp (k : Str) (v : JVal) : List (Str × JVal) → List (Str × JVal)
  | [] => [(k, v)]
  | (k1, v1) :: rest => if k1 == k then (k1, v) :: rest else (k1, v1) :: setProp k v rest

mutual

/-- A JSON value at the start of the input, after optional whitespace. -/
def jsonValue : Nat → Str → Option (JVal × Str)
  | 0, _ => none
  | fuel + 1, s =>
    match skipWs s with
    | [] => none
    | c :: cs =>
      if c == '{' then
        match skipWs cs with
        | '}' :: r => some (.obj [], r)
        | r => jsonMembers fuel r []
      else if c == '[' then
        match skipWs cs with
        | ']' :: r => some (.arr [], r)
        | r => jsonElements fuel r []
      else if c == dq then (jsonString (cs.length + 1) cs).map fun (t, r) => (.str t, r)
      else if "true".toList.isPrefixOf (c :: cs) then some (.bool true, cs.drop 3)
      else if "false".toList.isPrefixOf (c :: cs) then some (.bool false, cs.drop 4)
      else if "null".toList.isPrefixOf (c :: cs) then some (.null, cs.drop 3)
      else jsonNumber (c :: cs)

/-- The elements of a non-empty array, up to its closing bracket. -/
def jsonElements : Nat → Str → List JVal → Option (JVal × Str)
  | 0, _, _ => none
  | fuel + 1, s, acc =>
    match jsonValue fuel s with
    | none => none
    | some (v, r) =>
      match skipWs r with
      | ',' :: r1 => jsonElements fuel r1 (acc ++ [v])
      | ']' :: r1 => some (.arr (acc ++ [v]), r1)
      | _ => none

/-- The members of a non-empty object, up to its closing brace. -/
def jsonMembers : Nat → Str → List (Str × JVal) → Option (JVal × Str)
  | 0, _, _ => none
  | fuel + 1, s, acc =>
    match skipWs s with
    | q :: r =>
      if q == dq then
        match jsonString (r.length + 1) r with
        | none => none
        | some (k, r1) =>
          match skipWs r1 with
          | ':' :: r2 =>
            match jsonValue fuel r2 with
            | none => none
            | some (v, r3) =>
              match skipWs r3 with
              | ',' :: r4 => jsonMembers fuel r4 (setProp k v acc)
              | '}' :: r4 => some (.obj (setProp k v acc), r4)
              | _ => none
          | _ => none
      else none
    | [] => none

end

/-- The function `JSON.parse` on a text: `none` where it throws. -/
def jsonParse (s : Str) : Option JVal :=
  match jsonValue (2 * s.length + 2) s with
  | some (v, r) => if (skipWs r).isEmpty then some v else none
  | none => none

/-- A host name made of lowercase letters separated by single dots. -/
def plainHost (h : Str) : Bool :=
  !h.isEmpty && h.all (fun c => c.isLower || c == '.') && h.head? != some '.' &&
    h.getLast? != some '.' && !includes "..".toList h

/-- Read `host` and what follows it after the scheme `protocol`. -/
def plainOrigin (protocol rest : Str) : Option URLParts :=
  let host := rest.takeWhile (fun c => c != '/')
  if plainHost host then some { protocol := protocol, host := host } else none

/-- A reader of web addresses of the plain form `http://host/..` or
`https://host/..`, the host being lowercase letters separated by dots, which
`new URL` reads the same way.  It rejects every other address, also those that
`new URL` accepts. -/
def parsePlainURL (s : Str) : Option URLParts :=
  if "https://".toList.isPrefixOf s then plainOrigin "https:".toList (s.drop 8)
  else if "http://".toList.isPrefixOf s then plainOrigin "http:".toList (s.drop 7)
  else none

/-- A platform to evaluate the embedding on. -/
def demoPlatform : Platform :=
  { parseURL := parsePlainURL, jsonParse := jsonParse, sortInconsistent := sortStable }

/-! ## Sample pages -/

/-- A page with a large inline image in front of an `og:image` tag. -/
def pageOgAndInline : Str :=
  "<img src=\"big.jpg\" width=\"2000\" height=\"2000\"><meta property=\"og:image\" content=\"/img/a.jpg\">".toList

/-- A page with a large logo, two images of equal area and an image without
declared size. -/
def pageFourImages : Str :=
  "<img src=\"logo.png\" width=\"900\" height=\"900\"><img src=\"a.jpg\" width=\"100\" height=\"50\"><img src=\"b.jpg\" width=\"50\" height=\"100\"><img src=\"c.jpg\">".toList

/-- A page whose JSON-LD block does not parse, with one inline image. -/
def pageBadJsonLd : Str :=
  "<script type=\"application/ld+json\">\x7boops</script><img src=\"a.jpg\">".toList

/-- A page whose `og:image` content is a relative path that begins with the
letters `http`. -/
def pageRelativeOg : Str :=
  "<meta property=\"og:image\" content=\"httpdocs/a.jpg\">".toList

/-- A page with two images of height 1 whose declared widths are `2 ^ 53` and
`2 ^ 53 + 1`. -/
def pageRounding : Str :=
  "<img src=\"a.jpg\" width=\"9007199254740992\" height=\"1\"><img src=\"b.jpg\" width=\"9007199254740993\" height=\"1\">".toList

/-- A page with one image, whose tag carries a `data-src` attribute after its
`src`. -/
def pageDataSrc : Str :=
  "<img src=\"a.jpg\" data-src=\"logo.png\" width=\"10\" height=\"10\">".toList

/-- A page with an image of size 1 by 1 whose tag carries a `data-width`
attribute in front of its `width`, and an image of size 10 by 10. -/
def pageDataWidth : Str :=
  "<img src=\"a.jpg\" data-width=\"1000\" width=\"1\" height=\"1\"><img src=\"b.jpg\" width=\"10\" height=\"10\">".toList

/-- A page whose `og:image` tag carries a `data-content` attribute after its
`content`, with a large inline image. -/
def pageDataContent : Str :=
  "<meta property=\"og:image\" content=\"/img/a.jpg\" data-content=\"/other/b.jpg\"><img src=\"big.jpg\" width=\"2000\" height=\"2000\">".toList

/-- A page with a `twitter:image` tag, a JSON-LD block with an image and a large
inline image. -/
def pageTwitter : Str :=
  "<meta name=\"twitter:image\" content=\"/img/t.jpg\"><script type=\"application/ld+json\">\x7b\"image\":\"/img/j.jpg\"\x7d</script><img src=\"big.jpg\" width=\"2000\" height=\"2000\">".toList

/-- A page with a JSON-LD block with an image and a large inline image. -/
def pageJsonLd : Str :=
  "<script type=\"application/ld+json\">\x7b\"image\":\"/img/j.jpg\"\x7d</script><img src=\"big.jpg\" width=\"2000\" height=\"2000\">".toList

/-- A page whose `og:image` tag has its `content` in front of its `property`
and is written in capitals with single quotes, followed by a `twitter:image`
tag. -/
def pageOgContentFirst : Str :=
  "<META CONTENT='/img/a.jpg' PROPERTY='og:image'><meta name=\"twitter:image\" content=\"/img/t.jpg\">".toList

/-- A page whose `twitter:image` tag has its `content` in front of its `name`,
with a large inline image. -/
def pageTwitterContentFirst : Str :=
  "<meta content=\"/img/t.jpg\" name=\"twitter:image\"><img src=\"big.jpg\" width=\"2000\" height=\"2000\">".toList

/-- A page whose JSON-LD block holds an array of images, with a large inline
image. -/
def pageJsonLdArray : Str :=
  "<script type=\"application/ld+json\">\x7b\"name\":\"A\",\"image\":[\"/img/j1.jpg\",\"/img/j2.jpg\"]\x7d</script><img src=\"big.jpg\" width=\"2000\" height=\"2000\">".toList

/-- A page whose JSON-LD block holds an image that is an object, with a large
inline image. -/
def pageJsonLdObject : Str :=
  "<script type=\"application/ld+json\">\x7b\"image\":\x7b\"url\":\"/img/j.jpg\"\x7d\x7d</script><img src=\"big.jpg\" width=\"2000\" height=\"2000\">".toList

/-- A page whose `og:image` content holds an apostrophe. -/
def pageApostrophe : Str :=
  "<meta property=\"og:image\" content=\"/img/it\x27s.jpg\">".toList

/-- A page whose `og:image` content ends with the text `content=`, followed by
a paragraph with a quoted attribute. -/
def pageContentEnding : Str :=
  "<meta property=\"og:image\" content=\"/xcontent=\"><p title=\"x\">".toList

/-- A page with a head and a body around an `og:image` tag. -/
def pageWithHead : Str :=
  "<html><head><meta charset=\"utf-8\"><title>A</title><meta property=\"og:image\" content=\"/img/a.jpg\" /></head><body><p class=\"x\">text</p></body></html>".toList

/-- A page whose `og:image` tag is written in capitals with single quotes and
an attribute without quotes, with a large inline image. -/
def pageOgCapitals : Str :=
  "<META PROPERTY='og:image' itemprop=image CONTENT='/img/a.jpg' /><img src=\"big.jpg\" width=\"2000\" height=\"2000\">".toList

/-! ## Total descriptions of the run

The run never throws (see `processProduct_eq`); these functions describe its
results without the exception layer. -/

/-- The result object of a request that is made: what the `try`/`catch` of
`processProduct` returns. -/
def freshResult (P : Platform) (fetchHTML : Str → Except Str Str) (url : Str) : Result :=
  match fetchHTML url with
  | .error e => { url := url, imageUrl := none, cached := false, error := some e }
  | .ok html =>
    match extractImageURL P html url with
    | .error e => { url := url, imageUrl := none, cached := false, error := some e }
    | .ok imageUrl =>
      if truthy imageUrl then { url := url, imageUrl := imageUrl, cached := false, error := none }
      else { url := url, imageUrl := none, cached := false, error := some noImageFound }

/-- The result object and the effects of `processProduct`, as a total function. -/
def productOutcome (P : Platform) (refresh : Bool) (cache : Cache)
    (fetchHTML : Str → Except Str Str) (url : Str) : Result × List Effect :=
  if !refresh && truthy (cacheGet cache url) then
    ({ url := url, imageUrl := cacheGet cache url, cached := true, error := none }, [])
  else (freshResult P fetchHTML url, [Effect.fetch url])

/-- Whether the second loop of `main` writes this result into the cache. -/
def isWrite (r : Result) : Bool :=
  match r.imageUrl with
  | some imageUrl => truthyStr imageUrl && !r.cached
  | none => false

/-- The results of the first loop of `main`, as a total function. -/
def resultsFrom (P : Platform) (refresh : Bool) (cache : Cache)
    (fetch : Nat → Str → Except Str Str) : Nat → List Str → List Result
  | _, [] => []
  | i, url :: rest =>
    (productOutcome P refresh cache (fetch i) url).1 :: resultsFrom P refresh cache fetch (i + 1) rest

/-- The first loop of `main`, as a total function. -/
def loopFrom (P : Platform) (refresh : Bool) (cache : Cache)
    (fetch : Nat → Str → Except Str Str) (n : Nat) : Nat → List Str → LoopOut
  | _, [] => { results := [], errors := [], effects := [] }
  | i, url :: rest =>
    let po := productOutcome P refresh cache (fetch i) url
    let out := loopFrom P refresh cache fetch n (i + 1) rest
    { results := po.1 :: out.results
      errors :=
        (match po.1.error with
          | some e => if truthyStr e then [{ url := url, error := e }] else []
          | none => []) ++ out.errors
      effects := po.2 ++ (if i < n - 1 then [Effect.delay 500] else []) ++ out.effects }

/-- The function `main`, as a total function. -/
def runOutcome (P : Platform) (refresh : Bool) (urls : List Str) (cache : Cache)
    (fetch : Nat → Str → Except Str Str) : RunOutput :=
  let out := loopFrom P refresh cache fetch urls.length 0 urls
  let merged := updateCache out.results (cache, 0)
  { results := out.results
    errors := out.errors
    cache := merged.1
    updatedCount := merged.2
    effects := out.effects ++ [Effect.save merged.1] }

/-- A pattern piece without group markers. -/
def groupFree (re : Regex) : Bool := re.all (fun it => it != Item.gOpen && it != Item.gClose)

/-- The value of `resolveURL(url, base)` when `new URL(base)` succeeds with the
parts `o`. -/
def resolveWith (o : URLParts) (url : Str) : Str :=
  if "http".toList.isPrefixOf url then url
  else if "//".toList.isPrefixOf url then "https:".toList ++ url
  else if "/".toList.isPrefixOf url then o.protocol ++ "//".toList ++ o.host ++ url
  else o.protocol ++ "//".toList ++ o.host ++ "/".toList ++ url

/-- The candidates of strategy 4: the `<img>` matches that pass the filter, in
document order. -/
def candidates (html : Str) : List MatchRes :=
  (matchAll imgRe html).filter (fun m => keepSrc m.cap)

/-- Strategy 1 as a function of its own: the resolved `og:image` content, or
nothing. -/
def ogStrategy (P : Platform) (html base : Str) : Except Str (Option Str) :=
  match ogImageMatch html with
  | some m => (resolveURL P m.cap base).map some
  | none => .ok none

/-- Strategy 2 as a function of its own: the resolved `twitter:image` content,
or nothing. -/
def twitterStrategy (P : Platform) (html base : Str) : Except Str (Option Str) :=
  match twitterImageMatch html with
  | some m => (resolveURL P m.cap base).map some
  | none => .ok none

/-- The chain of the specification (sections 4.2 and 9): a short-circuiting
first-match fold over an ordered sequence of strategies. -/
def firstMatch : List (Str → Str → Except Str (Option Str)) → Str → Str → Except Str (Option Str)
  | [], _, _ => .ok none
  | attempt :: later, html, base =>
    match attempt html base with
    | .error e => .error e
    | .ok (some r) => .ok (some r)
    | .ok none => firstMatch later html base

/-- The four strategies in the priority order of the specification. -/
def strategyChain (P : Platform) : List (Str → Str → Except Str (Option Str)) :=
  [ogStrategy P, twitterStrategy P, jsonLdStrategy P, largestImage P]

/-- The language of a pattern, read declaratively: the strings that the pattern
can match as a whole, wherever the group sits. -/
def Accepts : Regex → Str → Prop
  | [], m => m = []
  | .lit a :: r, m => ∃ c m', m = c :: m' ∧ c.toUpper = a.toUpper ∧ Accepts r m'
  | .one k :: r, m => ∃ c m', m = c :: m' ∧ k.test c = true ∧ Accepts r m'
  | .star k :: r, m => ∃ xs m', m = xs ++ m' ∧ (∀ x ∈ xs, k.test x = true) ∧ Accepts r m'
  | .plus k :: r, m =>
    ∃ c xs m', m = c :: (xs ++ m') ∧ k.test c = true ∧ (∀ x ∈ xs, k.test x = true) ∧ Accepts r m'
  | .lazyStar k :: r, m => ∃ xs m', m = xs ++ m' ∧ (∀ x ∈ xs, k.test x = true) ∧ Accepts r m'
  | .gOpen :: r, m => Accepts r m
  | .gClose :: r, m => Accepts r m

/-- An `og:image` meta tag in the usual spelling, up to the quote that closes
its content `c`. -/
def ogTag (c : Str) : Str :=
  "<meta property=\"og:image\" content=\"".toList ++ c ++ [dq]

/-- The array `errors` of `main`, as a function of the array `results`: one
entry for every result whose `error` is truthy. -/
def errorsOf (results : List Result) : List ErrorRec :=
  results.filterMap (fun r =>
    match r.error with
    | some e => if truthyStr e then some { url := r.url, error := e } else none
    | none => none)

/-- The effects of `processProduct` on an address: one request, or none when the
address is skipped. -/
def productEffects (refresh : Bool) (cache : Cache) (url : Str) : List Effect :=
  if !refresh && truthy (cacheGet cache url) then [] else [Effect.fetch url]

/-- The effects of the first loop of `main`: those of each address in turn, with
a pause after every address but the last. -/
def loopTrace (fx : Str → List Effect) : List Str → List Effect
  | [] => []
  | [url] => fx url
  | url :: next :: rest => fx url ++ Effect.delay 500 :: loopTrace fx (next :: rest)

/-- Whether an effect is a pause. -/
def Effect.isDelay : Effect → Bool
  | .delay _ => true
  | _ => false

/-- Whether an effect is a request. -/
def Effect.isFetch : Effect → Bool
  | .fetch _ => true
  | _ => false

/-- The language of a pattern with its capture, read declaratively: `m` is a
string the pattern can match as a whole and `c` what the group then holds,
`inG` telling whether `m` starts inside the group. -/
def AcceptsCap : Regex → Bool → Str → Str → Prop
  | [], _, m, c => m = [] ∧ c = []
  | .lit a :: r, inG, m, c =>
    ∃ ch m' c', m = ch :: m' ∧ ch.toUpper = a.toUpper ∧
      c = (if inG then ch :: c' else c') ∧ AcceptsCap r inG m' c'
  | .one k :: r, inG, m, c =>
    ∃ ch m' c', m = ch :: m' ∧ k.test ch = true ∧
      c = (if inG then ch :: c' else c') ∧ AcceptsCap r inG m' c'
  | .star k :: r, inG, m, c =>
    ∃ xs m' c', m = xs ++ m' ∧ (∀ x ∈ xs, k.test x = true) ∧
      c = (if inG then xs ++ c' else c') ∧ AcceptsCap r inG m' c'
  | .plus k :: r, inG, m, c =>
    ∃ ch xs m' c', m = ch :: (xs ++ m') ∧ k.test ch = true ∧ (∀ x ∈ xs, k.test x = true) ∧
      c = (if inG then ch :: (xs ++ c') else c') ∧ AcceptsCap r inG m' c'
  | .lazyStar k :: r, inG, m, c =>
    ∃ xs m' c', m = xs ++ m' ∧ (∀ x ∈ xs, k.test x = true) ∧
      c = (if inG then xs ++ c' else c') ∧ AcceptsCap r inG m' c'
  | .gOpen :: r, _, m, c => AcceptsCap r true m c
  | .gClose :: r, _, m, c => AcceptsCap r false m c

/-- The number of quote characters of a string. -/
def quoteCount (s : Str) : Nat := s.countP Cls.quote.test

/-- Whether no match of the pattern starts inside `pre`, on the input
`pre ++ rest`. -/
def noEarlierMatch (re : Regex) : Str → Str → Bool
  | [], _ => true
  | c :: cs, rest => (matchHere re false (c :: cs ++ rest)).isNone && noEarlierMatch re cs rest

/-- Whether a string ends with the text `content=`, in any letter case. -/
def endsContentAttr (c : Str) : Bool :=
  "=TNETNOC".toList.isPrefixOf (c.reverse.map Char.toUpper)

/-- The end that the first patterns of strategies 1 and 2 share:
`content=["']([^"']+)["']`. -/
def contentTail : Regex :=
  lits "content=" ++ [.one .quote, .gOpen, .plus .notQuote, .gClose, .one .quote]

/-- Whether a class holds no `>`. -/
def Cls.avoidsGt : Cls → Bool
  | .notGt => true
  | .quote => true
  | _ => false

/-- Whether a pattern piece can only match strings without `>`. -/
def avoidsGt (re : Regex) : Bool :=
  re.all (fun it =>
    match it with
    | .lit a => a.toUpper != '>'
    | .one k => k.avoidsGt
    | .star k => k.avoidsGt
    | .plus k => k.avoidsGt
    | .lazyStar k => k.avoidsGt
    | .gOpen => true
    | .gClose => true)

/-- The number of items `["']` of a pattern piece. -/
def quoteItems (re : Regex) : Nat := re.countP (fun it => it == Item.one Cls.quote)

/-! ## Lemmas on the cache and the run -/

theorem lookup_cons_eq (k k1 : Str) (v1 : Str) (rest : Cache) :
    List.lookup k ((k1, v1) :: rest) = if k = k1 then some v1 else List.lookup k rest := by
  by_cases h : k = k1
  · subst h; simp [List.lookup]
  · have hb : (k == k1) = false := by simpa using h
    simp [List.lookup, hb, h]

theorem cacheGet_cacheSet (url imageUrl k : Str) (cache : Cache) :
    cacheGet (cacheSet url imageUrl cache) k =
      if k = url then some imageUrl else cacheGet cache k := by
  unfold cacheGet
  induction cache with
  | nil => simp [cacheSet, lookup_cons_eq]
  | cons kv rest ih =>
    obtain ⟨k1, v1⟩ := kv
    by_cases h1 : k1 = url
    · subst h1
      have hb : (k1 == k1) = true := by simp
      simp only [cacheSet, hb, if_true]
      rw [lookup_cons_eq, lookup_cons_eq]
      by_cases h3 : k = k1 <;> simp [h3]
    · have hb : (k1 == url) = false := by simpa using h1
      simp only [cacheSet, hb, Bool.false_eq_true, if_false]
      rw [lookup_cons_eq, lookup_cons_eq, ih]
      by_cases h3 : k = k1
      · have : ¬ k = url := fun e => h1 (h3 ▸ e)
        simp [h3, this, h1]
      · simp [h3]


theorem processProduct_eq (P : Platform) (refresh : Bool) (cache : Cache)
    (fetchHTML : Str → Except Str Str) (url : Str) :
    processProduct P refresh cache fetchHTML url =
      .ok (productOutcome P refresh cache fetchHTML url) := by
  unfold processProduct productOutcome freshResult
  by_cases h : (!refresh && truthy (cacheGet cache url)) = true
  · simp only [h, if_true]
  · simp only [h, if_false]
    cases hf : fetchHTML url with
    | error e => simp [tryCatch]
    | ok html =>
      cases he : extractImageURL P html url with
      | error e => simp [tryCatch, he]
      | ok imageUrl =>
        by_cases ht : truthy imageUrl = true
        · simp [tryCatch, he, ht]
        · simp [tryCatch, he, ht]

theorem productOutcome_url (P : Platform) (refresh : Bool) (cache : Cache)
    (fetchHTML : Str → Except Str Str) (url : Str) :
    (productOutcome P refresh cache fetchHTML url).1.url = url := by
  unfold productOutcome freshResult
  split
  · rfl
  · dsimp only
    split
    · rfl
    · split
      · rfl
      · split <;> rfl

theorem resultsFrom_map_url (P : Platform) (refresh : Bool) (cache : Cache)
    (fetch : Nat → Str → Except Str Str) (urls : List Str) :
    ∀ i, (resultsFrom P refresh cache fetch i urls).map (fun r => r.url) = urls := by
  induction urls with
  | nil => intro i; rfl
  | cons url rest ih => intro i; simp [resultsFrom, productOutcome_url, ih]

theorem mem_resultsFrom (P : Platform) (refresh : Bool) (cache : Cache)
    (fetch : Nat → Str → Except Str Str) (urls : List Str) (r : Result) :
    ∀ i, r ∈ resultsFrom P refresh cache fetch i urls →
      ∃ j, urls[j]? = some r.url ∧ r = (productOutcome P refresh cache (fetch (i + j)) r.url).1 := by
  induction urls with
  | nil => intro i h; simp [resultsFrom] at h
  | cons url rest ih =>
    intro i h
    simp only [resultsFrom, List.mem_cons] at h
    rcases h with h | h
    · refine ⟨0, ?_, ?_⟩
      · simp [h, productOutcome_url]
      · rw [h, productOutcome_url]; simp
    · obtain ⟨j, hj1, hj2⟩ := ih (i + 1) h
      refine ⟨j + 1, by simpa using hj1, ?_⟩
      rw [hj2]
      have : i + 1 + j = i + (j + 1) := by omega
      rw [this, productOutcome_url]

theorem updateCache_step (result : Result) (rest : List Result) (cache : Cache) (n : Nat) :
    updateCache (result :: rest) (cache, n) =
      if isWrite result then
        updateCache rest (cacheSet result.url (result.imageUrl.getD []) cache, n + 1)
      else updateCache rest (cache, n) := by
  unfold isWrite
  cases h : result.imageUrl with
  | none => simp [updateCache, h]
  | some img => simp [updateCache, h]

theorem updateCache_no_write (rs : List Result) :
    ∀ (cache : Cache) (n : Nat), (∀ r ∈ rs, isWrite r = false) → updateCache rs (cache, n) = (cache, n) := by
  induction rs with
  | nil => intro cache n _; rfl
  | cons r rest ih =>
    intro cache n h
    rw [updateCache_step, h r (List.mem_cons_self _ _)]
    simpa using ih cache n (fun r' hr' => h r' (List.mem_cons_of_mem _ hr'))

theorem updateCache_get (k : Str) (rs : List Result) :
    ∀ (cache : Cache) (n : Nat),
      ((∀ r ∈ rs, isWrite r = true → r.url ≠ k) ∧
          cacheGet (updateCache rs (cache, n)).1 k = cacheGet cache k) ∨
        ∃ r ∈ rs, isWrite r = true ∧ r.url = k ∧
          cacheGet (updateCache rs (cache, n)).1 k = r.imageUrl := by
  induction rs with
  | nil => intro cache n; left; exact ⟨by simp, rfl⟩
  | cons r rest ih =>
    intro cache n
    rw [updateCache_step]
    by_cases hw : isWrite r = true
    · simp only [hw, if_true]
      rcases ih (cacheSet r.url (r.imageUrl.getD []) cache) (n + 1) with ⟨h1, h2⟩ | ⟨r', hr', h1, h2, h3⟩
      · by_cases hk : r.url = k
        · right
          refine ⟨r, List.mem_cons_self _ _, hw, hk, ?_⟩
          rw [h2, cacheGet_cacheSet, if_pos hk.symm]
          unfold isWrite at hw
          cases hi : r.imageUrl with
          | none => simp [hi] at hw
          | some img => simp
        · left
          refine ⟨?_, ?_⟩
          · intro r' hr' hw'
            rcases List.mem_cons.mp hr' with e | e
            · rw [e]; exact hk
            · exact h1 r' e hw'
          · rw [h2, cacheGet_cacheSet, if_neg (fun e => hk e.symm)]
      · right
        exact ⟨r', List.mem_cons_of_mem _ hr', h1, h2, h3⟩
    · simp only [hw]
      rcases ih cache n with ⟨h1, h2⟩ | ⟨r', hr', h1, h2, h3⟩
      · left
        refine ⟨?_, by simpa using h2⟩
        intro r' hr' hw'
        rcases List.mem_cons.mp hr' with e | e
        · rw [e] at hw'; exact absurd hw' hw
        · exact h1 r' e hw'
      · right
        exact ⟨r', List.mem_cons_of_mem _ hr', h1, h2, by simpa using h3⟩

theorem mainLoop_eq (P : Platform) (refresh : Bool) (cache : Cache)
    (fetch : Nat → Str → Except Str Str) (n : Nat) (urls : List Str) :
    ∀ i, mainLoop P refresh cache fetch n i urls = .ok (loopFrom P refresh cache fetch n i urls) := by
  induction urls with
  | nil => intro i; rfl
  | cons url rest ih =>
    intro i
    simp only [mainLoop, processProduct_eq, ih, loopFrom]

theorem main_eq (P : Platform) (refresh : Bool) (urls : List Str) (cache : Cache)
    (fetch : Nat → Str → Except Str Str) :
    main P refresh urls cache fetch = .ok (runOutcome P refresh urls cache fetch) := by
  simp only [main, mainLoop_eq, runOutcome]

theorem loopFrom_results (P : Platform) (refresh : Bool) (cache : Cache)
    (fetch : Nat → Str → Except Str Str) (n : Nat) (urls : List Str) :
    ∀ i, (loopFrom P refresh cache fetch n i urls).results =
      resultsFrom P refresh cache fetch i urls := by
  induction urls with
  | nil => intro i; rfl
  | cons url rest ih => intro i; simp only [loopFrom, resultsFrom, ih]

theorem mem_loopFrom_effects (P : Platform) (refresh : Bool) (cache : Cache)
    (fetch : Nat → Str → Except Str Str) (n : Nat) (urls : List Str) (u : Str) :
    ∀ i, Effect.fetch u ∈ (loopFrom P refresh cache fetch n i urls).effects →
      u ∈ urls ∧ (!refresh && truthy (cacheGet cache u)) = false := by
  induction urls with
  | nil => intro i h; simp [loopFrom] at h
  | cons url rest ih =>
    intro i h
    simp only [loopFrom, List.mem_append] at h
    rcases h with (h | h) | h
    · unfold productOutcome at h
      by_cases hc : (!refresh && truthy (cacheGet cache url)) = true
      · simp [hc] at h
      · simp only [hc] at h
        simp at h
        subst h
        exact ⟨List.mem_cons_self _ _, by simpa using hc⟩
    · split at h <;> simp at h
    · exact ⟨List.mem_cons_of_mem _ (ih (i + 1) h).1, (ih (i + 1) h).2⟩

theorem freshResult_isWrite (P : Platform) (f : Str → Except Str Str) (url : Str)
    (h : isWrite (freshResult P f url) = true) :
    ∃ html img, f url = .ok html ∧ extractImageURL P html url = .ok (some img) ∧ img ≠ [] ∧
      (freshResult P f url).imageUrl = some img := by
  unfold freshResult at h ⊢
  cases hf : f url with
  | error e => simp [hf, isWrite] at h
  | ok html =>
    cases he : extractImageURL P html url with
    | error e => simp [hf, he, isWrite] at h
    | ok imageUrl =>
      cases imageUrl with
      | none => simp [hf, he, isWrite, truthy] at h
      | some img =>
        by_cases ht : truthyStr img = true
        · refine ⟨html, img, rfl, he, ?_, ?_⟩
          · intro e; simp [e, truthyStr] at ht
          · simp [he, truthy, ht]
        · simp [hf, he, isWrite, truthy, ht] at h

theorem productOutcome_isWrite (P : Platform) (refresh : Bool) (cache : Cache)
    (f : Str → Except Str Str) (url : Str)
    (h : isWrite (productOutcome P refresh cache f url).1 = true) :
    (!refresh && truthy (cacheGet cache url)) = false ∧
      (productOutcome P refresh cache f url).1 = freshResult P f url := by
  unfold productOutcome at h ⊢
  by_cases hc : (!refresh && truthy (cacheGet cache url)) = true
  · simp only [hc, if_true] at h
    unfold isWrite at h
    cases hg : cacheGet cache url <;> simp [hg] at h
  · simp only [hc]
    exact ⟨trivial, by simp⟩

/-- Claim C1: a run never removes a key of the cache, and the value of a key
changes only to the image that a request made in this run for that same address
resolved; an address whose every request fails or finds nothing keeps its
entry, in either mode and whatever the network does. -/
theorem cache_failure_nondestructive (P : Platform) (refresh : Bool) (urls : List Str)
    (cache : Cache) (fetch : Nat → Str → Except Str Str) :
    ∃ out, main P refresh urls cache fetch = .ok out ∧
      ∀ k v, cacheGet cache k = some v →
        (cacheGet out.cache k).isSome = true ∧
        (cacheGet out.cache k = some v ∨
          ∃ i html img, urls[i]? = some k ∧ (!refresh && truthy (cacheGet cache k)) = false ∧
            fetch i k = .ok html ∧ extractImageURL P html k = .ok (some img) ∧ img ≠ [] ∧
            cacheGet out.cache k = some img) ∧
        ((∀ i html, urls[i]? = some k → fetch i k = .ok html →
            extractImageURL P html k = .ok none ∨ ∃ e, extractImageURL P html k = .error e) →
          cacheGet out.cache k = some v) := by
  refine ⟨_, main_eq P refresh urls cache fetch, ?_⟩
  intro k v hk
  have key : cacheGet (runOutcome P refresh urls cache fetch).cache k = some v ∨
      ∃ i html img, urls[i]? = some k ∧ (!refresh && truthy (cacheGet cache k)) = false ∧
        fetch i k = .ok html ∧ extractImageURL P html k = .ok (some img) ∧ img ≠ [] ∧
        cacheGet (runOutcome P refresh urls cache fetch).cache k = some img := by
    simp only [runOutcome, loopFrom_results]
    rcases updateCache_get k (resultsFrom P refresh cache fetch 0 urls) cache 0 with
      ⟨_, h2⟩ | ⟨r, hr, hw, hu, hv⟩
    · left; rw [h2, hk]
    · right
      obtain ⟨j, hj1, hj2⟩ := mem_resultsFrom P refresh cache fetch urls r 0 hr
      rw [hu] at hj1 hj2
      rw [hj2] at hw
      obtain ⟨hreq, hfr⟩ := productOutcome_isWrite P refresh cache _ k hw
      rw [hfr] at hw
      obtain ⟨html, img, h1, h2, h3, h4⟩ := freshResult_isWrite P _ k hw
      refine ⟨j, html, img, hj1, hreq, by simpa using h1, h2, h3, ?_⟩
      rw [hv, hj2, hfr, h4]
  refine ⟨?_, key, ?_⟩
  · rcases key with h | ⟨_, _, img, _, _, _, _, _, h⟩ <;> simp [h]
  · intro hall
    rcases key with h | ⟨i, html, img, h1, _, h2, h3, _, _⟩
    · exact h
    · rcases hall i html h1 h2 with h | ⟨e, h⟩ <;> simp [h] at h3

/-- Claim C1, the example of the specification: cache `{"A": "imgA"}`, refresh
mode, the request for `A` times out; the cache written is `{"A": "imgA"}`. -/
theorem cache_failure_nondestructive_witness :
    ∃ out, main demoPlatform true ["A".toList] [("A".toList, "imgA".toList)]
        (fun _ _ => .error "Timeout".toList) = .ok out ∧
      cacheGet out.cache "A".toList = some "imgA".toList := by
  obtain ⟨out, h, hall⟩ := cache_failure_nondestructive demoPlatform true ["A".toList]
    [("A".toList, "imgA".toList)] (fun _ _ => .error "Timeout".toList)
  refine ⟨out, h, ?_⟩
  exact (hall "A".toList "imgA".toList (by decide)).2.2 (by intro i html _ h; simp at h)

theorem freshResult_cached (P : Platform) (f : Str → Except Str Str) (url : Str) :
    (freshResult P f url).cached = false := by
  unfold freshResult
  split
  · rfl
  · split
    · rfl
    · split <;> rfl

theorem isWrite_truthy (r : Result) (h : isWrite r = true) : truthy r.imageUrl = true := by
  unfold isWrite at h
  cases hi : r.imageUrl with
  | none => simp [hi] at h
  | some img =>
    simp only [hi, Bool.and_eq_true] at h
    simp [truthy, h.1]

theorem resultsFrom_getElem (P : Platform) (refresh : Bool) (cache : Cache)
    (fetch : Nat → Str → Except Str Str) (urls : List Str) :
    ∀ i j, (resultsFrom P refresh cache fetch i urls)[j]? =
      urls[j]?.map (fun u => (productOutcome P refresh cache (fetch (i + j)) u).1) := by
  induction urls with
  | nil => intro i j; simp [resultsFrom]
  | cons url rest ih =>
    intro i j
    cases j with
    | zero => simp [resultsFrom]
    | succ j =>
      simp only [resultsFrom, List.getElem?_cons_succ, ih]
      have : i + 1 + j = i + (j + 1) := by omega
      rw [this]

/-- Claim C2 as stated fails on a cache that holds an entry with an empty value:
in incremental mode the cache `{"A": ""}` holds an entry for `A`, yet
`processProduct` requests `A`. -/
theorem skip_iff_entry_counterexample :
    (cacheGet [("A".toList, [])] "A".toList).isSome = true ∧
      processProduct demoPlatform false [("A".toList, [])]
          (fun _ => .error "Timeout".toList) "A".toList =
        .ok ({ url := "A".toList, imageUrl := none, cached := false,
               error := some "Timeout".toList }, [Effect.fetch "A".toList]) :=
  ⟨rfl, rfl⟩

/-- Claim C2, amended: `processProduct` skips an address (no request, the cached
value returned and marked cached) exactly when refresh mode is off and the cache
holds a non-empty value for it; otherwise it makes one request, so in refresh
mode every address is requested; and a run in incremental mode never requests an
address whose cached value is non-empty.  On a cache without empty values, which
is what every run writes when it starts from one, holding a non-empty value is
the same as holding an entry. -/
theorem skip_iff_truthy_entry (P : Platform) (refresh : Bool) (cache : Cache)
    (f : Str → Except Str Str) (url : Str) :
    (processProduct P refresh cache f url =
        .ok ({ url := url, imageUrl := cacheGet cache url, cached := true, error := none }, []) ↔
      (refresh = false ∧ truthy (cacheGet cache url) = true)) ∧
    (¬ (refresh = false ∧ truthy (cacheGet cache url) = true) →
      ∃ r, processProduct P refresh cache f url = .ok (r, [Effect.fetch url]) ∧
        r.cached = false) ∧
    (refresh = true → ∃ r, processProduct P refresh cache f url = .ok (r, [Effect.fetch url])) ∧
    (∀ (urls : List Str) (fetch : Nat → Str → Except Str Str),
      refresh = false → truthy (cacheGet cache url) = true →
        ∃ out, main P refresh urls cache fetch = .ok out ∧ Effect.fetch url ∉ out.effects) ∧
    ((∀ k v, cacheGet cache k = some v → v ≠ []) →
      (truthy (cacheGet cache url) = true ↔ (cacheGet cache url).isSome = true) ∧
      ∀ (urls : List Str) (fetch : Nat → Str → Except Str Str),
        ∃ out, main P refresh urls cache fetch = .ok out ∧
          ∀ k v, cacheGet out.cache k = some v → v ≠ []) := by
  have hfresh : ¬ (refresh = false ∧ truthy (cacheGet cache url) = true) →
      processProduct P refresh cache f url = .ok (freshResult P f url, [Effect.fetch url]) := by
    intro h
    rw [processProduct_eq, productOutcome]
    have hc : ¬ ((!refresh && truthy (cacheGet cache url)) = true) := by
      intro hc
      simp only [Bool.and_eq_true, Bool.not_eq_true'] at hc
      exact h hc
    simp only [hc]
    rfl
  refine ⟨⟨?_, ?_⟩, ?_, ?_, ?_, ?_⟩
  · intro h
    by_contra hn
    rw [hfresh hn] at h
    simp at h
  · rintro ⟨h1, h2⟩
    rw [processProduct_eq, productOutcome]
    simp [h1, h2]
  · intro hn
    exact ⟨_, hfresh hn, freshResult_cached P f url⟩
  · intro hr
    exact ⟨_, hfresh (by simp [hr])⟩
  · intro urls fetch hr ht
    refine ⟨_, main_eq P refresh urls cache fetch, ?_⟩
    intro hmem
    simp only [runOutcome, List.mem_append, List.mem_singleton] at hmem
    rcases hmem with hmem | hmem
    · have := (mem_loopFrom_effects P refresh cache fetch urls.length urls url 0 hmem).2
      simp [hr, ht] at this
    · cases hmem
  · intro hne
    constructor
    · cases hg : cacheGet cache url with
      | none => simp [truthy]
      | some v =>
        have := hne url v hg
        cases v with
        | nil => exact absurd rfl this
        | cons c cs => simp [truthy, truthyStr]
    · intro urls fetch
      refine ⟨_, main_eq P refresh urls cache fetch, ?_⟩
      intro k v hv
      simp only [runOutcome, loopFrom_results] at hv
      rcases updateCache_get k (resultsFrom P refresh cache fetch 0 urls) cache 0 with
        ⟨_, h2⟩ | ⟨r, _, hw, _, h3⟩
      · rw [h2] at hv
        exact hne k v hv
      · rw [h3] at hv
        have ht := isWrite_truthy r hw
        rw [hv] at ht
        intro e
        rw [e] at ht
        cases ht

/-- Claim C2, amended, on the cache `{"A": "imgA"}` in incremental mode: `A` is
skipped, and a run over `["A"]` makes no request for it. -/
theorem skip_iff_truthy_entry_witness :
    processProduct demoPlatform false [("A".toList, "imgA".toList)]
        (fun _ => .error "Timeout".toList) "A".toList =
      .ok ({ url := "A".toList, imageUrl := some "imgA".toList, cached := true,
             error := none }, []) ∧
    ∃ out, main demoPlatform false ["A".toList] [("A".toList, "imgA".toList)]
        (fun _ _ => .error "Timeout".toList) = .ok out ∧
      Effect.fetch "A".toList ∉ out.effects :=
  ⟨(skip_iff_truthy_entry demoPlatform false [("A".toList, "imgA".toList)]
      (fun _ => .error "Timeout".toList) "A".toList).1.mpr ⟨rfl, by decide⟩,
   (skip_iff_truthy_entry demoPlatform false [("A".toList, "imgA".toList)]
      (fun _ => .error "Timeout".toList) "A".toList).2.2.2.1 ["A".toList]
      (fun _ _ => .error "Timeout".toList) rfl (by decide)⟩

/-- Claim C9: `processProduct` never throws but returns a result object for the
address it was given, whatever the cache and the network do; so a run returns,
with one result per address in list order, the `i`-th being the result for the
`i`-th address, and it ends by merging the results into the cache and writing
it. -/
theorem continue_on_error (P : Platform) (refresh : Bool) (urls : List Str) (cache : Cache)
    (fetch : Nat → Str → Except Str Str) :
    (∀ (f : Str → Except Str Str) (url : Str),
      ∃ r fx, processProduct P refresh cache f url = .ok (r, fx) ∧ r.url = url) ∧
    ∃ out, main P refresh urls cache fetch = .ok out ∧
      out.results.length = urls.length ∧
      out.results.map (fun r => r.url) = urls ∧
      (∀ i r, out.results[i]? = some r →
        ∃ url fx, urls[i]? = some url ∧
          processProduct P refresh cache (fetch i) url = .ok (r, fx)) ∧
      out.cache = (updateCache out.results (cache, 0)).1 ∧
      out.effects.getLast? = some (Effect.save out.cache) := by
  refine ⟨?_, _, main_eq P refresh urls cache fetch, ?_, ?_, ?_, ?_, ?_⟩
  · intro f url
    exact ⟨_, _, processProduct_eq P refresh cache f url, productOutcome_url P refresh cache f url⟩
  · have := congrArg List.length (resultsFrom_map_url P refresh cache fetch urls 0)
    simpa [runOutcome, loopFrom_results] using this
  · simp only [runOutcome, loopFrom_results]
    exact resultsFrom_map_url P refresh cache fetch urls 0
  · intro i r hr
    simp only [runOutcome, loopFrom_results, resultsFrom_getElem] at hr
    cases hu : urls[i]? with
    | none => simp [hu] at hr
    | some url =>
      simp only [hu, Option.map_some', Option.some.injEq, Nat.zero_add] at hr
      refine ⟨url, (productOutcome P refresh cache (fetch i) url).2, rfl, ?_⟩
      rw [processProduct_eq, ← hr]
  · rfl
  · simp [runOutcome]

/-- Claim C10: in incremental mode, with a network that answers each address the
same way every time, a second run on the cache written by the first run writes
the same cache again (same keys, values and order, so the same file) and
resolves nothing anew. -/
theorem incremental_idempotent (P : Platform) (urls : List Str) (cache : Cache)
    (f : Str → Except Str Str) :
    ∃ out1 out2, main P false urls cache (fun _ => f) = .ok out1 ∧
      main P false urls out1.cache (fun _ => f) = .ok out2 ∧
      out2.cache = out1.cache ∧ out2.updatedCount = 0 ∧
      out2.effects.getLast? = some (Effect.save out1.cache) := by
  refine ⟨_, _, main_eq P false urls cache _, main_eq P false urls _ _, ?_⟩
  generalize hc1 : (runOutcome P false urls cache (fun _ => f)).cache = c1
  have hno : ∀ r ∈ resultsFrom P false c1 (fun _ => f) 0 urls, isWrite r = false := by
    intro r hr
    by_contra hw
    have hw : isWrite r = true := by simpa using hw
    obtain ⟨j, hj1, hj2⟩ := mem_resultsFrom P false c1 (fun _ => f) urls r 0 hr
    generalize r.url = k at hj1 hj2
    rw [hj2] at hw
    obtain ⟨hskip, hfr⟩ := productOutcome_isWrite P false c1 f k hw
    rw [hfr] at hw
    have hc1k : truthy (cacheGet c1 k) = false := by simpa using hskip
    -- the result of the first run at the same position
    have hmem1 : (productOutcome P false cache f k).1 ∈
        resultsFrom P false cache (fun _ => f) 0 urls := by
      have := resultsFrom_getElem P false cache (fun _ => f) urls 0 j
      rw [hj1] at this
      exact List.getElem?_mem this
    have hget := updateCache_get k (resultsFrom P false cache (fun _ => f) 0 urls) cache 0
    have hc1def : c1 = (updateCache (resultsFrom P false cache (fun _ => f) 0 urls) (cache, 0)).1 := by
      rw [← hc1]; simp only [runOutcome, loopFrom_results]
    rw [← hc1def] at hget
    rcases hget with ⟨hnw, hsame⟩ | ⟨r', _, hw', _, hv⟩
    · by_cases ht : truthy (cacheGet cache k) = true
      · rw [hsame, ht] at hc1k
        cases hc1k
      · have hout : (productOutcome P false cache f k).1 = freshResult P f k := by
          unfold productOutcome
          simp [ht]
        exact hnw _ hmem1 (by rw [hout]; exact hw) (productOutcome_url P false cache f k)
    · have := isWrite_truthy r' hw'
      rw [← hv, hc1k] at this
      cases this
  have hnw := updateCache_no_write _ c1 0 hno
  refine ⟨?_, ?_, ?_⟩
  · simp only [runOutcome, loopFrom_results, hnw]
  · simp only [runOutcome, loopFrom_results, hnw]
  · simp [runOutcome, loopFrom_results, hnw]

/-! ## Lemmas on the regular expressions -/

theorem includes_iff (sub s : Str) : includes sub s = true ↔ sub <:+: s := by
  induction s with
  | nil => simp [includes, List.isEmpty_iff]
  | cons c cs ih =>
    simp only [includes, Bool.or_eq_true, ih, List.isPrefixOf_iff_prefix, List.infix_cons_iff]

theorem greedyStar_outside (k : Cls) (cont : Str → Option MatchRes) (Q : Str → Prop)
    (hc : ∀ s r, cont s = some r → Q r.cap) :
    ∀ s r, greedyStar k false cont s = some r → Q r.cap := by
  intro s
  induction s with
  | nil => intro r h; exact hc [] r h
  | cons c cs ih =>
    intro r h
    unfold greedyStar at h
    split at h
    · split at h
      · next r' hr' =>
        cases h
        exact ih r' hr'
      · exact hc _ r h
    · exact hc _ r h

theorem lazyStarM_outside (k : Cls) (cont : Str → Option MatchRes) (Q : Str → Prop)
    (hc : ∀ s r, cont s = some r → Q r.cap) :
    ∀ s r, lazyStarM k false cont s = some r → Q r.cap := by
  intro s
  induction s with
  | nil => intro r h; exact hc [] r h
  | cons c cs ih =>
    intro r h
    unfold lazyStarM at h
    split at h
    · next r' hr' => cases h; exact hc _ _ hr'
    · split at h
      · cases hl : lazyStarM k false cont cs with
        | none => simp [hl] at h
        | some r' =>
          simp only [hl, Option.map_some', Option.some.injEq] at h
          subst h
          exact ih r' hl
      · cases h

theorem map_consRes_outside (Q : Str → Prop) (c : Char) (o : Option MatchRes) (r : MatchRes)
    (h : o.map (consRes false c) = some r) (hq : ∀ r', o = some r' → Q r'.cap) : Q r.cap := by
  cases o with
  | none => simp at h
  | some r' =>
    simp only [Option.map_some', Option.some.injEq] at h
    subst h
    exact hq r' rfl

/-- Outside the group a pattern piece without group markers leaves the capture
to what follows it. -/
theorem matchHere_skip (rest : Regex) (pre : Regex) (hpre : groupFree pre = true) :
    ∀ s r, matchHere (pre ++ rest) false s = some r →
      ∃ s' r', matchHere rest false s' = some r' ∧ r'.cap = r.cap := by
  induction pre with
  | nil => intro s r h; exact ⟨s, r, h, rfl⟩
  | cons it pre ih =>
    have hpre' : groupFree pre = true := by
      simp only [groupFree, List.all_cons, Bool.and_eq_true] at hpre ⊢
      exact hpre.2
    have ih := ih hpre'
    intro s r h
    cases it with
    | lit a =>
      simp only [List.cons_append, matchHere] at h
      cases s with
      | nil => simp at h
      | cons c cs =>
        simp only at h
        split at h
        · exact map_consRes_outside
            (fun cap => ∃ s' r', matchHere rest false s' = some r' ∧ r'.cap = cap)
            c _ r h (fun r' hr' => ih cs r' hr')
        · cases h
    | one k =>
      simp only [List.cons_append, matchHere] at h
      cases s with
      | nil => simp at h
      | cons c cs =>
        simp only at h
        split at h
        · exact map_consRes_outside
            (fun cap => ∃ s' r', matchHere rest false s' = some r' ∧ r'.cap = cap)
            c _ r h (fun r' hr' => ih cs r' hr')
        · cases h
    | star k =>
      simp only [List.cons_append, matchHere] at h
      exact greedyStar_outside k _
        (fun cap => ∃ s' r', matchHere rest false s' = some r' ∧ r'.cap = cap) ih s r h
    | plus k =>
      simp only [List.cons_append, matchHere] at h
      cases s with
      | nil => simp at h
      | cons c cs =>
        simp only at h
        split at h
        · exact map_consRes_outside
            (fun cap => ∃ s' r', matchHere rest false s' = some r' ∧ r'.cap = cap)
            c _ r h (fun r' hr' => greedyStar_outside k _
              (fun cap => ∃ s' r', matchHere rest false s' = some r' ∧ r'.cap = cap) ih cs r' hr')
        · cases h
    | lazyStar k =>
      simp only [List.cons_append, matchHere] at h
      exact lazyStarM_outside k _
        (fun cap => ∃ s' r', matchHere rest false s' = some r' ∧ r'.cap = cap) ih s r h
    | gOpen => simp [groupFree] at hpre
    | gClose => simp [groupFree] at hpre

theorem matchHere_groupFree (re : Regex) (hre : groupFree re = true) (s : Str) (r : MatchRes)
    (h : matchHere re false s = some r) : r.cap = [] := by
  have := matchHere_skip [] re hre s r (by simpa using h)
  obtain ⟨s', r', h1, h2⟩ := this
  simp only [matchHere, Option.some.injEq] at h1
  rw [← h2, ← h1]

theorem greedyStar_inside (k : Cls) (cont : Str → Option MatchRes)
    (hc : ∀ s r, cont s = some r → r.cap = []) :
    ∀ s r, greedyStar k true cont s = some r → ∀ x ∈ r.cap, k.test x = true := by
  intro s
  induction s with
  | nil => intro r h x hx; rw [hc [] r h] at hx; cases hx
  | cons c cs ih =>
    intro r h
    unfold greedyStar at h
    split at h
    · next hk =>
      split at h
      · next r' hr' =>
        cases h
        intro x hx
        simp only [consRes, if_true, List.mem_cons] at hx
        rcases hx with hx | hx
        · rw [hx]; exact hk
        · exact ih r' hr' x hx
      · intro x hx; rw [hc _ r h] at hx; cases hx
    · intro x hx; rw [hc _ r h] at hx; cases hx

/-- The capture of a pattern whose group is `(k+)`: a non-empty string of
characters of the class `k`. -/
theorem cap_of_plusGroup (pre post : Regex) (k : Cls) (hpre : groupFree pre = true)
    (hpost : groupFree post = true) (s : Str) (r : MatchRes)
    (h : matchHere (pre ++ Item.gOpen :: Item.plus k :: Item.gClose :: post) false s = some r) :
    r.cap ≠ [] ∧ ∀ x ∈ r.cap, k.test x = true := by
  obtain ⟨s', r', h1, h2⟩ := matchHere_skip _ pre hpre s r h
  rw [← h2]
  simp only [matchHere] at h1
  cases s' with
  | nil => simp at h1
  | cons c cs =>
    simp only at h1
    split at h1
    · next hk =>
      simp only [Option.map_eq_some'] at h1
      obtain ⟨r'', hg, rfl⟩ := h1
      have := greedyStar_inside k _ (fun s r hr => matchHere_groupFree post hpost s r hr) cs r'' hg
      refine ⟨by simp [consRes], ?_⟩
      intro x hx
      simp only [consRes, if_true, List.mem_cons] at hx
      rcases hx with hx | hx
      · rw [hx]; exact hk
      · exact this x hx
    · cases h1

theorem search_some (re : Regex) :
    ∀ s r, search re s = some r → ∃ s', matchHere re false s' = some r := by
  intro s
  induction s with
  | nil => intro r h; exact ⟨[], h⟩
  | cons c cs ih =>
    intro r h
    unfold search at h
    split at h
    · next r' hr' => cases h; exact ⟨_, hr'⟩
    · exact ih r h

theorem mem_matchAllAux (re : Regex) (r : MatchRes) :
    ∀ s skip, r ∈ matchAllAux re s skip → ∃ s', matchHere re false s' = some r := by
  intro s
  induction s with
  | nil => intro skip h; simp [matchAllAux] at h
  | cons c cs ih =>
    intro skip h
    cases skip with
    | succ n => simp only [matchAllAux] at h; exact ih n h
    | zero =>
      simp only [matchAllAux] at h
      split at h
      · next r' hr' =>
        rcases List.mem_cons.mp h with e | e
        · rw [e]; exact ⟨_, hr'⟩
        · exact ih _ e
      · exact ih 0 h

/-! ## Lemmas on resolution and extraction -/

theorem resolveURL_valid (P : Platform) (url base : Str) (o : URLParts)
    (hbase : P.parseURL base = some o) : resolveURL P url base = .ok (resolveWith o url) := by
  unfold resolveURL resolveWith
  split
  · rfl
  · split
    · rfl
    · simp only [hbase]
      split <;> rfl

theorem isPrefixOf_false {p s : Str} (h : ¬ p <+: s) : p.isPrefixOf s = false :=
  Bool.eq_false_iff.mpr (fun hp => h (List.isPrefixOf_iff_prefix.mp hp))

/-- The three rules of origin-relative resolution, for a value that does not
begin with `http`. -/
theorem resolveURL_relative (P : Platform) (url base : Str) (o : URLParts)
    (hbase : P.parseURL base = some o) (hurl : ¬ "http".toList <+: url) :
    ("//".toList <+: url → resolveURL P url base = .ok ("https:".toList ++ url)) ∧
    (¬ "//".toList <+: url → "/".toList <+: url →
      resolveURL P url base = .ok (o.protocol ++ "//".toList ++ o.host ++ url)) ∧
    (¬ "/".toList <+: url →
      resolveURL P url base = .ok (o.protocol ++ "//".toList ++ o.host ++ "/".toList ++ url)) := by
  have h0 : "http".toList.isPrefixOf url = false := isPrefixOf_false hurl
  refine ⟨?_, ?_, ?_⟩
  · intro h
    have h1 : "//".toList.isPrefixOf url = true := List.isPrefixOf_iff_prefix.mpr h
    simp only [resolveURL, h0, h1, Bool.false_eq_true, if_false, if_true]
  · intro h hs
    have h1 : "//".toList.isPrefixOf url = false := isPrefixOf_false h
    have h2 : "/".toList.isPrefixOf url = true := List.isPrefixOf_iff_prefix.mpr hs
    simp only [resolveURL, h0, h1, h2, hbase, Bool.false_eq_true, if_false, if_true]
  · intro hs
    have h2 : "/".toList.isPrefixOf url = false := isPrefixOf_false hs
    have h1 : "//".toList.isPrefixOf url = false :=
      isPrefixOf_false (fun hp => hs ((List.prefix_append "/".toList "/".toList).trans hp))
    simp only [resolveURL, h0, h1, h2, hbase, Bool.false_eq_true, if_false]

theorem collectImages_valid (P : Platform) (base : Str) (o : URLParts)
    (hbase : P.parseURL base = some o) (ms : List MatchRes) :
    collectImages P base ms =
      .ok ((ms.filter (fun m => keepSrc m.cap)).map
        (fun m => { src := resolveWith o m.cap, area := areaOf m.matched })) := by
  induction ms with
  | nil => rfl
  | cons m ms ih =>
    unfold collectImages
    by_cases hk : keepSrc m.cap = true
    · simp [hk, resolveURL_valid P m.cap base o hbase, ih]
    · simp [hk, ih]

/-- Claim C5: `resolveURL` leaves a bare relative value that begins with the
letters `http` as it is, instead of resolving it against the origin of the base
address. -/
theorem resolveURL_bare_http_unresolved :
    resolveURL demoPlatform "httpdocs/a.jpg".toList "https://site/page".toList =
        .ok "httpdocs/a.jpg".toList ∧
      demoPlatform.parseURL "https://site/page".toList =
        some { protocol := "https:".toList, host := "site".toList } ∧
      "httpdocs/a.jpg".toList ≠ "https://site/httpdocs/a.jpg".toList := by
  refine ⟨rfl, rfl, by decide⟩

/-- Claim C6 as stated fails: a value that carries the scheme `ftp:` or `data:`
is not returned unchanged but resolved against the origin of the base. -/
theorem resolveURL_other_scheme_counterexample :
    resolveURL demoPlatform "ftp://host/x.png".toList "https://site/page".toList =
        .ok "https://site/ftp://host/x.png".toList ∧
      resolveURL demoPlatform "data:image/png;base64,AAAA".toList "https://site/page".toList =
        .ok "https://site/data:image/png;base64,AAAA".toList :=
  ⟨rfl, rfl⟩

/-- Claim C6, amended: a value that carries the scheme `http:` or `https:` is
returned unchanged, for every base address, valid or not. -/
theorem resolveURL_http_unchanged (P : Platform) (url base : Str)
    (h : "http:".toList <+: url ∨ "https:".toList <+: url) :
    resolveURL P url base = .ok url := by
  have hp : "http".toList <+: url := by
    rcases h with h | h
    · exact (List.prefix_append "http".toList ":".toList).trans h
    · exact (List.prefix_append "http".toList "s:".toList).trans h
  have h0 : "http".toList.isPrefixOf url = true := List.isPrefixOf_iff_prefix.mpr hp
  simp only [resolveURL, h0, if_true]

/-- Claim C6, amended, on `https://cdn.example/x.jpg` with a base that is not an
address at all. -/
theorem resolveURL_http_unchanged_witness :
    resolveURL demoPlatform "https://cdn.example/x.jpg".toList "no address".toList =
      .ok "https://cdn.example/x.jpg".toList :=
  resolveURL_http_unchanged demoPlatform "https://cdn.example/x.jpg".toList "no address".toList
    (Or.inr (by decide))

/-- Claim C7: on a page whose `og:image` content is the relative path
`httpdocs/a.jpg`, extraction succeeds with that path as it is, and the run
stores it in the cache: a stored value that is not absolute. -/
theorem stored_relative_path :
    extractImageURL demoPlatform
        pageRelativeOg
        "https://site/page".toList =
      .ok (some "httpdocs/a.jpg".toList) ∧
    (main demoPlatform false ["https://site/page".toList] []
        (fun _ _ => .ok pageRelativeOg)).map
        (fun out => out.cache) =
      .ok [("https://site/page".toList, "httpdocs/a.jpg".toList)] :=
  ⟨rfl, rfl⟩

theorem matchEither_cap (re1 re2 pre1 post1 pre2 post2 : Regex) (k : Cls)
    (h1 : re1 = pre1 ++ Item.gOpen :: Item.plus k :: Item.gClose :: post1)
    (h2 : re2 = pre2 ++ Item.gOpen :: Item.plus k :: Item.gClose :: post2)
    (hpre1 : groupFree pre1 = true) (hpost1 : groupFree post1 = true)
    (hpre2 : groupFree pre2 = true) (hpost2 : groupFree post2 = true)
    (html : Str) (m : MatchRes) (h : matchEither re1 re2 html = some m) :
    m.cap ≠ [] ∧ ∀ x ∈ m.cap, k.test x = true := by
  unfold matchEither at h
  split at h
  · next m' hm' =>
    rw [← Option.some.inj h]
    obtain ⟨s', hs'⟩ := search_some re1 html m' hm'
    rw [h1] at hs'
    exact cap_of_plusGroup pre1 post1 k hpre1 hpost1 s' m' hs'
  · obtain ⟨s', hs'⟩ := search_some re2 html m h
    rw [h2] at hs'
    exact cap_of_plusGroup pre2 post2 k hpre2 hpost2 s' m hs'

/-- The content captured from an `og:image` tag is non-empty and free of quote
characters. -/
theorem ogImageMatch_cap (html : Str) (m : MatchRes) (h : ogImageMatch html = some m) :
    m.cap ≠ [] ∧ ∀ x ∈ m.cap, Cls.notQuote.test x = true := by
  have h1 : ogImageRe1 =
      (lits "<meta" ++ [Item.star .notGt] ++ lits "property=" ++ [Item.one .quote] ++
        lits "og:image" ++ [Item.one .quote, Item.star .notGt] ++ lits "content=" ++
        [Item.one .quote]) ++
      Item.gOpen :: Item.plus .notQuote :: Item.gClose :: [Item.one .quote] := rfl
  have h2 : ogImageRe2 =
      (lits "<meta" ++ [Item.star .notGt] ++ lits "content=" ++ [Item.one .quote]) ++
      Item.gOpen :: Item.plus .notQuote :: Item.gClose ::
        ([Item.one .quote, Item.star .notGt] ++ lits "property=" ++ [Item.one .quote] ++
          lits "og:image" ++ [Item.one .quote]) := rfl
  exact matchEither_cap _ _ _ _ _ _ .notQuote h1 h2 (by decide) (by decide) (by decide)
    (by decide) html m h

/-- The `src` captured from an `<img>` tag is non-empty and free of quote
characters. -/
theorem imgRe_cap (html : Str) (m : MatchRes) (h : m ∈ matchAll imgRe html) :
    m.cap ≠ [] ∧ ∀ x ∈ m.cap, Cls.notQuote.test x = true := by
  obtain ⟨s', hs'⟩ := mem_matchAllAux imgRe m html 0 h
  have himg : imgRe = (lits "<img" ++ [.star .notGt] ++ lits "src=" ++ [.one .quote]) ++
      Item.gOpen :: Item.plus .notQuote :: Item.gClose ::
        ([.one .quote, .star .notGt] ++ lits ">") := rfl
  rw [himg] at hs'
  exact cap_of_plusGroup _ _ .notQuote (by decide) (by decide) s' m hs'

theorem largestImage_valid (P : Platform) (html base : Str) (o : URLParts)
    (hbase : P.parseURL base = some o) :
    largestImage P html base =
      .ok ((sortImages P ((candidates html).map
        (fun m => { src := resolveWith o m.cap, area := areaOf m.matched }))).head?.map
          (fun image => image.src)) := by
  unfold largestImage candidates
  rw [collectImages_valid P base o hbase]
  simp only
  split
  · next h => rw [h]; rfl
  · next first rest h => rw [h]; rfl

/-- Claim C8: when the open-graph and twitter strategies find nothing and the
text of the JSON-LD block does not parse, strategy 3 yields nothing without
throwing and `extractImageURL` is exactly strategy 4 on that markup; with a
valid base address it returns (an image or `null`). -/
theorem malformed_jsonld_falls_through (P : Platform) (html base : Str) (m : MatchRes)
    (hog : ogImageMatch html = none) (htw : twitterImageMatch html = none)
    (hblock : search jsonLdRe html = some m) (hparse : P.jsonParse m.cap = none) :
    jsonLdStrategy P html base = .ok none ∧
    extractImageURL P html base = largestImage P html base ∧
    ∀ o, P.parseURL base = some o → ∃ r, extractImageURL P html base = .ok r := by
  have hj : jsonLdStrategy P html base = .ok none := by
    unfold jsonLdStrategy jsonLdBody
    simp only [hblock, hparse, tryCatch]
  have he : extractImageURL P html base = largestImage P html base := by
    unfold extractImageURL
    simp only [hog, htw, hj]
  refine ⟨hj, he, ?_⟩
  intro o ho
  rw [he, largestImage_valid P html base o ho]
  exact ⟨_, rfl⟩

/-- Claim C8 on a page whose JSON-LD block holds the text `{oops` and whose
only image is `a.jpg`: the block does not parse and the result is `a.jpg`
resolved. -/
theorem malformed_jsonld_falls_through_witness :
    demoPlatform.jsonParse "\x7boops".toList = none ∧
    extractImageURL demoPlatform
        pageBadJsonLd
        "https://site/a".toList =
      .ok (some "https://site/a.jpg".toList) ∧
    jsonLdStrategy demoPlatform
        pageBadJsonLd
        "https://site/a".toList = .ok none := by
  have h := malformed_jsonld_falls_through demoPlatform
    pageBadJsonLd
    "https://site/a".toList
    { matched := "<script type=\"application/ld+json\">\x7boops</script>".toList,
      cap := "\x7boops".toList, rest := "<img src=\"a.jpg\">".toList }
    rfl rfl rfl rfl
  exact ⟨rfl, h.2.1.trans rfl, h.1⟩

theorem excessBits_small (fuel n : Nat) (h : n < 2 ^ 53) : excessBits fuel n = 0 := by
  cases fuel with
  | zero => rfl
  | succ f => rw [excessBits, if_pos h]

/-- Below `2 ^ 53` every natural number is a double: rounding leaves it as it
is. -/
theorem toDouble_exact (n : Nat) (h : n < 2 ^ 53) : toDouble n = .fin n := by
  unfold toDouble
  simp [excessBits_small n n h, Nat.mod_one]

theorem toDouble_ne_nan (n : Nat) : toDouble n ≠ .nan := by
  unfold toDouble
  simp only
  split <;> split <;> simp

theorem subPos_irrefl (a : Num) : Num.subPos a a = false := by
  cases a <;> simp [Num.subPos]

theorem subPos_asymm (a b : Num) (h : Num.subPos a b = true) : Num.subPos b a = false := by
  cases a <;> cases b <;> simp_all [Num.subPos]
  omega

theorem subPos_trans_false (a b c : Num) (hb : b ≠ .nan) (hc : c ≠ .nan)
    (h1 : Num.subPos a b = false) (h2 : Num.subPos b c = false) : Num.subPos a c = false := by
  cases a <;> cases b <;> cases c <;> simp_all [Num.subPos]
  omega

theorem sortImages_consistent (P : Platform) (images : List Image)
    (hfin : ∀ x ∈ images, x.area.isFinite = true) : sortImages P images = sortStable images := by
  have h : consistentAreas images = true := by
    simp only [consistentAreas, List.all_eq_true]
    exact hfin
  simp only [sortImages, h, if_true]

/-- On an array with an area that is not finite the order is that of the
platform. -/
theorem sortImages_inconsistent (P : Platform) (images : List Image) (x : Image)
    (hx : x ∈ images) (hinf : x.area.isFinite = false) :
    sortImages P images = P.sortInconsistent images := by
  have h : consistentAreas images = false := by
    rw [Bool.eq_false_iff]
    intro hc
    simp only [consistentAreas, List.all_eq_true] at hc
    rw [hc x hx] at hinf
    cases hinf
  simp only [sortImages, h, Bool.false_eq_true, if_false]

theorem isFinite_fin (a : Num) (h : a.isFinite = true) : ∃ n, a = Num.fin n := by
  cases a with
  | fin n => exact ⟨n, rfl⟩
  | inf => cases h
  | nan => cases h

theorem isFinite_ne_nan (a : Num) (h : a.isFinite = true) : a ≠ Num.nan := by
  intro e
  rw [e] at h
  cases h

/-- The head of the stably sorted array, when no area is `NaN`: no area exceeds
its area, and its area exceeds that of every earlier image. -/
theorem sortStable_head (images : List Image) (hne : images ≠ [])
    (hnan : ∀ x ∈ images, x.area ≠ Num.nan) :
    ∃ (i : Nat) (x : Image), images[i]? = some x ∧ (sortStable images).head? = some x ∧
      (∀ (j : Nat) (y : Image), images[j]? = some y → Num.subPos y.area x.area = false) ∧
      (∀ (j : Nat) (y : Image), j < i → images[j]? = some y →
        Num.subPos x.area y.area = true) := by
  induction images with
  | nil => exact absurd rfl hne
  | cons x xs ih =>
    cases hxs : xs with
    | nil =>
      refine ⟨0, x, rfl, rfl, ?_, ?_⟩
      · intro j y hy
        cases j with
        | zero => simp at hy; rw [hy]; exact subPos_irrefl _
        | succ j => simp at hy
      · intro j y hj; omega
    | cons x' xs' =>
      have hne' : xs ≠ [] := by rw [hxs]; simp
      have hnan' : ∀ y ∈ xs, y.area ≠ Num.nan := fun y hy => hnan y (List.mem_cons_of_mem _ hy)
      obtain ⟨i, y, hi, hhead, hmax, hfirst⟩ := ih hne' hnan'
      rw [← hxs]
      cases hs : sortStable xs with
      | nil => rw [hs] at hhead; simp at hhead
      | cons z zs =>
        rw [hs] at hhead
        simp only [List.head?_cons, Option.some.injEq] at hhead
        subst hhead
        simp only [sortStable, hs, insertImage]
        have hz : z.area ≠ Num.nan := hnan' z (List.getElem?_mem hi)
        have hx : x.area ≠ Num.nan := hnan x (List.mem_cons_self _ _)
        cases hle : Num.subPos z.area x.area with
        | false =>
          refine ⟨0, x, by simp, by simp, ?_, ?_⟩
          · intro j y hy
            cases j with
            | zero => simp at hy; rw [hy]; exact subPos_irrefl _
            | succ j =>
              simp only [List.getElem?_cons_succ] at hy
              exact subPos_trans_false _ _ _ hz hx (hmax j y hy) hle
          · intro j y hj; omega
        | true =>
          refine ⟨i + 1, z, by simpa using hi, by simp, ?_, ?_⟩
          · intro j y hy
            cases j with
            | zero => simp at hy; rw [← hy]; exact subPos_asymm _ _ hle
            | succ j =>
              simp only [List.getElem?_cons_succ] at hy
              exact hmax j y hy
          · intro j y hj hy
            cases j with
            | zero => simp at hy; rw [← hy]; exact hle
            | succ j =>
              simp only [List.getElem?_cons_succ] at hy
              exact hfirst j y (by omega) hy

theorem keepSrc_iff (src : Str) (hsrc : src ≠ []) :
    keepSrc src = true ↔
      ¬ "logo".toList <:+: src ∧ ¬ "icon".toList <:+: src ∧ ¬ "avatar".toList <:+: src := by
  have ht : truthyStr src = true := by
    cases src with
    | nil => exact absurd rfl hsrc
    | cons c cs => rfl
  simp only [keepSrc, ht, Bool.true_and, Bool.and_eq_true, Bool.not_eq_true', ← includes_iff,
    Bool.not_eq_true, and_assoc]

set_option maxRecDepth 100000 in
set_option exponentiation.threshold 2000 in
/-- The end of the range of the doubles: the largest finite double is
`2 ^ 1024 - 2 ^ 971`, and the naturals from `2 ^ 1024 - 2 ^ 970` on are read as
`Infinity`.  A declared width of 309 digits is `Infinity`, and the area is then
`Infinity` with the height 2 and `NaN` with no height or with the height 0. -/
theorem areaOf_beyond_range :
    toDouble (2 ^ 1024 - 2 ^ 970 - 1) = Num.fin (2 ^ 1024 - 2 ^ 971) ∧
    toDouble (2 ^ 1024 - 2 ^ 970) = Num.inf ∧
    parseInt (List.replicate 309 '9') = Num.inf ∧
    areaOf ("<img src=\"a.jpg\" width=\"".toList ++ List.replicate 309 '9' ++
      "\" height=\"2\">".toList) = Num.inf ∧
    areaOf ("<img src=\"a.jpg\" width=\"".toList ++ List.replicate 309 '9' ++
      "\">".toList) = Num.nan ∧
    areaOf ("<img src=\"a.jpg\" width=\"".toList ++ List.replicate 309 '9' ++
      "\" height=\"0\">".toList) = Num.nan := by
  refine ⟨by decide, by decide, by decide, by decide, by decide, by decide⟩

/-- Claim C4 as stated fails in three ways.  The areas are products of doubles:
of two images with the declared widths `9007199254740992` and
`9007199254740993` and the height `1` the second has the larger declared area,
and the first is returned.  The `src` of an image is what the pattern captures,
the value after the last `src=` of the tag: an image with the `src` `a.jpg` and
the `data-src` `logo.png` is excluded, and nothing is found.  The width is the
first `width=` value of the tag: an image of declared size 1 by 1 with the
attribute `data-width="1000"` is preferred to an image of size 10 by 10. -/
theorem largest_inline_image_counterexample :
    (extractImageURL demoPlatform pageRounding "https://site/a".toList =
        .ok (some "https://site/a.jpg".toList) ∧
      digitsValue "9007199254740992".toList * digitsValue "1".toList <
        digitsValue "9007199254740993".toList * digitsValue "1".toList) ∧
    (extractImageURL demoPlatform pageDataSrc "https://site/a".toList = .ok none ∧
      ¬ "logo".toList <:+: "a.jpg".toList) ∧
    (extractImageURL demoPlatform pageDataWidth "https://site/a".toList =
        .ok (some "https://site/a.jpg".toList) ∧
      digitsValue "1".toList * digitsValue "1".toList <
        digitsValue "10".toList * digitsValue "10".toList) :=
  ⟨⟨rfl, by decide⟩, ⟨rfl, by decide⟩, ⟨rfl, by decide⟩⟩

/-- Claim C4, amended: when strategies 1 to 3 yield nothing and the base address
is valid, the candidates are the `<img>` matches whose captured `src` holds none
of `logo`, `icon`, `avatar`, each scored by the product, as doubles, of the
width and the height found in the text of the tag, a size that is not found
counting as zero; the score is the exact product of the two values when they
and their product are below `2 ^ 53`.  Without a candidate the result is
`null`; otherwise, when every score is finite, the result is the resolved
captured `src` of a candidate of maximal score, the first such candidate of the
markup. -/
theorem largest_inline_image (P : Platform) (html base : Str) (o : URLParts)
    (hbase : P.parseURL base = some o) (hog : ogImageMatch html = none)
    (htw : twitterImageMatch html = none) (hjson : jsonLdStrategy P html base = .ok none)
    (hfin : ∀ m ∈ candidates html, (areaOf m.matched).isFinite = true) :
    (∀ m ∈ matchAll imgRe html,
      (m ∈ candidates html ↔
        ¬ "logo".toList <:+: m.cap ∧ ¬ "icon".toList <:+: m.cap ∧
          ¬ "avatar".toList <:+: m.cap)) ∧
    (∀ tag, search widthRe tag = none ∨ search heightRe tag = none →
      areaOf tag ≠ Num.nan → areaOf tag = Num.fin 0) ∧
    (∀ tag w h, search widthRe tag = some w → search heightRe tag = some h →
      digitsValue w.cap < 2 ^ 53 → digitsValue h.cap < 2 ^ 53 →
      digitsValue w.cap * digitsValue h.cap < 2 ^ 53 →
      areaOf tag = Num.fin (digitsValue w.cap * digitsValue h.cap)) ∧
    (candidates html = [] → extractImageURL P html base = .ok none) ∧
    (candidates html ≠ [] →
      ∃ (i : Nat) (m : MatchRes) (a : Nat), (candidates html)[i]? = some m ∧
        extractImageURL P html base = .ok (some (resolveWith o m.cap)) ∧
        (¬ "logo".toList <:+: m.cap ∧ ¬ "icon".toList <:+: m.cap ∧
          ¬ "avatar".toList <:+: m.cap) ∧
        areaOf m.matched = Num.fin a ∧
        (∀ (j : Nat) (m' : MatchRes), (candidates html)[j]? = some m' →
          ∃ b, areaOf m'.matched = Num.fin b ∧ b ≤ a) ∧
        (∀ (j : Nat) (m' : MatchRes), j < i → (candidates html)[j]? = some m' →
          ∃ b, areaOf m'.matched = Num.fin b ∧ b < a)) := by
  have he : extractImageURL P html base = largestImage P html base := by
    unfold extractImageURL
    simp only [hog, htw, hjson]
  have hfin' : ∀ x ∈ (candidates html).map
      (fun m => ({ src := resolveWith o m.cap, area := areaOf m.matched } : Image)),
      x.area.isFinite = true := by
    intro x hx
    obtain ⟨m, hm, rfl⟩ := List.mem_map.mp hx
    exact hfin m hm
  have hnan' : ∀ x ∈ (candidates html).map
      (fun m => ({ src := resolveWith o m.cap, area := areaOf m.matched } : Image)),
      x.area ≠ Num.nan := fun x hx => isFinite_ne_nan _ (hfin' x hx)
  refine ⟨?_, ?_, ?_, ?_, ?_⟩
  · intro m hm
    rw [← keepSrc_iff m.cap (imgRe_cap html m hm).1]
    simp [candidates, hm]
  · intro tag h hn
    unfold areaOf at hn ⊢
    rcases h with h | h
    · simp only [h] at hn ⊢
      cases hh : search heightRe tag with
      | none => simp only [Num.mul]; exact toDouble_exact 0 (by norm_num)
      | some hm =>
        simp only [hh] at hn ⊢
        cases hp : parseInt hm.cap with
        | fin n => simp only [Num.mul]; rw [Nat.zero_mul]; exact toDouble_exact 0 (by norm_num)
        | inf => rw [hp] at hn; simp [Num.mul] at hn
        | nan => exact absurd hp (toDouble_ne_nan _)
    · simp only [h] at hn ⊢
      cases hw : search widthRe tag with
      | none => simp only [Num.mul]; exact toDouble_exact 0 (by norm_num)
      | some wm =>
        simp only [hw] at hn ⊢
        cases hp : parseInt wm.cap with
        | fin n => simp only [Num.mul]; rw [Nat.mul_zero]; exact toDouble_exact 0 (by norm_num)
        | inf => rw [hp] at hn; simp [Num.mul] at hn
        | nan => exact absurd hp (toDouble_ne_nan _)
  · intro tag w h hw hh hwb hhb hb
    unfold areaOf
    simp only [hw, hh, parseInt, toDouble_exact _ hwb, toDouble_exact _ hhb, Num.mul,
      toDouble_exact _ hb]
  · intro hc
    rw [he, largestImage_valid P html base o hbase, hc]
    rfl
  · intro hc
    have hne : (candidates html).map
        (fun m => ({ src := resolveWith o m.cap, area := areaOf m.matched } : Image)) ≠ [] := by
      simpa using hc
    obtain ⟨i, x, hi, hhead, hmax, hfirst⟩ := sortStable_head _ hne hnan'
    rw [List.getElem?_map] at hi
    cases hm : (candidates html)[i]? with
    | none => simp [hm] at hi
    | some m =>
      simp only [hm, Option.map_some', Option.some.injEq] at hi
      have hmem : m ∈ candidates html := List.getElem?_mem hm
      obtain ⟨a, ha⟩ := isFinite_fin _ (hfin m hmem)
      refine ⟨i, m, a, hm, ?_, ?_, ha, ?_, ?_⟩
      · rw [he, largestImage_valid P html base o hbase, sortImages_consistent P _ hfin', hhead,
          ← hi]
        rfl
      · have hmem' := hmem
        simp only [candidates, List.mem_filter] at hmem'
        exact (keepSrc_iff m.cap (imgRe_cap html m hmem'.1).1).mp hmem'.2
      · intro j m' hj
        have := hmax j { src := resolveWith o m'.cap, area := areaOf m'.matched }
          (by rw [List.getElem?_map, hj]; rfl)
        rw [← hi] at this
        obtain ⟨b, hb⟩ := isFinite_fin _ (hfin m' (List.getElem?_mem hj))
        simp only [hb, ha, Num.subPos, decide_eq_false_iff_not, not_lt] at this
        exact ⟨b, hb, this⟩
      · intro j m' hlt hj
        have := hfirst j { src := resolveWith o m'.cap, area := areaOf m'.matched } hlt
          (by rw [List.getElem?_map, hj]; rfl)
        rw [← hi] at this
        obtain ⟨b, hb⟩ := isFinite_fin _ (hfin m' (List.getElem?_mem hj))
        simp only [hb, ha, Num.subPos, decide_eq_true_eq] at this
        exact ⟨b, hb, this⟩

/-- Claim C4, amended, on a page with a large logo, two images of equal area
5000 and an image without declared size: the candidates are the last three in
document order, every score is finite, and the result is the first of the two
equal ones. -/
theorem largest_inline_image_witness :
    (candidates pageFourImages).map (fun m => (m.cap, areaOf m.matched)) =
      [("a.jpg".toList, Num.fin 5000), ("b.jpg".toList, Num.fin 5000),
        ("c.jpg".toList, Num.fin 0)] ∧
    extractImageURL demoPlatform pageFourImages "https://site/a".toList =
      .ok (some "https://site/a.jpg".toList) ∧
    ∃ (i : Nat) (m : MatchRes) (a : Nat),
      (candidates pageFourImages)[i]? = some m ∧
      extractImageURL demoPlatform pageFourImages "https://site/a".toList =
        .ok (some (resolveWith { protocol := "https:".toList, host := "site".toList } m.cap)) ∧
      (¬ "logo".toList <:+: m.cap ∧ ¬ "icon".toList <:+: m.cap ∧
        ¬ "avatar".toList <:+: m.cap) ∧
      areaOf m.matched = Num.fin a ∧
      (∀ (j : Nat) (m' : MatchRes), (candidates pageFourImages)[j]? = some m' →
        ∃ b, areaOf m'.matched = Num.fin b ∧ b ≤ a) ∧
      (∀ (j : Nat) (m' : MatchRes), j < i → (candidates pageFourImages)[j]? = some m' →
        ∃ b, areaOf m'.matched = Num.fin b ∧ b < a) :=
  ⟨by decide, rfl,
    (largest_inline_image demoPlatform pageFourImages "https://site/a".toList
      { protocol := "https:".toList, host := "site".toList }
      rfl rfl rfl rfl (by decide)).2.2.2.2 (by decide)⟩

/-! ## The matcher and the language of a pattern -/

theorem greedyStar_sound (k : Cls) (inG : Bool) (cont : Str → Option MatchRes) (Q : Str → Prop)
    (hc : ∀ s r, cont s = some r → Q r.matched ∧ s = r.matched ++ r.rest) :
    ∀ s r, greedyStar k inG cont s = some r →
      (∃ xs m', r.matched = xs ++ m' ∧ (∀ x ∈ xs, k.test x = true) ∧ Q m') ∧
        s = r.matched ++ r.rest := by
  intro s
  induction s with
  | nil =>
    intro r h
    have := hc [] r h
    exact ⟨⟨[], r.matched, rfl, by simp, this.1⟩, this.2⟩
  | cons c cs ih =>
    intro r h
    unfold greedyStar at h
    split at h
    · next hk =>
      split at h
      · next r' hr' =>
        rw [← Option.some.inj h]
        obtain ⟨⟨xs, m', h1, h2, h3⟩, h4⟩ := ih r' hr'
        refine ⟨⟨c :: xs, m', by simp [consRes, h1], ?_, h3⟩, by simp [consRes, h4]⟩
        intro x hx
        rcases List.mem_cons.mp hx with e | e
        · rw [e]; exact hk
        · exact h2 x e
      · have := hc _ r h
        exact ⟨⟨[], r.matched, rfl, by simp, this.1⟩, this.2⟩
    · have := hc _ r h
      exact ⟨⟨[], r.matched, rfl, by simp, this.1⟩, this.2⟩

theorem lazyStarM_sound (k : Cls) (inG : Bool) (cont : Str → Option MatchRes) (Q : Str → Prop)
    (hc : ∀ s r, cont s = some r → Q r.matched ∧ s = r.matched ++ r.rest) :
    ∀ s r, lazyStarM k inG cont s = some r →
      (∃ xs m', r.matched = xs ++ m' ∧ (∀ x ∈ xs, k.test x = true) ∧ Q m') ∧
        s = r.matched ++ r.rest := by
  intro s
  induction s with
  | nil =>
    intro r h
    have := hc [] r h
    exact ⟨⟨[], r.matched, rfl, by simp, this.1⟩, this.2⟩
  | cons c cs ih =>
    intro r h
    unfold lazyStarM at h
    split at h
    · next r' hr' =>
      rw [← Option.some.inj h]
      have := hc _ r' hr'
      exact ⟨⟨[], r'.matched, rfl, by simp, this.1⟩, this.2⟩
    · split at h
      · next hk =>
        simp only [Option.map_eq_some'] at h
        obtain ⟨r', hr', rfl⟩ := h
        obtain ⟨⟨xs, m', h1, h2, h3⟩, h4⟩ := ih r' hr'
        refine ⟨⟨c :: xs, m', by simp [consRes, h1], ?_, h3⟩, by simp [consRes, h4]⟩
        intro x hx
        rcases List.mem_cons.mp hx with e | e
        · rw [e]; exact hk
        · exact h2 x e
      · cases h

/-- The backtracking matcher is sound: what it matches is a string of the
language of the pattern, and the input is that string followed by the rest. -/
theorem matchHere_sound (re : Regex) :
    ∀ (inG : Bool) (s : Str) (r : MatchRes), matchHere re inG s = some r →
      Accepts re r.matched ∧ s = r.matched ++ r.rest := by
  induction re with
  | nil =>
    intro inG s r h
    simp only [matchHere, Option.some.injEq] at h
    subst h
    exact ⟨rfl, rfl⟩
  | cons it re ih =>
    intro inG s r h
    cases it with
    | lit a =>
      cases s with
      | nil => simp [matchHere] at h
      | cons c cs =>
        simp only [matchHere] at h
        split at h
        · next hc =>
          simp only [Option.map_eq_some'] at h
          obtain ⟨r', hr', rfl⟩ := h
          obtain ⟨h1, h2⟩ := ih inG cs r' hr'
          exact ⟨⟨c, r'.matched, rfl, by simpa using hc, h1⟩, by simp [consRes, h2]⟩
        · cases h
    | one k =>
      cases s with
      | nil => simp [matchHere] at h
      | cons c cs =>
        simp only [matchHere] at h
        split at h
        · next hc =>
          simp only [Option.map_eq_some'] at h
          obtain ⟨r', hr', rfl⟩ := h
          obtain ⟨h1, h2⟩ := ih inG cs r' hr'
          exact ⟨⟨c, r'.matched, rfl, hc, h1⟩, by simp [consRes, h2]⟩
        · cases h
    | star k =>
      simp only [matchHere] at h
      exact greedyStar_sound k inG _ (Accepts re) (ih inG) s r h
    | plus k =>
      cases s with
      | nil => simp [matchHere] at h
      | cons c cs =>
        simp only [matchHere] at h
        split at h
        · next hc =>
          simp only [Option.map_eq_some'] at h
          obtain ⟨r', hr', rfl⟩ := h
          obtain ⟨⟨xs, m', h1, h2, h3⟩, h4⟩ :=
            greedyStar_sound k inG _ (Accepts re) (ih inG) cs r' hr'
          exact ⟨⟨c, xs, m', by simp [consRes, h1], hc, h2, h3⟩, by simp [consRes, h4]⟩
        · cases h
    | lazyStar k =>
      simp only [matchHere] at h
      exact lazyStarM_sound k inG _ (Accepts re) (ih inG) s r h
    | gOpen => simp only [matchHere] at h; exact ih true s r h
    | gClose => simp only [matchHere] at h; exact ih false s r h

theorem greedyStar_of_cont (k : Cls) (inG : Bool) (cont : Str → Option MatchRes) (s : Str)
    (h : (cont s).isSome = true) : (greedyStar k inG cont s).isSome = true := by
  cases s with
  | nil => exact h
  | cons c cs =>
    unfold greedyStar
    split
    · split
      · rfl
      · exact h
    · exact h

theorem greedyStar_complete (k : Cls) (inG : Bool) (cont : Str → Option MatchRes) (s : Str)
    (h : (cont s).isSome = true) :
    ∀ xs : Str, (∀ x ∈ xs, k.test x = true) → (greedyStar k inG cont (xs ++ s)).isSome = true := by
  intro xs
  induction xs with
  | nil => intro _; exact greedyStar_of_cont k inG cont s h
  | cons x xs ih =>
    intro hx
    have := ih (fun y hy => hx y (List.mem_cons_of_mem _ hy))
    simp only [List.cons_append]
    unfold greedyStar
    rw [if_pos (hx x (List.mem_cons_self _ _))]
    split
    · rfl
    · next hn => rw [hn] at this; cases this

theorem lazyStarM_of_cont (k : Cls) (inG : Bool) (cont : Str → Option MatchRes) (s : Str)
    (h : (cont s).isSome = true) : (lazyStarM k inG cont s).isSome = true := by
  cases s with
  | nil => exact h
  | cons c cs =>
    unfold lazyStarM
    split
    · rfl
    · next hn => rw [hn] at h; cases h

theorem lazyStarM_complete (k : Cls) (inG : Bool) (cont : Str → Option MatchRes) (s : Str)
    (h : (cont s).isSome = true) :
    ∀ xs : Str, (∀ x ∈ xs, k.test x = true) → (lazyStarM k inG cont (xs ++ s)).isSome = true := by
  intro xs
  induction xs with
  | nil => intro _; exact lazyStarM_of_cont k inG cont s h
  | cons x xs ih =>
    intro hx
    have := ih (fun y hy => hx y (List.mem_cons_of_mem _ hy))
    simp only [List.cons_append]
    unfold lazyStarM
    split
    · rfl
    · rw [if_pos (hx x (List.mem_cons_self _ _))]
      simpa using this

/-- The backtracking matcher is complete: it finds a match at the start of
every input that begins with a string of the language of the pattern. -/
theorem matchHere_complete (re : Regex) :
    ∀ (inG : Bool) (m rest : Str), Accepts re m → (matchHere re inG (m ++ rest)).isSome = true := by
  induction re with
  | nil => intro inG m rest h; simp [matchHere]
  | cons it re ih =>
    intro inG m rest h
    cases it with
    | lit a =>
      obtain ⟨c, m', rfl, hc, hm'⟩ := h
      simp only [List.cons_append, matchHere, hc, beq_self_eq_true, if_true, Option.isSome_map']
      exact ih inG m' rest hm'
    | one k =>
      obtain ⟨c, m', rfl, hc, hm'⟩ := h
      simp only [List.cons_append, matchHere, hc, if_true, Option.isSome_map']
      exact ih inG m' rest hm'
    | star k =>
      obtain ⟨xs, m', rfl, hxs, hm'⟩ := h
      simp only [matchHere, List.append_assoc]
      exact greedyStar_complete k inG _ _ (ih inG m' rest hm') xs hxs
    | plus k =>
      obtain ⟨c, xs, m', rfl, hc, hxs, hm'⟩ := h
      simp only [List.cons_append, matchHere, hc, if_true, Option.isSome_map', List.append_assoc]
      exact greedyStar_complete k inG _ _ (ih inG m' rest hm') xs hxs
    | lazyStar k =>
      obtain ⟨xs, m', rfl, hxs, hm'⟩ := h
      simp only [matchHere, List.append_assoc]
      exact lazyStarM_complete k inG _ _ (ih inG m' rest hm') xs hxs
    | gOpen => simp only [matchHere]; exact ih true m rest h
    | gClose => simp only [matchHere]; exact ih false m rest h

/-- The search finds a match in every input that holds a string of the
language of the pattern. -/
theorem search_complete (re : Regex) (m rest : Str) (h : Accepts re m) :
    ∀ pre : Str, (search re (pre ++ m ++ rest)).isSome = true := by
  have hhere := matchHere_complete re false m rest h
  intro pre
  induction pre with
  | nil =>
    simp only [List.nil_append]
    cases hs : m ++ rest with
    | nil => rw [hs] at hhere; exact hhere
    | cons c cs =>
      rw [hs] at hhere
      unfold search
      split
      · rfl
      · next hn => rw [hn] at hhere; cases hhere
  | cons p pre ih =>
    simp only [List.cons_append, List.append_assoc] at ih ⊢
    unfold search
    split
    · rfl
    · exact ih

theorem accepts_lits (l : List Char) (r : Regex) (m : Str) (h : Accepts r m) :
    Accepts (l.map Item.lit ++ r) (l ++ m) := by
  induction l with
  | nil => exact h
  | cons c l ih => exact ⟨c, l ++ m, rfl, rfl, ih⟩

/-- The first `og:image` pattern accepts the tag in its usual spelling, for
every non-empty content without quote characters. -/
theorem accepts_ogTag (c : Str) (hne : c ≠ []) (hq : ∀ x ∈ c, Cls.notQuote.test x = true) :
    Accepts ogImageRe1 (ogTag c) := by
  cases c with
  | nil => exact absurd rfl hne
  | cons c0 cs =>
    have hre : ogImageRe1 =
        "<meta".toList.map Item.lit ++ (Item.star .notGt ::
          ("property=".toList.map Item.lit ++ (Item.one .quote ::
            ("og:image".toList.map Item.lit ++ (Item.one .quote :: Item.star .notGt ::
              ("content=".toList.map Item.lit ++
                [Item.one .quote, Item.gOpen, Item.plus .notQuote, Item.gClose,
                  Item.one .quote])))))) := rfl
    have htag : ogTag (c0 :: cs) =
        "<meta".toList ++ (" ".toList ++ ("property=".toList ++ (dq ::
          ("og:image".toList ++ (dq :: ([] ++ (" ".toList ++ ("content=".toList ++
            (dq :: c0 :: (cs ++ [dq]))))))))))  := rfl
    rw [hre, htag]
    apply accepts_lits
    refine ⟨" ".toList, _, rfl, by decide, ?_⟩
    apply accepts_lits
    refine ⟨dq, _, rfl, by decide, ?_⟩
    apply accepts_lits
    refine ⟨dq, _, rfl, by decide, ?_⟩
    refine ⟨" ".toList, _, rfl, by decide, ?_⟩
    apply accepts_lits
    refine ⟨dq, _, rfl, by decide, ?_⟩
    refine ⟨c0, cs, [dq], rfl, hq c0 (List.mem_cons_self _ _),
      fun x hx => hq x (List.mem_cons_of_mem _ hx), ?_⟩
    exact ⟨dq, [], rfl, by decide, rfl⟩

/-- A page that holds an `og:image` tag in its usual spelling, with a non-empty
content without quote characters, is matched by strategy 1. -/
theorem ogImageMatch_of_tag (pre c post : Str) (hne : c ≠ [])
    (hq : ∀ x ∈ c, Cls.notQuote.test x = true) :
    ∃ m, ogImageMatch (pre ++ ogTag c ++ post) = some m := by
  have h := search_complete ogImageRe1 (ogTag c) post (accepts_ogTag c hne hq) pre
  unfold ogImageMatch matchEither
  cases hs : search ogImageRe1 (pre ++ ogTag c ++ post) with
  | none => rw [hs] at h; cases h
  | some m => exact ⟨m, rfl⟩


/-! ## Lemmas on the error list and the effects -/

theorem loopFrom_errors (P : Platform) (refresh : Bool) (cache : Cache)
    (fetch : Nat → Str → Except Str Str) (n : Nat) (urls : List Str) :
    ∀ i, (loopFrom P refresh cache fetch n i urls).errors =
      errorsOf (resultsFrom P refresh cache fetch i urls) := by
  induction urls with
  | nil => intro i; rfl
  | cons url rest ih =>
    intro i
    simp only [loopFrom, resultsFrom, errorsOf, List.filterMap_cons, productOutcome_url]
    rw [ih (i + 1)]
    cases he : (productOutcome P refresh cache (fetch i) url).1.error with
    | none => rfl
    | some e =>
      by_cases ht : truthyStr e = true
      · simp [ht, errorsOf]
      · simp [ht, errorsOf]

theorem productOutcome_effects (P : Platform) (refresh : Bool) (cache : Cache)
    (f : Str → Except Str Str) (url : Str) :
    (productOutcome P refresh cache f url).2 = productEffects refresh cache url := by
  unfold productOutcome productEffects
  split <;> rfl

theorem loopFrom_effects (P : Platform) (refresh : Bool) (cache : Cache)
    (fetch : Nat → Str → Except Str Str) (n : Nat) (urls : List Str) :
    ∀ i, i + urls.length = n →
      (loopFrom P refresh cache fetch n i urls).effects =
        loopTrace (productEffects refresh cache) urls := by
  induction urls with
  | nil => intro i _; rfl
  | cons url rest ih =>
    intro i hi
    simp only [List.length_cons] at hi
    have ih' := ih (i + 1) (by omega)
    simp only [loopFrom, productOutcome_effects, ih']
    cases rest with
    | nil =>
      have : ¬ i < n - 1 := by simp only [List.length_nil] at hi; omega
      simp [this, loopTrace]
    | cons next rest =>
      have : i < n - 1 := by simp only [List.length_cons] at hi; omega
      simp [this, loopTrace]

theorem loopTrace_delays (fx : Str → List Effect)
    (hfx : ∀ u, (fx u).filter Effect.isDelay = []) (urls : List Str) :
    (loopTrace fx urls).filter Effect.isDelay =
      List.replicate (urls.length - 1) (Effect.delay 500) := by
  induction urls with
  | nil => rfl
  | cons url rest ih =>
    cases rest with
    | nil => simp [loopTrace, hfx]
    | cons next rest =>
      simp only [loopTrace, List.filter_append, hfx, List.nil_append, List.filter_cons,
        Effect.isDelay, if_true, ih, List.length_cons]
      rfl

theorem productEffects_delays (refresh : Bool) (cache : Cache) (u : Str) :
    (productEffects refresh cache u).filter Effect.isDelay = [] := by
  unfold productEffects
  split <;> rfl

theorem loopTrace_refresh (cache : Cache) (urls : List Str) :
    loopTrace (productEffects true cache) urls =
      (urls.map Effect.fetch).intersperse (Effect.delay 500) := by
  induction urls with
  | nil => rfl
  | cons url rest ih =>
    cases rest with
    | nil => rfl
    | cons next rest =>
      simp only [loopTrace, ih, List.map_cons, List.intersperse]
      rfl

theorem runOutcome_errors (P : Platform) (refresh : Bool) (urls : List Str) (cache : Cache)
    (fetch : Nat → Str → Except Str Str) :
    (runOutcome P refresh urls cache fetch).errors =
      errorsOf (runOutcome P refresh urls cache fetch).results := by
  simp only [runOutcome, loopFrom_errors, loopFrom_results]

theorem runOutcome_result_at (P : Platform) (refresh : Bool) (urls : List Str) (cache : Cache)
    (fetch : Nat → Str → Except Str Str) (i : Nat) (u : Str) (hu : urls[i]? = some u) :
    (runOutcome P refresh urls cache fetch).results[i]? =
      some (productOutcome P refresh cache (fetch i) u).1 := by
  simp only [runOutcome, loopFrom_results, resultsFrom_getElem, hu, Option.map_some', Nat.zero_add]

theorem productOutcome_requested (P : Platform) (refresh : Bool) (cache : Cache)
    (f : Str → Except Str Str) (url : Str)
    (hreq : (!refresh && truthy (cacheGet cache url)) = false) :
    (productOutcome P refresh cache f url).1 = freshResult P f url := by
  unfold productOutcome
  simp [hreq]

theorem errorsOf_urls_sublist (results : List Result) :
    ((errorsOf results).map (fun e => e.url)).Sublist (results.map (fun r => r.url)) := by
  induction results with
  | nil => exact List.Sublist.slnil
  | cons r rs ih =>
    simp only [errorsOf, List.filterMap_cons, List.map_cons]
    cases he : r.error with
    | none => exact List.Sublist.cons _ ih
    | some e =>
      by_cases ht : truthyStr e = true
      · simp only [ht, if_true, List.map_cons]
        exact List.Sublist.cons₂ _ ih
      · simp only [ht]
        exact List.Sublist.cons _ ih

/-- Claim C12 as stated fails: on a page without any image the request succeeds
and extraction finds nothing, yet the error list holds an entry for the address,
with the reason `No image found`, and the summary counts one error. -/
theorem extraction_miss_counterexample :
    extractImageURL demoPlatform "<p>no image</p>".toList "https://site/a".toList = .ok none ∧
    (main demoPlatform false ["https://site/a".toList] []
        (fun _ _ => .ok "<p>no image</p>".toList)).map
        (fun out => (out.errors, (summary ["https://site/a".toList] out).errors)) =
      .ok ([{ url := "https://site/a".toList, error := "No image found".toList }], 1) :=
  ⟨rfl, rfl⟩

/-- Claim C12, amended: an extraction miss is recorded as an error.  When a
request is made for the `i`-th address, succeeds, and no strategy finds an
image, the result carries the error `No image found`, the error list holds an
entry with that address and that reason, and the error count of the summary,
which is the number of results with a non-empty error, includes it. -/
theorem extraction_miss_recorded (P : Platform) (refresh : Bool) (urls : List Str)
    (cache : Cache) (fetch : Nat → Str → Except Str Str) (i : Nat) (u html : Str)
    (hu : urls[i]? = some u) (hreq : (!refresh && truthy (cacheGet cache u)) = false)
    (hfetch : fetch i u = .ok html) (hmiss : extractImageURL P html u = .ok none) :
    ∃ out, main P refresh urls cache fetch = .ok out ∧
      out.results[i]? =
        some { url := u, imageUrl := none, cached := false, error := some noImageFound } ∧
      { url := u, error := noImageFound } ∈ out.errors ∧
      out.errors = errorsOf out.results ∧
      1 ≤ (summary urls out).errors := by
  refine ⟨_, main_eq P refresh urls cache fetch, ?_⟩
  have hres : (runOutcome P refresh urls cache fetch).results[i]? =
      some { url := u, imageUrl := none, cached := false, error := some noImageFound } := by
    rw [runOutcome_result_at P refresh urls cache fetch i u hu,
      productOutcome_requested P refresh cache (fetch i) u hreq]
    simp [freshResult, hfetch, hmiss, truthy]
  have hmem : ({ url := u, error := noImageFound } : ErrorRec) ∈
      (runOutcome P refresh urls cache fetch).errors := by
    rw [runOutcome_errors]
    unfold errorsOf
    rw [List.mem_filterMap]
    exact ⟨_, List.getElem?_mem hres, by simp [noImageFound, truthyStr]⟩
  refine ⟨hres, hmem, runOutcome_errors P refresh urls cache fetch, ?_⟩
  exact List.length_pos_of_mem hmem

/-- Claim C12, amended, on the page `<p>no image</p>` fetched for
`https://site/a`. -/
theorem extraction_miss_recorded_witness :
    ∃ out, main demoPlatform false ["https://site/a".toList] []
        (fun _ _ => .ok "<p>no image</p>".toList) = .ok out ∧
      out.results[0]? =
        some { url := "https://site/a".toList, imageUrl := none, cached := false,
               error := some noImageFound } ∧
      { url := "https://site/a".toList, error := noImageFound } ∈ out.errors ∧
      out.errors = errorsOf out.results ∧
      1 ≤ (summary ["https://site/a".toList] out).errors :=
  extraction_miss_recorded demoPlatform false ["https://site/a".toList] []
    (fun _ _ => .ok "<p>no image</p>".toList) 0 "https://site/a".toList "<p>no image</p>".toList
    rfl rfl rfl rfl

/-- A failure with a non-empty reason is recorded: the error list holds an
entry with the address and the reason, and the addresses of the error list
follow the order of the address list. -/
theorem fetch_failure_recorded (P : Platform) (refresh : Bool) (urls : List Str)
    (cache : Cache) (fetch : Nat → Str → Except Str Str) (i : Nat) (u e : Str)
    (hu : urls[i]? = some u) (hreq : (!refresh && truthy (cacheGet cache u)) = false)
    (hfetch : fetch i u = .error e) (hne : e ≠ []) :
    ∃ out, main P refresh urls cache fetch = .ok out ∧
      { url := u, error := e } ∈ out.errors ∧
      (out.errors.map (fun r => r.url)).Sublist urls ∧
      1 ≤ (summary urls out).errors := by
  refine ⟨_, main_eq P refresh urls cache fetch, ?_⟩
  have hres : (runOutcome P refresh urls cache fetch).results[i]? =
      some { url := u, imageUrl := none, cached := false, error := some e } := by
    rw [runOutcome_result_at P refresh urls cache fetch i u hu,
      productOutcome_requested P refresh cache (fetch i) u hreq]
    simp [freshResult, hfetch]
  have ht : truthyStr e = true := by
    cases e with
    | nil => exact absurd rfl hne
    | cons c cs => rfl
  have hmem : ({ url := u, error := e } : ErrorRec) ∈
      (runOutcome P refresh urls cache fetch).errors := by
    rw [runOutcome_errors]
    unfold errorsOf
    rw [List.mem_filterMap]
    exact ⟨_, List.getElem?_mem hres, by simp [ht]⟩
  refine ⟨hmem, ?_, List.length_pos_of_mem hmem⟩
  have hs := errorsOf_urls_sublist (runOutcome P refresh urls cache fetch).results
  rw [← runOutcome_errors] at hs
  have hurls : (runOutcome P refresh urls cache fetch).results.map (fun r => r.url) = urls := by
    simp only [runOutcome, loopFrom_results]
    exact resultsFrom_map_url P refresh cache fetch urls 0
  rw [hurls] at hs
  exact hs

/-- Claim C13: a request that fails with an empty reason is not recorded.  The
result carries the error, but the error list stays empty and the summary counts
no error. -/
theorem empty_reason_not_recorded :
    (main demoPlatform true ["https://site/a".toList] [] (fun _ _ => .error [])).map
        (fun out => (out.results, out.errors, (summary ["https://site/a".toList] out).errors)) =
      .ok ([{ url := "https://site/a".toList, imageUrl := none, cached := false,
              error := some [] }], [], 0) :=
  rfl

/-- The effects of a run: those of each address in turn with a pause of 500 ms
after every address but the last, then the write of the cache.  The pauses
number one less than the addresses, whatever was requested; in refresh mode,
where every address is requested, they lie between consecutive requests. -/
theorem run_effects (P : Platform) (refresh : Bool) (urls : List Str) (cache : Cache)
    (fetch : Nat → Str → Except Str Str) :
    ∃ out, main P refresh urls cache fetch = .ok out ∧
      out.effects = loopTrace (productEffects refresh cache) urls ++ [Effect.save out.cache] ∧
      out.effects.filter Effect.isDelay =
        List.replicate (urls.length - 1) (Effect.delay 500) ∧
      (refresh = true →
        out.effects =
          (urls.map Effect.fetch).intersperse (Effect.delay 500) ++ [Effect.save out.cache]) := by
  refine ⟨_, main_eq P refresh urls cache fetch, ?_⟩
  have heff : (runOutcome P refresh urls cache fetch).effects =
      loopTrace (productEffects refresh cache) urls ++
        [Effect.save (runOutcome P refresh urls cache fetch).cache] := by
    simp only [runOutcome]
    rw [loopFrom_effects P refresh cache fetch urls.length urls 0 (by omega)]
  refine ⟨heff, ?_, ?_⟩
  · rw [heff, List.filter_append,
      loopTrace_delays _ (productEffects_delays refresh cache) urls]
    simp [Effect.isDelay]
  · intro hr
    rw [heff, hr, loopTrace_refresh]

/-- Claim C14: the pause follows every address but the last, requested or not.
With three addresses all served from the cache the run pauses twice and requests
nothing; with a cached address in front of a new one the pause comes before the
first request. -/
theorem delay_without_fetch :
    (main demoPlatform false ["a".toList, "b".toList, "c".toList]
        [("a".toList, "x".toList), ("b".toList, "y".toList), ("c".toList, "z".toList)]
        (fun _ _ => .error "Timeout".toList)).map (fun out => out.effects) =
      .ok [Effect.delay 500, Effect.delay 500,
        Effect.save [("a".toList, "x".toList), ("b".toList, "y".toList),
          ("c".toList, "z".toList)]] ∧
    (main demoPlatform false ["a".toList, "b".toList] [("a".toList, "x".toList)]
        (fun _ _ => .error "Timeout".toList)).map (fun out => out.effects) =
      .ok [Effect.delay 500, Effect.fetch "b".toList, Effect.save [("a".toList, "x".toList)]] :=
  ⟨rfl, rfl⟩

/-! ## The capture of the matcher -/

theorem greedyStar_soundCap (k : Cls) (inG : Bool) (cont : Str → Option MatchRes)
    (Q : Str → Str → Prop)
    (hc : ∀ s r, cont s = some r → Q r.matched r.cap ∧ s = r.matched ++ r.rest) :
    ∀ s r, greedyStar k inG cont s = some r →
      (∃ xs m' c', r.matched = xs ++ m' ∧ (∀ x ∈ xs, k.test x = true) ∧
        r.cap = (if inG then xs ++ c' else c') ∧ Q m' c') ∧
        s = r.matched ++ r.rest := by
  intro s
  induction s with
  | nil =>
    intro r h
    have := hc [] r h
    exact ⟨⟨[], r.matched, r.cap, rfl, by simp, by simp, this.1⟩, this.2⟩
  | cons c cs ih =>
    intro r h
    unfold greedyStar at h
    split at h
    · next hk =>
      split at h
      · next r' hr' =>
        rw [← Option.some.inj h]
        obtain ⟨⟨xs, m', c', h1, h2, h3, h4⟩, h5⟩ := ih r' hr'
        refine ⟨⟨c :: xs, m', c', by simp [consRes, h1], ?_, ?_, h4⟩, by simp [consRes, h5]⟩
        · intro x hx
          rcases List.mem_cons.mp hx with e | e
          · rw [e]; exact hk
          · exact h2 x e
        · cases inG <;> simp [consRes, h3]
      · have := hc _ r h
        exact ⟨⟨[], r.matched, r.cap, rfl, by simp, by simp, this.1⟩, this.2⟩
    · have := hc _ r h
      exact ⟨⟨[], r.matched, r.cap, rfl, by simp, by simp, this.1⟩, this.2⟩

theorem lazyStarM_soundCap (k : Cls) (inG : Bool) (cont : Str → Option MatchRes)
    (Q : Str → Str → Prop)
    (hc : ∀ s r, cont s = some r → Q r.matched r.cap ∧ s = r.matched ++ r.rest) :
    ∀ s r, lazyStarM k inG cont s = some r →
      (∃ xs m' c', r.matched = xs ++ m' ∧ (∀ x ∈ xs, k.test x = true) ∧
        r.cap = (if inG then xs ++ c' else c') ∧ Q m' c') ∧
        s = r.matched ++ r.rest := by
  intro s
  induction s with
  | nil =>
    intro r h
    have := hc [] r h
    exact ⟨⟨[], r.matched, r.cap, rfl, by simp, by simp, this.1⟩, this.2⟩
  | cons c cs ih =>
    intro r h
    unfold lazyStarM at h
    split at h
    · next r' hr' =>
      rw [← Option.some.inj h]
      have := hc _ r' hr'
      exact ⟨⟨[], r'.matched, r'.cap, rfl, by simp, by simp, this.1⟩, this.2⟩
    · split at h
      · next hk =>
        simp only [Option.map_eq_some'] at h
        obtain ⟨r', hr', rfl⟩ := h
        obtain ⟨⟨xs, m', c', h1, h2, h3, h4⟩, h5⟩ := ih r' hr'
        refine ⟨⟨c :: xs, m', c', by simp [consRes, h1], ?_, ?_, h4⟩, by simp [consRes, h5]⟩
        · intro x hx
          rcases List.mem_cons.mp hx with e | e
          · rw [e]; exact hk
          · exact h2 x e
        · cases inG <;> simp [consRes, h3]
      · cases h

/-- The matcher is sound for the capture too: what it matches and what it
captures are a string of the language of the pattern and its capture. -/
theorem matchHere_soundCap (re : Regex) :
    ∀ (inG : Bool) (s : Str) (r : MatchRes), matchHere re inG s = some r →
      AcceptsCap re inG r.matched r.cap ∧ s = r.matched ++ r.rest := by
  induction re with
  | nil =>
    intro inG s r h
    simp only [matchHere, Option.some.injEq] at h
    subst h
    exact ⟨⟨rfl, rfl⟩, rfl⟩
  | cons it re ih =>
    intro inG s r h
    cases it with
    | lit a =>
      cases s with
      | nil => simp [matchHere] at h
      | cons c cs =>
        simp only [matchHere] at h
        split at h
        · next hc =>
          simp only [Option.map_eq_some'] at h
          obtain ⟨r', hr', rfl⟩ := h
          obtain ⟨h1, h2⟩ := ih inG cs r' hr'
          exact ⟨⟨c, r'.matched, r'.cap, rfl, by simpa using hc, rfl, h1⟩,
            by simp [consRes, h2]⟩
        · cases h
    | one k =>
      cases s with
      | nil => simp [matchHere] at h
      | cons c cs =>
        simp only [matchHere] at h
        split at h
        · next hc =>
          simp only [Option.map_eq_some'] at h
          obtain ⟨r', hr', rfl⟩ := h
          obtain ⟨h1, h2⟩ := ih inG cs r' hr'
          exact ⟨⟨c, r'.matched, r'.cap, rfl, hc, rfl, h1⟩, by simp [consRes, h2]⟩
        · cases h
    | star k =>
      simp only [matchHere] at h
      exact greedyStar_soundCap k inG _ (AcceptsCap re inG) (ih inG) s r h
    | plus k =>
      cases s with
      | nil => simp [matchHere] at h
      | cons c cs =>
        simp only [matchHere] at h
        split at h
        · next hc =>
          simp only [Option.map_eq_some'] at h
          obtain ⟨r', hr', rfl⟩ := h
          obtain ⟨⟨xs, m', c', h1, h2, h3, h4⟩, h5⟩ :=
            greedyStar_soundCap k inG _ (AcceptsCap re inG) (ih inG) cs r' hr'
          refine ⟨⟨c, xs, m', c', by simp [consRes, h1], hc, h2, ?_, h4⟩,
            by simp [consRes, h5]⟩
          cases inG <;> simp [consRes, h3]
        · cases h
    | lazyStar k =>
      simp only [matchHere] at h
      exact lazyStarM_soundCap k inG _ (AcceptsCap re inG) (ih inG) s r h
    | gOpen => simp only [matchHere] at h; exact ih true s r h
    | gClose => simp only [matchHere] at h; exact ih false s r h

theorem quoteCount_append (a b : Str) : quoteCount (a ++ b) = quoteCount a + quoteCount b := by
  simp [quoteCount, List.countP_append]

theorem quoteCount_cons (x : Char) (t : Str) :
    quoteCount (x :: t) = quoteCount t + (if Cls.quote.test x = true then 1 else 0) := by
  simp [quoteCount, List.countP_cons]

theorem quoteCount_of_notQuote (p : Str) (hq : ∀ x ∈ p, Cls.notQuote.test x = true) :
    quoteCount p = 0 := by
  induction p with
  | nil => rfl
  | cons x t ih =>
    rw [quoteCount_cons, ih (fun y hy => hq y (List.mem_cons_of_mem _ hy))]
    have hx := hq x (List.mem_cons_self _ _)
    have : Cls.quote.test x = false := by
      simp only [Cls.test, Bool.and_eq_true, bne_iff_ne, ne_eq] at hx
      simp [Cls.test, hx.1, hx.2]
    simp [this]

/-- A string is cut at its first quote character in one way only. -/
theorem split_unique (a : Str) :
    ∀ (a' b b' : Str) (q q' : Char), a ++ q :: b = a' ++ q' :: b' →
      quoteCount a = 0 → quoteCount a' = 0 → Cls.quote.test q = true →
      Cls.quote.test q' = true → a = a' ∧ b = b' := by
  induction a with
  | nil =>
    intro a' b b' q q' h _ ha' hq _
    cases a' with
    | nil =>
      simp only [List.nil_append, List.cons.injEq] at h
      exact ⟨rfl, h.2⟩
    | cons x t =>
      simp only [List.nil_append, List.cons_append, List.cons.injEq] at h
      rw [quoteCount_cons, ← h.1, hq] at ha'
      simp at ha'
  | cons x t ih =>
    intro a' b b' q q' h ha ha' hq hq'
    cases a' with
    | nil =>
      simp only [List.nil_append, List.cons_append, List.cons.injEq] at h
      rw [quoteCount_cons, h.1, hq'] at ha
      simp at ha
    | cons x' t' =>
      simp only [List.cons_append, List.cons.injEq] at h
      rw [quoteCount_cons] at ha ha'
      obtain ⟨h1, h2⟩ := ih t' b b' q q' h.2 (by omega) (by omega) hq hq'
      exact ⟨by rw [h.1, h1], h2⟩

theorem search_of_matchHere (re : Regex) (s : Str) (r : MatchRes)
    (h : matchHere re false s = some r) : search re s = some r := by
  cases s with
  | nil => exact h
  | cons c cs =>
    unfold search
    rw [h]

/-! ## The content of a meta tag -/

theorem acceptsCap_accepts (re : Regex) :
    ∀ (inG : Bool) (m c : Str), AcceptsCap re inG m c → Accepts re m := by
  induction re with
  | nil => intro inG m c h; exact h.1
  | cons it re ih =>
    intro inG m c h
    cases it with
    | lit a =>
      obtain ⟨ch, m', c', hm, hch, _, h'⟩ := h
      exact ⟨ch, m', hm, hch, ih inG m' c' h'⟩
    | one k =>
      obtain ⟨ch, m', c', hm, hch, _, h'⟩ := h
      exact ⟨ch, m', hm, hch, ih inG m' c' h'⟩
    | star k =>
      obtain ⟨xs, m', c', hm, hxs, _, h'⟩ := h
      exact ⟨xs, m', hm, hxs, ih inG m' c' h'⟩
    | plus k =>
      obtain ⟨ch, xs, m', c', hm, hch, hxs, _, h'⟩ := h
      exact ⟨ch, xs, m', hm, hch, hxs, ih inG m' c' h'⟩
    | lazyStar k =>
      obtain ⟨xs, m', c', hm, hxs, _, h'⟩ := h
      exact ⟨xs, m', hm, hxs, ih inG m' c' h'⟩
    | gOpen => exact ih true m c h
    | gClose => exact ih false m c h

theorem acceptsCap_split (rest : Regex) (pre : Regex) (hpre : groupFree pre = true) :
    ∀ m c, AcceptsCap (pre ++ rest) false m c →
      ∃ A m', m = A ++ m' ∧ Accepts pre A ∧ AcceptsCap rest false m' c := by
  induction pre with
  | nil => intro m c h; exact ⟨[], m, rfl, rfl, h⟩
  | cons it pre ih =>
    have hpre' : groupFree pre = true := by
      simp only [groupFree, List.all_cons, Bool.and_eq_true] at hpre ⊢
      exact hpre.2
    have ih := ih hpre'
    intro m c h
    cases it with
    | lit a =>
      obtain ⟨ch, m', c', rfl, hch, hc, h'⟩ := h
      simp only [Bool.false_eq_true, if_false] at hc
      subst hc
      obtain ⟨A, m'', rfl, hA, h''⟩ := ih m' c h'
      exact ⟨ch :: A, m'', rfl, ⟨ch, A, rfl, hch, hA⟩, h''⟩
    | one k =>
      obtain ⟨ch, m', c', rfl, hch, hc, h'⟩ := h
      simp only [Bool.false_eq_true, if_false] at hc
      subst hc
      obtain ⟨A, m'', rfl, hA, h''⟩ := ih m' c h'
      exact ⟨ch :: A, m'', rfl, ⟨ch, A, rfl, hch, hA⟩, h''⟩
    | star k =>
      obtain ⟨xs, m', c', rfl, hxs, hc, h'⟩ := h
      simp only [Bool.false_eq_true, if_false] at hc
      subst hc
      obtain ⟨A, m'', rfl, hA, h''⟩ := ih m' c h'
      exact ⟨xs ++ A, m'', by simp, ⟨xs, A, rfl, hxs, hA⟩, h''⟩
    | plus k =>
      obtain ⟨ch, xs, m', c', rfl, hch, hxs, hc, h'⟩ := h
      simp only [Bool.false_eq_true, if_false] at hc
      subst hc
      obtain ⟨A, m'', rfl, hA, h''⟩ := ih m' c h'
      exact ⟨ch :: (xs ++ A), m'', by simp, ⟨ch, xs, A, rfl, hch, hxs, hA⟩, h''⟩
    | lazyStar k =>
      obtain ⟨xs, m', c', rfl, hxs, hc, h'⟩ := h
      simp only [Bool.false_eq_true, if_false] at hc
      subst hc
      obtain ⟨A, m'', rfl, hA, h''⟩ := ih m' c h'
      exact ⟨xs ++ A, m'', by simp, ⟨xs, A, rfl, hxs, hA⟩, h''⟩
    | gOpen => simp [groupFree] at hpre
    | gClose => simp [groupFree] at hpre

theorem cls_avoidsGt (k : Cls) (hk : k.avoidsGt = true) (x : Char) (hx : k.test x = true) :
    x ≠ '>' := by
  intro e
  subst e
  cases k <;> simp [Cls.avoidsGt] at hk <;> revert hx <;> decide

theorem accepts_avoidsGt (re : Regex) :
    ∀ (A : Str), avoidsGt re = true → Accepts re A → ∀ x ∈ A, x ≠ '>' := by
  induction re with
  | nil => intro A _ h x hx; rw [h] at hx; simp at hx
  | cons it re ih =>
    intro A hre h x hx
    simp only [avoidsGt, List.all_cons, Bool.and_eq_true] at hre
    have hre' : avoidsGt re = true := hre.2
    have hit := hre.1
    cases it with
    | lit a =>
      obtain ⟨ch, m', rfl, hch, h'⟩ := h
      rcases List.mem_cons.mp hx with e | e
      · intro e'
        simp only [bne_iff_ne, ne_eq] at hit
        apply hit
        rw [← hch, ← e, e']
        rfl
      · exact ih m' hre' h' x e
    | one k =>
      obtain ⟨ch, m', rfl, hch, h'⟩ := h
      rcases List.mem_cons.mp hx with e | e
      · rw [e]; exact cls_avoidsGt k hit ch hch
      · exact ih m' hre' h' x e
    | star k =>
      obtain ⟨xs, m', rfl, hxs, h'⟩ := h
      rcases List.mem_append.mp hx with e | e
      · exact cls_avoidsGt k hit x (hxs x e)
      · exact ih m' hre' h' x e
    | plus k =>
      obtain ⟨ch, xs, m', rfl, hch, hxs, h'⟩ := h
      rcases List.mem_cons.mp hx with e | e
      · rw [e]; exact cls_avoidsGt k hit ch hch
      · rcases List.mem_append.mp e with e | e
        · exact cls_avoidsGt k hit x (hxs x e)
        · exact ih m' hre' h' x e
    | lazyStar k =>
      obtain ⟨xs, m', rfl, hxs, h'⟩ := h
      rcases List.mem_append.mp hx with e | e
      · exact cls_avoidsGt k hit x (hxs x e)
      · exact ih m' hre' h' x e
    | gOpen => exact ih A hre' h x hx
    | gClose => exact ih A hre' h x hx

theorem accepts_quoteItems (re : Regex) :
    ∀ (A : Str), Accepts re A → quoteItems re ≤ quoteCount A := by
  induction re with
  | nil => intro A h; simp [quoteItems]
  | cons it re ih =>
    intro A h
    have hstep : quoteItems (it :: re) =
        quoteItems re + (if it = Item.one Cls.quote then 1 else 0) := by
      simp [quoteItems, List.countP_cons]
    cases it with
    | lit a =>
      obtain ⟨ch, m', rfl, _, h'⟩ := h
      have := ih m' h'
      rw [hstep, quoteCount_cons]
      simp
      omega
    | one k =>
      obtain ⟨ch, m', rfl, hch, h'⟩ := h
      have := ih m' h'
      rw [hstep, quoteCount_cons]
      by_cases hk : k = Cls.quote
      · subst hk
        simp [hch, this]
      · simp [hk]
        omega
    | star k =>
      obtain ⟨xs, m', rfl, _, h'⟩ := h
      have := ih m' h'
      rw [hstep, quoteCount_append]
      simp
      omega
    | plus k =>
      obtain ⟨ch, xs, m', rfl, _, _, h'⟩ := h
      have := ih m' h'
      rw [hstep, quoteCount_cons, quoteCount_append]
      simp
      omega
    | lazyStar k =>
      obtain ⟨xs, m', rfl, _, h'⟩ := h
      have := ih m' h'
      rw [hstep, quoteCount_append]
      simp
      omega
    | gOpen => have := ih A h; rw [hstep]; simpa using this
    | gClose => have := ih A h; rw [hstep]; simpa using this

theorem accepts_lits_upper (l : List Char) :
    ∀ (L : Str), Accepts (l.map Item.lit) L → L.map Char.toUpper = l.map Char.toUpper := by
  induction l with
  | nil => intro L h; rw [show L = [] from h]
  | cons a l ih =>
    intro L h
    obtain ⟨ch, m', rfl, hch, h'⟩ := h
    simp only [List.map_cons, hch, ih m' h']

theorem quote_toUpper (x : Char) (hx : Cls.quote.test x = true) :
    Cls.quote.test x.toUpper = true := by
  simp only [Cls.test, Bool.or_eq_true, beq_iff_eq] at hx
  rcases hx with e | e <;> rw [e] <;> decide

theorem upper_quoteFree : ∀ (L K : Str), L.map Char.toUpper = K → quoteCount K = 0 →
    quoteCount L = 0 := by
  intro L
  induction L with
  | nil => intro K _ _; rfl
  | cons x L ih =>
    intro K hK hq
    cases K with
    | nil => simp at hK
    | cons k K =>
      simp only [List.map_cons, List.cons.injEq] at hK
      rw [quoteCount_cons] at hq ⊢
      have hx : Cls.quote.test x = false := by
        cases hx : Cls.quote.test x with
        | false => rfl
        | true =>
          have := quote_toUpper x hx
          rw [hK.1] at this
          simp [this] at hq
      rw [ih K hK.2 (by omega), hx]
      rfl

theorem prefix_of_noGt (a X U V : Str) (ha : ∀ x ∈ a, x ≠ '>')
    (h : a ++ X = U ++ '>' :: V) : ∃ w, U = a ++ w ∧ X = w ++ '>' :: V := by
  rcases List.append_eq_append_iff.mp h with ⟨w, hw, hX⟩ | ⟨w, hw, hV⟩
  · exact ⟨w, hw, hX⟩
  · cases w with
    | nil =>
      simp only [List.nil_append] at hV
      exact ⟨[], by simpa using hw.symm, by simpa using hV.symm⟩
    | cons x w =>
      simp only [List.cons_append, List.cons.injEq] at hV
      exact absurd hV.1.symm (ha x (by rw [hw]; simp))

theorem last_of_append (X Y d : Str) (q : Char) (h : X ++ [q] = Y ++ d) (hd : d ≠ []) :
    ∃ d', d = d' ++ [q] ∧ X = Y ++ d' := by
  rcases List.eq_nil_or_concat d with e | ⟨L, b, e⟩
  · exact absurd e hd
  · subst e
    rw [List.concat_eq_append, ← List.append_assoc] at h
    have := List.append_inj' h rfl
    simp only [List.cons.injEq, and_true] at this
    exact ⟨L, by rw [List.concat_eq_append, this.2], this.1⟩

theorem endsContentAttr_of_suffix (d L : Str) (hL : L.map Char.toUpper = "CONTENT=".toList) :
    endsContentAttr (d ++ L) = true := by
  unfold endsContentAttr
  rw [List.isPrefixOf_iff_prefix, List.reverse_append, List.map_append, List.map_reverse, hL]
  exact List.prefix_append _ _

/-- What a pattern that ends in `contentTail` matches: a head without `>` that
holds the quote characters of the front piece, the letters of `content=`, and
the capture between two quote characters. -/
theorem contentTag_shape (P1 : Regex) (hgf : groupFree P1 = true) (hgt : avoidsGt P1 = true)
    (m c : Str) (h : AcceptsCap (P1 ++ contentTail) false m c) :
    ∃ H0 L4 q3 q4, m = H0 ++ (L4 ++ q3 :: (c ++ [q4])) ∧ (∀ x ∈ H0, x ≠ '>') ∧
      quoteItems P1 ≤ quoteCount H0 ∧ L4.map Char.toUpper = "CONTENT=".toList ∧
      Cls.quote.test q3 = true ∧ Cls.quote.test q4 = true ∧ c ≠ [] ∧ quoteCount c = 0 := by
  obtain ⟨H0, m1, hm1, hH0, h1⟩ := acceptsCap_split _ _ hgf m c h
  have htail : contentTail = "content=".toList.map Item.lit ++
      [Item.one .quote, Item.gOpen, Item.plus .notQuote, Item.gClose, Item.one .quote] := rfl
  rw [htail] at h1
  obtain ⟨L4, m2, hm2, hL4, h2⟩ := acceptsCap_split _ _ (by decide) m1 c h1
  simp only [AcceptsCap, if_true, Bool.false_eq_true, if_false] at h2
  obtain ⟨q3, m3, c3, hm3, hq3, hc3, ch, xs, m4, c4, hm4, hch, hxs, hc4, q4, m5, c5, hm5, hq4,
    hc5, hm5', hc5'⟩ := h2
  subst hm5' hc5' hc5 hm5 hm4 hc3 hm3 hm2 hm1
  refine ⟨H0, L4, q3, q4, ?_, accepts_avoidsGt P1 H0 hgt hH0, accepts_quoteItems P1 H0 hH0,
    accepts_lits_upper _ L4 hL4, hq3, hq4, ?_, ?_⟩
  · rw [hc4]; simp
  · rw [hc4]; simp
  · rw [hc4]
    apply quoteCount_of_notQuote
    intro x hx
    rcases List.mem_cons.mp (by simpa using hx) with e | e
    · rw [e]; exact hch
    · exact hxs x e

theorem quote_ne_gt (q : Char) (hq : Cls.quote.test q = true) : q ≠ '>' := by
  intro e
  subst e
  revert hq
  decide

theorem quoteCount_singleton (q : Char) (hq : Cls.quote.test q = true) : quoteCount [q] = 1 := by
  simp [quoteCount_cons, hq, quoteCount]

/-- Two readings of the same input as a head, a quote character, a content
without quote characters and a closing quote character have the same head, when
the first head holds two quote characters and its content does not end with
`content=`, and the second head holds at least two, has no `>` and ends with
the letters of `content=`. -/
theorem head_unique (Ht H0 L4 : Str) (q3 q3' q4 q4' : Char) (c cap g post rest : Str)
    (hE : Ht ++ q3 :: (c ++ q4 :: (g ++ '>' :: post)) =
      (H0 ++ L4) ++ q3' :: (cap ++ q4' :: rest))
    (hHt : quoteCount Ht = 2) (hH0 : 2 ≤ quoteCount H0)
    (hL4 : L4.map Char.toUpper = "CONTENT=".toList)
    (hgt : ∀ x ∈ H0 ++ L4, x ≠ '>')
    (hq3 : Cls.quote.test q3 = true) (hq3' : Cls.quote.test q3' = true)
    (hq4 : Cls.quote.test q4 = true)
    (hc : quoteCount c = 0) (hg : quoteCount g = 0) (hend : endsContentAttr c = false) :
    H0 ++ L4 = Ht := by
  have hL4q : quoteCount L4 = 0 := upper_quoteFree L4 _ hL4 (by decide)
  rcases List.append_eq_append_iff.mp hE with ⟨a, ha, hT⟩ | ⟨b, hb, hT⟩
  · -- the second head is the first one followed by `a`
    cases a with
    | nil => simpa using ha
    | cons x a =>
      exfalso
      simp only [List.cons_append, List.cons.injEq] at hT
      obtain ⟨hx, hT⟩ := hT
      subst hx
      -- `a` has no `>` and is followed by the quote `q3'`
      have hagt : ∀ y ∈ a ++ [q3'], y ≠ '>' := by
        intro y hy
        rcases List.mem_append.mp hy with e | e
        · exact hgt y (by rw [ha]; simp [e])
        · simp only [List.mem_singleton] at e
          rw [e]; exact quote_ne_gt _ hq3'
      have hT' : (a ++ [q3']) ++ (cap ++ q4' :: rest) = (c ++ q4 :: g) ++ '>' :: post := by
        rw [List.append_assoc, List.append_assoc]
        simpa using hT.symm
      obtain ⟨w, hw, _⟩ := prefix_of_noGt _ _ _ _ hagt hT'
      have hcount := congrArg quoteCount hw
      simp only [quoteCount_append, quoteCount_cons, hq3', hq4, hc, hg, if_true,
        quoteCount_singleton] at hcount
      have ha0 : quoteCount a = 0 := by omega
      have hw' : c ++ q4 :: g = a ++ q3' :: w := by rw [hw]; simp
      obtain ⟨hca, _⟩ := split_unique _ _ _ _ _ _ hw' hc ha0 hq4 hq3'
      -- so the second head is the first one, the quote and the content
      rw [← hca] at ha
      have ha' : H0 ++ L4 = (Ht ++ [q3]) ++ c := by rw [ha]; simp
      rcases List.append_eq_append_iff.mp ha' with ⟨d, hd, hL⟩ | ⟨d, hd, hcd⟩
      · cases d with
        | nil =>
          simp only [List.nil_append] at hL
          rw [← hL, ← List.nil_append L4, endsContentAttr_of_suffix [] L4 hL4] at hend
          cases hend
        | cons y d =>
          obtain ⟨d', hd', _⟩ := last_of_append Ht H0 (y :: d) q3 hd (by simp)
          rw [hd'] at hL
          have := congrArg quoteCount hL
          simp only [quoteCount_append, quoteCount_singleton _ hq3, hL4q, hc] at this
          omega
      · rw [hcd, endsContentAttr_of_suffix d L4 hL4] at hend
        cases hend
  · -- the first head is the second one followed by `b`
    cases b with
    | nil => simpa using hb.symm
    | cons x b =>
      exfalso
      simp only [List.cons_append, List.cons.injEq] at hT
      have hcount := congrArg quoteCount hb
      rw [← hT.1] at hcount
      simp only [quoteCount_append, quoteCount_cons, hq3', hHt, hL4q, if_true] at hcount
      omega

/-- A pattern that ends in `contentTail`, tried at the start of a tag that it
accepts with the capture `c`: when the tag holds four quote characters, `c`
does not end with `content=` and no quote character stands between the tag and
the next `>`, the match is the tag and the capture is `c`. -/
theorem matchHere_contentTag (P1 : Regex) (hgf : groupFree P1 = true)
    (hgt : avoidsGt P1 = true) (hqn : 2 ≤ quoteItems P1) (t c g post : Str)
    (hacc : AcceptsCap (P1 ++ contentTail) false t c) (hq4 : quoteCount t = 4)
    (hend : endsContentAttr c = false) (hg : quoteCount g = 0) :
    matchHere (P1 ++ contentTail) false (t ++ (g ++ '>' :: post)) =
      some { matched := t, cap := c, rest := g ++ '>' :: post } := by
  have hsome := matchHere_complete (P1 ++ contentTail) false t (g ++ '>' :: post)
    (acceptsCap_accepts _ _ _ _ hacc)
  cases hm : matchHere (P1 ++ contentTail) false (t ++ (g ++ '>' :: post)) with
  | none => rw [hm] at hsome; cases hsome
  | some r =>
    obtain ⟨haccr, hsplit⟩ := matchHere_soundCap _ _ _ r hm
    obtain ⟨H0, L4, q3, q4, ht, _, hH0, hL4, hq3, hq4q, _, hc⟩ :=
      contentTag_shape P1 hgf hgt t c hacc
    obtain ⟨H0', L4', q3', q4', hr, hgt', hH0', hL4', hq3', hq4', _, hcap⟩ :=
      contentTag_shape P1 hgf hgt r.matched r.cap haccr
    have hL4q : quoteCount L4 = 0 := upper_quoteFree L4 _ hL4 (by decide)
    have hL4gt : ∀ x ∈ L4', x ≠ '>' := by
      intro x hx e
      subst e
      have : '>' ∈ L4'.map Char.toUpper := List.mem_map.mpr ⟨'>', hx, rfl⟩
      rw [hL4'] at this
      revert this
      decide
    have hHt : quoteCount (H0 ++ L4) = 2 := by
      have := congrArg quoteCount ht
      simp only [quoteCount_append, quoteCount_cons, hq3, hq4q, hc, hL4q, hq4, if_true,
        quoteCount_singleton] at this
      rw [quoteCount_append, hL4q]
      omega
    have hE : (H0 ++ L4) ++ q3 :: (c ++ q4 :: (g ++ '>' :: post)) =
        (H0' ++ L4') ++ q3' :: (r.cap ++ q4' :: r.rest) := by
      have := hsplit
      rw [ht, hr] at this
      simpa using this
    have hhead := head_unique (H0 ++ L4) H0' L4' q3 q3' q4 q4' c r.cap g post r.rest hE hHt
      (by omega) hL4'
      (by
        intro x hx
        rcases List.mem_append.mp hx with e | e
        · exact hgt' x e
        · exact hL4gt x e)
      hq3 hq3' hq4q hc hg hend
    rw [hhead] at hE
    have hE' := List.append_cancel_left hE
    simp only [List.cons.injEq] at hE'
    obtain ⟨hcc, hrest⟩ := split_unique _ _ _ _ _ _ hE'.2 hc hcap hq4q hq4'
    have hmatched : r.matched = t := by
      rw [← hrest] at hsplit
      exact (List.append_cancel_right hsplit).symm
    cases r with
    | mk matched cap rest =>
      simp only at hmatched hcc hrest
      rw [hmatched, ← hcc, ← hrest]

theorem search_noEarlierMatch (re : Regex) (pre rest : Str)
    (h : noEarlierMatch re pre rest = true) : search re (pre ++ rest) = search re rest := by
  induction pre with
  | nil => rfl
  | cons c cs ih =>
    simp only [noEarlierMatch, Bool.and_eq_true, Option.isNone_iff_eq_none,
      List.cons_append] at h
    rw [← ih h.2]
    simp only [List.cons_append]
    rw [search, h.1]

/-- On a page where such a tag is the first place at which the pattern matches,
`match` returns the tag and its content. -/
theorem search_contentTag (P1 : Regex) (hgf : groupFree P1 = true)
    (hgt : avoidsGt P1 = true) (hqn : 2 ≤ quoteItems P1) (pre t c g post : Str)
    (hpre : noEarlierMatch (P1 ++ contentTail) pre (t ++ (g ++ '>' :: post)) = true)
    (hacc : AcceptsCap (P1 ++ contentTail) false t c) (hq4 : quoteCount t = 4)
    (hend : endsContentAttr c = false) (hg : quoteCount g = 0) :
    search (P1 ++ contentTail) (pre ++ (t ++ (g ++ '>' :: post))) =
      some { matched := t, cap := c, rest := g ++ '>' :: post } := by
  rw [search_noEarlierMatch _ _ _ hpre]
  exact search_of_matchHere _ _ _
    (matchHere_contentTag P1 hgf hgt hqn t c g post hacc hq4 hend hg)

/-- Strategy 1 on a page where an `og:image` tag with the content `c` is the
first place at which its first pattern matches. -/
theorem ogImageMatch_tag (pre t c g post : Str)
    (hpre : noEarlierMatch ogImageRe1 pre (t ++ (g ++ '>' :: post)) = true)
    (hacc : AcceptsCap ogImageRe1 false t c) (hq4 : quoteCount t = 4)
    (hend : endsContentAttr c = false) (hg : quoteCount g = 0) :
    ogImageMatch (pre ++ (t ++ (g ++ '>' :: post))) =
      some { matched := t, cap := c, rest := g ++ '>' :: post } := by
  have hre : ogImageRe1 =
      (lits "<meta" ++ [Item.star .notGt] ++ lits "property=" ++ [Item.one .quote] ++
        lits "og:image" ++ [Item.one .quote, Item.star .notGt]) ++ contentTail := rfl
  unfold ogImageMatch matchEither
  rw [hre] at hpre hacc ⊢
  rw [search_contentTag _ (by decide) (by decide) (by decide) pre t c g post hpre hacc hq4 hend hg]

/-- Strategy 2 on a page where a `twitter:image` tag with the content `c` is
the first place at which its first pattern matches. -/
theorem twitterImageMatch_tag (pre t c g post : Str)
    (hpre : noEarlierMatch twitterImageRe1 pre (t ++ (g ++ '>' :: post)) = true)
    (hacc : AcceptsCap twitterImageRe1 false t c) (hq4 : quoteCount t = 4)
    (hend : endsContentAttr c = false) (hg : quoteCount g = 0) :
    twitterImageMatch (pre ++ (t ++ (g ++ '>' :: post))) =
      some { matched := t, cap := c, rest := g ++ '>' :: post } := by
  have hre : twitterImageRe1 =
      (lits "<meta" ++ [Item.star .notGt] ++ lits "name=" ++ [Item.one .quote] ++
        lits "twitter:image" ++ [Item.one .quote, Item.star .notGt]) ++ contentTail := rfl
  unfold twitterImageMatch matchEither
  rw [hre] at hpre hacc ⊢
  rw [search_contentTag _ (by decide) (by decide) (by decide) pre t c g post hpre hacc hq4 hend hg]

theorem acceptsCap_lits (l : List Char) (r : Regex) (m c : Str) (h : AcceptsCap r false m c) :
    AcceptsCap (l.map Item.lit ++ r) false (l ++ m) c := by
  induction l with
  | nil => exact h
  | cons a l ih => exact ⟨a, l ++ m, c, rfl, rfl, rfl, ih⟩

/-- The first `og:image` pattern accepts the tag in its usual spelling, with
its content as the capture, for every non-empty content without quote
characters. -/
theorem acceptsCap_ogTag (c : Str) (hne : c ≠ []) (hq : ∀ x ∈ c, Cls.notQuote.test x = true) :
    AcceptsCap ogImageRe1 false (ogTag c) c := by
  cases c with
  | nil => exact absurd rfl hne
  | cons c0 cs =>
    have hre : ogImageRe1 =
        "<meta".toList.map Item.lit ++ (Item.star .notGt ::
          ("property=".toList.map Item.lit ++ (Item.one .quote ::
            ("og:image".toList.map Item.lit ++ (Item.one .quote :: Item.star .notGt ::
              ("content=".toList.map Item.lit ++
                [Item.one .quote, Item.gOpen, Item.plus .notQuote, Item.gClose,
                  Item.one .quote])))))) := rfl
    have htag : ogTag (c0 :: cs) =
        "<meta".toList ++ (" ".toList ++ ("property=".toList ++ (dq ::
          ("og:image".toList ++ (dq :: ([] ++ (" ".toList ++ ("content=".toList ++
            (dq :: c0 :: (cs ++ [dq]))))))))))  := rfl
    rw [hre, htag]
    apply acceptsCap_lits
    refine ⟨" ".toList, _, _, rfl, by decide, rfl, ?_⟩
    apply acceptsCap_lits
    refine ⟨dq, _, _, rfl, by decide, rfl, ?_⟩
    apply acceptsCap_lits
    refine ⟨dq, _, _, rfl, by decide, rfl, ?_⟩
    refine ⟨" ".toList, _, _, rfl, by decide, rfl, ?_⟩
    apply acceptsCap_lits
    refine ⟨dq, _, _, rfl, by decide, rfl, ?_⟩
    refine ⟨c0, cs, [dq], [], rfl, hq c0 (List.mem_cons_self _ _),
      fun x hx => hq x (List.mem_cons_of_mem _ hx), by simp, ?_⟩
    exact ⟨dq, [], [], rfl, by decide, by simp, rfl, rfl⟩

theorem quoteCount_ogTag (c : Str) (hq : ∀ x ∈ c, Cls.notQuote.test x = true) :
    quoteCount (ogTag c) = 4 := by
  have h1 : quoteCount "<meta property=\"og:image\" content=\"".toList = 3 := by decide
  have h2 : quoteCount [dq] = 1 := by decide
  rw [ogTag, quoteCount_append, quoteCount_append, h1, h2, quoteCount_of_notQuote c hq]

theorem matchHere_lits_prefix (l : List Char) (re : Regex) :
    ∀ (inG : Bool) (s : Str) (r : MatchRes), matchHere (l.map Item.lit ++ re) inG s = some r →
      (matchHere (l.map Item.lit) inG s).isSome = true := by
  induction l with
  | nil => intro inG s r _; rfl
  | cons a l ih =>
    intro inG s r h
    cases s with
    | nil => simp [matchHere] at h
    | cons c cs =>
      simp only [List.map_cons, List.cons_append, matchHere] at h ⊢
      split at h
      · next hc =>
        simp only [Option.map_eq_some'] at h
        obtain ⟨r', hr', _⟩ := h
        have := ih inG cs r' hr'
        simp only [hc, if_true, Option.isSome_map']
        exact this
      · cases h

theorem meta_straddle (s r : Str) (x : Char) (hx : x.toUpper = '<') (hs : s ≠ [])
    (h : (matchHere (lits "<meta") false (s ++ x :: r)).isSome = true) :
    (matchHere (lits "<meta") false s).isSome = true := by
  have hl : lits "<meta" = [Item.lit '<', Item.lit 'm', Item.lit 'e', Item.lit 't', Item.lit 'a'] :=
    rfl
  rw [hl] at h ⊢
  rcases s with _ | ⟨a, _ | ⟨b, _ | ⟨c, _ | ⟨d, _ | ⟨e, s⟩⟩⟩⟩⟩
  · exact absurd rfl hs
  all_goals simp_all [matchHere]
  split_ifs at h ⊢ <;> simp_all

/-- In front of a tag, a text without `<meta` holds no place at which a pattern
that begins with `<meta` matches. -/
theorem noEarlierMatch_of_no_meta (re : Regex) (pre r : Str) (x : Char) (hx : x.toUpper = '<')
    (h : search (lits "<meta") pre = none) :
    noEarlierMatch (lits "<meta" ++ re) pre (x :: r) = true := by
  induction pre with
  | nil => rfl
  | cons c cs ih =>
    unfold search at h
    split at h
    · cases h
    · next hn =>
      simp only [noEarlierMatch, Bool.and_eq_true, Option.isNone_iff_eq_none]
      refine ⟨?_, ih h⟩
      cases hm : matchHere (lits "<meta" ++ re) false (c :: cs ++ x :: r) with
      | none => rfl
      | some r' =>
        have h1 := matchHere_lits_prefix "<meta".toList re false _ r' hm
        have h2 := meta_straddle (c :: cs) r x hx (by simp) h1
        rw [hn] at h2
        cases h2

/-- In front of a tag that a pattern beginning with `<meta` accepts, a text
without `<meta` holds no place at which the pattern matches. -/
theorem noEarlierMatch_of_tag (re : Regex) (pre t c rest : Str)
    (hacc : AcceptsCap (lits "<meta" ++ re) false t c)
    (hpre : search (lits "<meta") pre = none ∨
      noEarlierMatch (lits "<meta" ++ re) pre (t ++ rest) = true) :
    noEarlierMatch (lits "<meta" ++ re) pre (t ++ rest) = true := by
  rcases hpre with h | h
  · obtain ⟨ch, m', c', ht, hch, _, _⟩ := hacc
    rw [ht]
    exact noEarlierMatch_of_no_meta re pre (m' ++ rest) ch hch h
  · exact h

/-! ## Strategy precedence -/

theorem twitterImageMatch_cap (html : Str) (m : MatchRes)
    (h : twitterImageMatch html = some m) :
    m.cap ≠ [] ∧ ∀ x ∈ m.cap, Cls.notQuote.test x = true := by
  have h1 : twitterImageRe1 =
      (lits "<meta" ++ [Item.star .notGt] ++ lits "name=" ++ [Item.one .quote] ++
        lits "twitter:image" ++ [Item.one .quote, Item.star .notGt] ++ lits "content=" ++
        [Item.one .quote]) ++
      Item.gOpen :: Item.plus .notQuote :: Item.gClose :: [Item.one .quote] := rfl
  have h2 : twitterImageRe2 =
      (lits "<meta" ++ [Item.star .notGt] ++ lits "content=" ++ [Item.one .quote]) ++
      Item.gOpen :: Item.plus .notQuote :: Item.gClose ::
        ([Item.one .quote, Item.star .notGt] ++ lits "name=" ++ [Item.one .quote] ++
          lits "twitter:image" ++ [Item.one .quote]) := rfl
  exact matchEither_cap _ _ _ _ _ _ .notQuote h1 h2 (by decide) (by decide) (by decide)
    (by decide) html m h

/-- Claim C3 as stated fails: on a page whose `og:image` tag has the content
`/img/a.jpg` and, after it, the attribute `data-content="/other/b.jpg"`, the
result is `/other/b.jpg` resolved, which is neither the `og:image` address nor
the inline image. -/
theorem strategy_precedence_counterexample :
    extractImageURL demoPlatform pageDataContent "https://site/a".toList =
      .ok (some "https://site/other/b.jpg".toList) ∧
    "https://site/other/b.jpg".toList ≠ "https://site/img/a.jpg".toList ∧
    largestImage demoPlatform pageDataContent "https://site/a".toList =
      .ok (some "https://site/big.jpg".toList) :=
  ⟨rfl, by decide, rfl⟩

/-- Claim C3, amended: `extractImageURL` is the first-match fold over the
strategies in the order open-graph tag, twitter tag, JSON-LD image, largest
inline image, so the result is that of the first strategy that yields one, and a
later strategy has no part in it.  Whenever strategy 1 matches, the result is
what its pattern captures, which is not empty, resolved, whatever inline images
the markup holds; and likewise for strategy 2 when strategy 1 does not match,
for strategy 3 when neither does, and for strategy 4 after them.  What strategy
1 captures is the content `c` of an `og:image` tag `t`, in any spelling that
its first pattern accepts, when the tag has no `<meta` in front of it, or at
least no place in front of it at which the pattern matches, holds four quote
characters, is followed by no quote character up to the next `>`, and `c` does
not end with `content=`; and the same holds of strategy 2 and a
`twitter:image` tag. -/
theorem strategy_precedence (P : Platform) (html base : Str) :
    extractImageURL P html base = firstMatch (strategyChain P) html base ∧
    (∀ m, ogImageMatch html = some m →
      m.cap ≠ [] ∧
      extractImageURL P html base = (resolveURL P m.cap base).map some ∧
      ∀ o, P.parseURL base = some o →
        extractImageURL P html base = .ok (some (resolveWith o m.cap))) ∧
    (ogImageMatch html = none → ∀ m, twitterImageMatch html = some m →
      m.cap ≠ [] ∧
      extractImageURL P html base = (resolveURL P m.cap base).map some ∧
      ∀ o, P.parseURL base = some o →
        extractImageURL P html base = .ok (some (resolveWith o m.cap))) ∧
    (ogImageMatch html = none → twitterImageMatch html = none →
      ∀ r, jsonLdStrategy P html base = .ok (some r) →
        extractImageURL P html base = .ok (some r)) ∧
    (ogImageMatch html = none → twitterImageMatch html = none →
      jsonLdStrategy P html base = .ok none →
        extractImageURL P html base = largestImage P html base) ∧
    (∀ pre t c g post, html = pre ++ (t ++ (g ++ '>' :: post)) →
      (search (lits "<meta") pre = none ∨
        noEarlierMatch ogImageRe1 pre (t ++ (g ++ '>' :: post)) = true) →
      AcceptsCap ogImageRe1 false t c → quoteCount t = 4 → endsContentAttr c = false →
      quoteCount g = 0 →
      ogImageMatch html = some { matched := t, cap := c, rest := g ++ '>' :: post } ∧
      ∀ o, P.parseURL base = some o →
        extractImageURL P html base = .ok (some (resolveWith o c))) ∧
    (∀ pre t c g post, html = pre ++ (t ++ (g ++ '>' :: post)) →
      (search (lits "<meta") pre = none ∨
        noEarlierMatch twitterImageRe1 pre (t ++ (g ++ '>' :: post)) = true) →
      AcceptsCap twitterImageRe1 false t c → quoteCount t = 4 → endsContentAttr c = false →
      quoteCount g = 0 →
      twitterImageMatch html = some { matched := t, cap := c, rest := g ++ '>' :: post } ∧
      (ogImageMatch html = none → ∀ o, P.parseURL base = some o →
        extractImageURL P html base = .ok (some (resolveWith o c)))) := by
  have hog : ∀ m, ogImageMatch html = some m → ∀ o, P.parseURL base = some o →
      extractImageURL P html base = .ok (some (resolveWith o m.cap)) := by
    intro m hm o ho
    unfold extractImageURL
    simp only [hm, resolveURL_valid P m.cap base o ho]
    rfl
  have htw : ogImageMatch html = none → ∀ m, twitterImageMatch html = some m →
      ∀ o, P.parseURL base = some o →
      extractImageURL P html base = .ok (some (resolveWith o m.cap)) := by
    intro hn m hm o ho
    unfold extractImageURL
    simp only [hn, hm, resolveURL_valid P m.cap base o ho]
    rfl
  refine ⟨?_, ?_, ?_, ?_, ?_, ?_, ?_⟩
  · unfold extractImageURL strategyChain
    simp only [firstMatch, ogStrategy, twitterStrategy]
    cases hog : ogImageMatch html with
    | some m =>
      simp only
      cases hr : resolveURL P m.cap base <;> rfl
    | none =>
      simp only
      cases htw : twitterImageMatch html with
      | some m =>
        simp only
        cases hr : resolveURL P m.cap base <;> rfl
      | none =>
        simp only
        cases hj : jsonLdStrategy P html base with
        | error e => rfl
        | ok r =>
          cases r with
          | some r => rfl
          | none =>
            simp only
            cases hl : largestImage P html base with
            | error e => rfl
            | ok r => cases r <;> rfl
  · intro m hm
    refine ⟨(ogImageMatch_cap html m hm).1, ?_, hog m hm⟩
    unfold extractImageURL
    simp only [hm]
  · intro hn m hm
    refine ⟨(twitterImageMatch_cap html m hm).1, ?_, htw hn m hm⟩
    unfold extractImageURL
    simp only [hn, hm]
  · intro hn hn2 r hr
    unfold extractImageURL
    simp only [hn, hn2, hr]
  · intro hn hn2 hr
    unfold extractImageURL
    simp only [hn, hn2, hr]
  · intro pre t c g post hhtml hpre hacc hq4 hend hg
    have hm := ogImageMatch_tag pre t c g post
      (noEarlierMatch_of_tag _ pre t c _ hacc hpre) hacc hq4 hend hg
    rw [← hhtml] at hm
    exact ⟨hm, fun o ho => hog _ hm o ho⟩
  · intro pre t c g post hhtml hpre hacc hq4 hend hg
    have hm := twitterImageMatch_tag pre t c g post
      (noEarlierMatch_of_tag _ pre t c _ hacc hpre) hacc hq4 hend hg
    rw [← hhtml] at hm
    exact ⟨hm, fun hn o ho => htw hn _ hm o ho⟩

/-- Claim C3, amended, on sample pages.  A page with a large inline image in
front of an `og:image` tag: the tag is recognised and the result is its content
resolved, where strategy 4 alone would give the inline image; the same for a
tag in capitals with single quotes.  A page with a `twitter:image` tag, a
JSON-LD image and an inline image: the result is the content of the twitter
tag.  A page with a JSON-LD image and an inline image: the result is the
JSON-LD image, the first one of an array of images; an image that is an
object makes strategy 3 throw inside its `try` block, and strategy 4 decides.
A page whose `og:image` tag has its `content` first, in front of a
`twitter:image` tag: the result is the `og:image` content; a page whose
`twitter:image` tag has its `content` first: the result is that content. -/
theorem strategy_precedence_witness :
    (ogImageMatch pageOgAndInline =
        some { matched := ogTag "/img/a.jpg".toList, cap := "/img/a.jpg".toList,
               rest := ">".toList } ∧
      extractImageURL demoPlatform pageOgAndInline "https://site/a".toList =
        .ok (some "https://site/img/a.jpg".toList) ∧
      largestImage demoPlatform pageOgAndInline "https://site/a".toList =
        .ok (some "https://site/big.jpg".toList)) ∧
    (ogImageMatch pageOgCapitals =
        some { matched := "<META PROPERTY='og:image' itemprop=image CONTENT='/img/a.jpg'".toList,
               cap := "/img/a.jpg".toList,
               rest := " /><img src=\"big.jpg\" width=\"2000\" height=\"2000\">".toList } ∧
      extractImageURL demoPlatform pageOgCapitals "https://site/a".toList =
        .ok (some "https://site/img/a.jpg".toList) ∧
      largestImage demoPlatform pageOgCapitals "https://site/a".toList =
        .ok (some "https://site/big.jpg".toList)) ∧
    (ogImageMatch pageTwitter = none ∧
      extractImageURL demoPlatform pageTwitter "https://site/a".toList =
        .ok (some "https://site/img/t.jpg".toList) ∧
      jsonLdStrategy demoPlatform pageTwitter "https://site/a".toList =
        .ok (some "https://site/img/j.jpg".toList) ∧
      largestImage demoPlatform pageTwitter "https://site/a".toList =
        .ok (some "https://site/big.jpg".toList)) ∧
    (ogImageMatch pageJsonLd = none ∧ twitterImageMatch pageJsonLd = none ∧
      extractImageURL demoPlatform pageJsonLd "https://site/a".toList =
        .ok (some "https://site/img/j.jpg".toList) ∧
      largestImage demoPlatform pageJsonLd "https://site/a".toList =
        .ok (some "https://site/big.jpg".toList)) ∧
    (extractImageURL demoPlatform pageJsonLdArray "https://site/a".toList =
        .ok (some "https://site/img/j1.jpg".toList) ∧
      jsonLdStrategy demoPlatform pageJsonLdObject "https://site/a".toList = .ok none ∧
      extractImageURL demoPlatform pageJsonLdObject "https://site/a".toList =
        .ok (some "https://site/big.jpg".toList)) ∧
    (extractImageURL demoPlatform pageOgContentFirst "https://site/a".toList =
        .ok (some "https://site/img/a.jpg".toList) ∧
      (twitterImageMatch pageOgContentFirst).map (fun m => m.cap) =
        some "/img/t.jpg".toList) ∧
    (ogImageMatch pageTwitterContentFirst = none ∧
      extractImageURL demoPlatform pageTwitterContentFirst "https://site/a".toList =
        .ok (some "https://site/img/t.jpg".toList) ∧
      largestImage demoPlatform pageTwitterContentFirst "https://site/a".toList =
        .ok (some "https://site/big.jpg".toList)) :=
  ⟨⟨((strategy_precedence demoPlatform pageOgAndInline "https://site/a".toList).2.2.2.2.2.1
        "<img src=\"big.jpg\" width=\"2000\" height=\"2000\">".toList
        (ogTag "/img/a.jpg".toList) "/img/a.jpg".toList [] [] rfl (Or.inl rfl)
        (acceptsCap_ogTag "/img/a.jpg".toList (by decide) (by decide)) (by decide) (by decide)
        (by decide)).1,
      ((strategy_precedence demoPlatform pageOgAndInline "https://site/a".toList).2.2.2.2.2.1
        "<img src=\"big.jpg\" width=\"2000\" height=\"2000\">".toList
        (ogTag "/img/a.jpg".toList) "/img/a.jpg".toList [] [] rfl (Or.inl rfl)
        (acceptsCap_ogTag "/img/a.jpg".toList (by decide) (by decide)) (by decide) (by decide)
        (by decide)).2
        { protocol := "https:".toList, host := "site".toList } rfl,
      rfl⟩,
    ⟨((strategy_precedence demoPlatform pageOgCapitals "https://site/a".toList).2.2.2.2.2.1
        [] "<META PROPERTY='og:image' itemprop=image CONTENT='/img/a.jpg'".toList
        "/img/a.jpg".toList " /".toList
        "<img src=\"big.jpg\" width=\"2000\" height=\"2000\">".toList rfl (Or.inr rfl)
        (matchHere_soundCap ogImageRe1 false
          "<META PROPERTY='og:image' itemprop=image CONTENT='/img/a.jpg'".toList
          { matched := "<META PROPERTY='og:image' itemprop=image CONTENT='/img/a.jpg'".toList,
            cap := "/img/a.jpg".toList, rest := [] } rfl).1
        (by decide) (by decide) (by decide)).1,
      ((strategy_precedence demoPlatform pageOgCapitals "https://site/a".toList).2.1
        { matched := "<META PROPERTY='og:image' itemprop=image CONTENT='/img/a.jpg'".toList,
          cap := "/img/a.jpg".toList,
          rest := " /><img src=\"big.jpg\" width=\"2000\" height=\"2000\">".toList } rfl).2.2
        { protocol := "https:".toList, host := "site".toList } rfl,
      rfl⟩,
    ⟨rfl,
      ((strategy_precedence demoPlatform pageTwitter "https://site/a".toList).2.2.1 rfl
        { matched := "<meta name=\"twitter:image\" content=\"/img/t.jpg\"".toList,
          cap := "/img/t.jpg".toList,
          rest := "><script type=\"application/ld+json\">\x7b\"image\":\"/img/j.jpg\"\x7d</script><img src=\"big.jpg\" width=\"2000\" height=\"2000\">".toList }
        rfl).2.2 { protocol := "https:".toList, host := "site".toList } rfl,
      rfl, rfl⟩,
    ⟨rfl, rfl,
      (strategy_precedence demoPlatform pageJsonLd "https://site/a".toList).2.2.2.1 rfl rfl
        "https://site/img/j.jpg".toList rfl,
      rfl⟩,
    ⟨(strategy_precedence demoPlatform pageJsonLdArray "https://site/a".toList).2.2.2.1 rfl rfl
        "https://site/img/j1.jpg".toList rfl,
      rfl,
      ((strategy_precedence demoPlatform pageJsonLdObject "https://site/a".toList).2.2.2.2.1
        rfl rfl rfl).trans rfl⟩,
    ⟨((strategy_precedence demoPlatform pageOgContentFirst "https://site/a".toList).2.1
        { matched := "<META CONTENT='/img/a.jpg' PROPERTY='og:image'".toList,
          cap := "/img/a.jpg".toList,
          rest := "><meta name=\"twitter:image\" content=\"/img/t.jpg\">".toList } rfl).2.2
        { protocol := "https:".toList, host := "site".toList } rfl,
      rfl⟩,
    ⟨rfl,
      ((strategy_precedence demoPlatform pageTwitterContentFirst
          "https://site/a".toList).2.2.1 rfl
        { matched := "<meta content=\"/img/t.jpg\" name=\"twitter:image\"".toList,
          cap := "/img/t.jpg".toList,
          rest := "><img src=\"big.jpg\" width=\"2000\" height=\"2000\">".toList }
        rfl).2.2 { protocol := "https:".toList, host := "site".toList } rfl,
      rfl⟩⟩

/-! ## End-to-end resolution -/

theorem extractImageURL_og_rootRelative (P : Platform) (html u p : Str) (o : URLParts)
    (m : MatchRes) (hbase : P.parseURL u = some o) (hroot : "/".toList <+: p)
    (hnot : ¬ "//".toList <+: p) (hm : ogImageMatch html = some m) (hcap : m.cap = p) :
    extractImageURL P html u = .ok (some (o.protocol ++ "//".toList ++ o.host ++ p)) := by
  have hhttp : ¬ "http".toList <+: p := by
    obtain ⟨t, rfl⟩ := hroot
    rintro ⟨t', ht'⟩
    simp at ht'
  have hres := (resolveURL_relative P p u o hbase hhttp).2.1 hnot hroot
  unfold extractImageURL
  simp only [hm, hcap, hres]
  rfl

/-- A run over one address with an empty cache, on a page from which extraction
returns a non-empty address: the cache holds that address alone. -/
theorem run_single_fresh (P : Platform) (refresh : Bool) (u html v : Str)
    (fetch : Nat → Str → Except Str Str) (hfetch : fetch 0 u = .ok html)
    (hext : extractImageURL P html u = .ok (some v)) (hv : truthyStr v = true) :
    ∃ out, main P refresh [u] [] fetch = .ok out ∧
      out.cache = [(u, v)] ∧ out.errors = [] ∧
      summary [u] out = { total := 1, cached := 1, newlyResolved := 1, errors := 0 } := by
  refine ⟨_, main_eq P refresh [u] [] fetch, ?_⟩
  have hres : freshResult P (fetch 0) u =
      { url := u, imageUrl := some v, cached := false, error := none } := by
    simp only [freshResult, hfetch, hext, truthy, hv, if_true]
  have hout : productOutcome P refresh [] (fetch 0) u =
      (freshResult P (fetch 0) u, [Effect.fetch u]) := by
    simp [productOutcome, cacheGet, truthy]
  refine ⟨?_, ?_, ?_⟩
  · simp only [runOutcome, loopFrom, hout, hres, updateCache, hv, Bool.not_false,
      Bool.and_self, if_true, cacheSet]
  · simp only [runOutcome, loopFrom, hout, hres, List.append_nil]
  · simp only [summary, runOutcome, loopFrom, hout, hres, updateCache, hv, Bool.not_false,
      Bool.and_self, if_true, cacheSet, List.length_cons, List.length_nil, List.append_nil]

/-- Claim C11 as stated fails for a path that holds a quote character and for a
path that ends with `content=`.  On the page that is the tag with the content
`/img/it's.jpg` the capture stops at the apostrophe and the cache holds
`https://site/img/it`; on a page where the tag with the content `/xcontent=`
is followed by a paragraph with a quoted attribute, the capture is the text
between the tag and that attribute. -/
theorem fresh_resolution_end_to_end_counterexample :
    (pageApostrophe = ogTag "/img/it\x27s.jpg".toList ++ ">".toList ∧
      (main demoPlatform false ["https://site/a".toList] []
          (fun _ _ => .ok pageApostrophe)).map (fun out => out.cache) =
        .ok [("https://site/a".toList, "https://site/img/it".toList)] ∧
      "https://site/img/it".toList ≠ "https://site/img/it\x27s.jpg".toList) ∧
    (pageContentEnding = ogTag "/xcontent=".toList ++ "><p title=\"x\">".toList ∧
      (main demoPlatform false ["https://site/a".toList] []
          (fun _ _ => .ok pageContentEnding)).map (fun out => out.cache) =
        .ok [("https://site/a".toList, "https://site/><p title=".toList)] ∧
      "https://site/><p title=".toList ≠ "https://site/xcontent=".toList) :=
  ⟨⟨rfl, rfl, by decide⟩, ⟨rfl, rfl, by decide⟩⟩

/-- Claim C11, amended: with the single address `u`, whose origin is `o`, an
empty cache and a page on which the tag `<meta property="og:image"
content="p">` has no `<meta` in front of it, or at least no place in front of
it at which the pattern of strategy 1 matches, and is followed by no quote
character up to the next `>`, where `p` is a root-relative path without quote
characters that does not end with `content=`, strategy 1 captures `p`, the run
writes the cache `{u: origin followed by p}` and its summary reports 1 address,
1 newly resolved and no error. -/
theorem fresh_resolution_end_to_end (P : Platform) (refresh : Bool) (u p : Str) (o : URLParts)
    (fetch : Nat → Str → Except Str Str) (pre g post : Str)
    (hbase : P.parseURL u = some o)
    (hroot : "/".toList <+: p) (hnot : ¬ "//".toList <+: p)
    (hq : ∀ x ∈ p, Cls.notQuote.test x = true) (hend : endsContentAttr p = false)
    (hpre : search (lits "<meta") pre = none ∨
      noEarlierMatch ogImageRe1 pre (ogTag p ++ (g ++ '>' :: post)) = true)
    (hg : quoteCount g = 0)
    (hfetch : fetch 0 u = .ok (pre ++ (ogTag p ++ (g ++ '>' :: post)))) :
    ogImageMatch (pre ++ (ogTag p ++ (g ++ '>' :: post))) =
      some { matched := ogTag p, cap := p, rest := g ++ '>' :: post } ∧
    ∃ out, main P refresh [u] [] fetch = .ok out ∧
      out.cache = [(u, o.protocol ++ "//".toList ++ o.host ++ p)] ∧
      out.errors = [] ∧
      summary [u] out = { total := 1, cached := 1, newlyResolved := 1, errors := 0 } := by
  have hne : p ≠ [] := by
    obtain ⟨t, rfl⟩ := hroot
    simp
  have hpre' : noEarlierMatch ogImageRe1 pre (ogTag p ++ (g ++ '>' :: post)) = true := by
    rcases hpre with h | h
    · exact noEarlierMatch_of_no_meta _ pre _ '<' rfl h
    · exact h
  have hm := ogImageMatch_tag pre (ogTag p) p g post hpre' (acceptsCap_ogTag p hne hq)
    (quoteCount_ogTag p hq) hend hg
  refine ⟨hm, ?_⟩
  have hext := extractImageURL_og_rootRelative P _ u p o _ hbase hroot hnot hm rfl
  have himg : truthyStr (o.protocol ++ "//".toList ++ o.host ++ p) = true := by
    cases hp : o.protocol <;> simp [truthyStr]
  exact run_single_fresh P refresh u _ _ fetch hfetch hext himg

/-- Claim C11, amended, on the scenario of the specification, the address
`https://site/a` and the page that is the tag with the path `/img/a.jpg`, and on
a page with a head and a body around that tag. -/
theorem fresh_resolution_end_to_end_witness :
    (ogTag "/img/a.jpg".toList ++ ">".toList =
        "<meta property=\"og:image\" content=\"/img/a.jpg\">".toList ∧
      ∃ out, main demoPlatform false ["https://site/a".toList] []
          (fun _ _ => .ok (ogTag "/img/a.jpg".toList ++ ">".toList)) = .ok out ∧
        out.cache = [("https://site/a".toList, "https://site/img/a.jpg".toList)] ∧
        out.errors = [] ∧
        summary ["https://site/a".toList] out =
          { total := 1, cached := 1, newlyResolved := 1, errors := 0 }) ∧
    (pageWithHead =
        "<html><head><meta charset=\"utf-8\"><title>A</title>".toList ++
          (ogTag "/img/a.jpg".toList ++
            (" /".toList ++ '>' :: "</head><body><p class=\"x\">text</p></body></html>".toList)) ∧
      ∃ out, main demoPlatform false ["https://site/a".toList] []
          (fun _ _ => .ok pageWithHead) = .ok out ∧
        out.cache = [("https://site/a".toList, "https://site/img/a.jpg".toList)] ∧
        out.errors = [] ∧
        summary ["https://site/a".toList] out =
          { total := 1, cached := 1, newlyResolved := 1, errors := 0 }) :=
  ⟨⟨rfl, (fresh_resolution_end_to_end demoPlatform false "https://site/a".toList
      "/img/a.jpg".toList { protocol := "https:".toList, host := "site".toList }
      (fun _ _ => .ok (ogTag "/img/a.jpg".toList ++ ">".toList)) [] [] [] rfl (by decide)
      (by decide) (by decide) (by decide) (Or.inl rfl) (by decide) rfl).2⟩,
    ⟨rfl, (fresh_resolution_end_to_end demoPlatform false "https://site/a".toList
      "/img/a.jpg".toList { protocol := "https:".toList, host := "site".toList }
      (fun _ _ => .ok pageWithHead)
      "<html><head><meta charset=\"utf-8\"><title>A</title>".toList " /".toList
      "</head><body><p class=\"x\">text</p></body></html>".toList rfl (by decide)
      (by decide) (by decide) (by decide) (Or.inr rfl) (by decide) rfl).2⟩⟩

end ResolveThumbnails
